import Mathlib

/-!
Shallow embedding of the core of the `myBolt` repository (package `bolt`):
the page layer (`page.go` fragment), the freelist (`freelist.go`) and the
cursor (`cursor.go`), together with proofs of the specification claims.

Modelling conventions:
* Go `uint64` page ids (`Nat`) and transaction ids (`Nat`) are `Nat`;
  wherever the source performs `uint64` arithmetic whose wrap-around is
  observable (subtraction and addition in `allocate` and `free`), the
  embedding computes modulo `2^64` explicitly.
* A Go `map` is an association list (Go map iteration order is irrelevant
  to every result proved here: the source always sorts or builds sets
  after iterating).
* The `cache` map `map[Nat]bool` is a `Finset Nat` (only membership is
  ever observed).
* Go panics (and the impossibility of running past an out-of-range index)
  are modelled by `Option`/`none` results.
* `sort.Sort` on page ids produces the `≤`-sorted permutation of the
  input; on `Nat` any two sorted permutations of the same list are equal,
  so `List.insertionSort` is an exact model.
* Raw page memory reinterpreted through `unsafe.Pointer` is modelled by
  typed views: a `page` carries the logical body for each page kind, and
  the element accessors read from the view selected by the code path.
-/

namespace Bolt

/-- 2^64, the modulus of Go `uint64` arithmetic. Page ids (`pgid`) and
transaction ids (`txid`) are 64-bit unsigned integers in the source,
modelled as `Nat` throughout. -/
def U64 : Nat := 2 ^ 64

/-- Go `uint64` subtraction `a - b` (wraps modulo 2^64); callers supply
`a b < U64`. -/
def sub64 (a b : Nat) : Nat := (U64 + a - b) % U64

/-- page flags: branch page (`branchPageFlag = 0x01`). -/
def branchPageFlag : Nat := 0x01

/-- page flags: leaf page (`leafPageFlag = 0x02`). -/
def leafPageFlag : Nat := 0x02

/-- page flags: meta page (`metaPageFlag = 0x04`). -/
def metaPageFlag : Nat := 0x04

/-- page flags: freelist page (`freelistPageFlag = 0x10`). -/
def freelistPageFlag : Nat := 0x10

/-- leaf element flags: the element is a sub-bucket (`bucketLeafFlag = 0x01`). -/
def bucketLeafFlag : Nat := 0x01

/-- A branch page element, logical view: `key()` bytes and child `Nat`
(the `pos`/`ksize` indirection of the packed layout is resolved). -/
structure branchPageElement where
  key : List Nat
  pgid : Nat
deriving DecidableEq, Inhabited, Repr

/-- A leaf page element, logical view: `flags`, `key()` bytes and
`value()` bytes. -/
structure leafPageElement where
  flags : Nat
  key : List Nat
  value : List Nat
deriving DecidableEq, Inhabited, Repr

/-- A page. The header fields are as in the source; `ptr` (the raw body)
is modelled by one logical view per page kind: the accessors
`branchPageElement(s)`, `leafPageElement(s)` and the freelist id array
read the view corresponding to the page type being assumed by the code
path. -/
structure page where
  id : Nat := 0
  flags : Nat := 0
  count : Nat := 0
  overflow : Nat := 0
  branchElems : List branchPageElement := []
  leafElems : List leafPageElement := []
  freelistIds : List Nat := []
deriving DecidableEq, Inhabited, Repr

/-- An in-memory inode of a node (`node.go`, referenced by the cursor). -/
structure inode where
  flags : Nat := 0
  pgid : Nat := 0
  key : List Nat := []
  value : List Nat := []
deriving DecidableEq, Inhabited, Repr

/-- An in-memory, mutable node (`node.go`, referenced by the cursor):
only the fields the cursor reads are modelled. -/
structure node where
  isLeaf : Bool := false
  inodes : List inode := []
deriving DecidableEq, Inhabited, Repr

/-- `sort.Sort(pgids(...))`: the ascending permutation of the input. -/
def sortPgids (l : List Nat) : List Nat := l.insertionSort (· ≤ ·)

/-- Go `copy(dst, src)`: copies `min (len dst) (len src)` elements onto the
front of `dst`, keeping the rest of `dst`. Returns the new contents of
`dst`. -/
def goCopy (dst src : List Nat) : List Nat :=
  src.take dst.length ++ dst.drop src.length

/-- Go `sort.Search(n, f)`: binary search on `[i, j)`.
Returns the converged index. -/
def sortSearchGo (f : Nat → Bool) (i j : Nat) : Nat :=
  if h : i < j then
    let m := (i + j) / 2
    if f m then sortSearchGo f i m else sortSearchGo f (m + 1) j
  else i
termination_by j - i
decreasing_by
  all_goals simp_wf
  all_goals omega

/-- Go `sort.Search(n, f)`: the smallest index in `[0, n]` at which `f`
becomes true, assuming `f` is monotone (for non-monotone `f` it is
whatever the binary search converges to, exactly as in Go). -/
def sortSearch (n : Nat) (f : Nat → Bool) : Nat := sortSearchGo f 0 n

/-- `mergepgids`, inner loop (`for len(lead) > 0 { ... }`) followed by the
final `_ = append(merged, follow...)`. The output list is the contents
written through the backing buffer of `merged`. `fuel` bounds the number
of iterations: the Go loop does not terminate when the inputs are not
sorted (then `sort.Search` may return 0 and the loop swaps two lists
forever), which `none` models, together with the panic of `follow[0]` on
an empty `follow` (unreachable from `mergepgids`). -/
def mergeLoop : Nat → List Nat → List Nat → List Nat → Option (List Nat)
  | 0, _, _, _ => none
  | fuel + 1, merged, lead, follow =>
    if lead.length > 0 then
      match follow with
      | [] => none
      | f0 :: _ =>
        let n := sortSearch lead.length (fun i => decide (lead.getD i 0 > f0))
        let merged := merged ++ lead.take n
        if n ≥ lead.length then some (merged ++ follow)
        else mergeLoop fuel merged follow (lead.drop n)
    else some (merged ++ follow)

/-- `mergepgids(dst, a, b)`: copies the sorted union of `a` and `b` into
`dst`; returns the new contents of `dst`. `none` models the explicit
panic when `dst` is too small, and divergence of the merge loop on
unsorted inputs. -/
def mergepgids (dst a b : List Nat) : Option (List Nat) :=
  if dst.length < a.length + b.length then none
  else if a.length = 0 then some (goCopy dst b)
  else if b.length = 0 then some (goCopy dst a)
  else
    let lf := if b.getD 0 0 < a.getD 0 0 then (b, a) else (a, b)
    (mergeLoop (a.length + b.length + 1) [] lf.1 lf.2).map
      (fun m => m ++ dst.drop (a.length + b.length))

/-- `pgids.merge(b)`: returns the sorted union of `a` and `b` (allocating
a fresh destination of exactly `len a + len b`). -/
def pgidsMerge (a b : List Nat) : Option (List Nat) :=
  if a.length = 0 then some b
  else if b.length = 0 then some a
  else mergepgids (List.replicate (a.length + b.length) 0) a b

/-- The freelist. `ids` are the free, allocatable page ids; `pending`
maps a transaction id to the ids it freed (a Go map, modelled as an
association list with unique keys); `cache` is the membership set of
both. -/
structure freelist where
  ids : List Nat := []
  pending : List (Nat × List Nat) := []
  cache : Finset Nat := ∅
deriving DecidableEq

/-- `newFreelist()`: empty freelist. -/
def newFreelist : freelist := {}

/-- Go map read `f.pending[Nat]` (zero value `nil` when absent). -/
def pget (ps : List (Nat × List Nat)) (t : Nat) : List Nat :=
  match ps.find? (fun e => e.1 == t) with
  | some e => e.2
  | none => []

/-- Go map delete `delete(f.pending, Nat)`. -/
def pdel (ps : List (Nat × List Nat)) (t : Nat) :
    List (Nat × List Nat) :=
  ps.filter (fun e => e.1 != t)

/-- Go map write `f.pending[Nat] = v`. A Go map is unordered, so the
association-list position of the updated key is unobservable; this
embedding re-inserts the binding at the end. -/
def pset (ps : List (Nat × List Nat)) (t : Nat) (v : List Nat) :
    List (Nat × List Nat) :=
  pdel ps t ++ [(t, v)]

/-- `freelist.free_count()`. -/
def freelist.free_count (f : freelist) : Nat := f.ids.length

/-- `freelist.pending_count()`. -/
def freelist.pending_count (f : freelist) : Nat :=
  (f.pending.map (fun e => e.2.length)).sum

/-- `freelist.count()`. -/
def freelist.count (f : freelist) : Nat := f.free_count + f.pending_count

/-- `freelist.copyall(dst)`: all pending ids, sorted, merged with `ids`
into `dst`; returns the new contents of `dst`. -/
def freelist.copyall (f : freelist) (dst : List Nat) : Option (List Nat) :=
  let m := sortPgids (f.pending.flatMap (fun e => e.2))
  mergepgids dst f.ids m

/-- The loop body of `freelist.allocate`: scans `rest` (the remaining
suffix of `f.ids`, `i` the index of its head in `f.ids`), tracking
`initial` (start of the current contiguous run) and `previd`. Returns
`none` on the `id <= 1` panic, `some none` when the scan is exhausted,
and `some (some (initial, i))` when a run of length `n` ends at index
`i`. All arithmetic is Go `uint64` arithmetic. -/
def allocLoop (n : Nat) : List Nat → Nat → Nat → Nat → Option (Option (Nat × Nat))
  | [], _, _, _ => some none
  | id :: rest, i, initial, previd =>
    if id ≤ 1 then none
    else
      let initial := if previd = 0 ∨ sub64 id previd ≠ 1 then id else initial
      if (sub64 id initial + 1) % U64 = n % U64 then some (some (initial, i))
      else allocLoop n rest (i + 1) initial id

/-- `freelist.allocate(n)`: first-fit allocation of `n` contiguous pages.
`some (0, f)` models the `return 0` (no change); `none` models the
`invalid page allocation` panic. On success the run is spliced out of
`ids` and its ids are deleted from `cache`. -/
def freelist.allocate (f : freelist) (n : Nat) : Option (Nat × freelist) :=
  if f.ids.length = 0 then some (0, f)
  else
    match allocLoop n f.ids 0 0 0 with
    | none => none
    | some none => some (0, f)
    | some (some (initial, i)) =>
      let newIds :=
        if i + 1 = n then f.ids.drop (i + 1)
        else f.ids.take (i + 1 - n) ++ f.ids.drop (i + 1)
      let newCache := (List.range n).foldl
        (fun c k => c.erase ((initial + k) % U64)) f.cache
      some (initial, { f with ids := newIds, cache := newCache })

/-- The loop of `freelist.free`: Go `for id := p.id; id <= upper; id++`
over `uint64` ids, so the increment wraps at `2^64`. A cached id is the
double-free panic (`none`); otherwise the id is appended to the pending
list and cached. The fuel only bounds the real iteration count: every
non-final step caches a fresh id, so the loop panics or exits within
`2^64 + 1` steps, which is the fuel `free` passes. -/
def freeLoop (upper : Nat) : Nat → Nat → List Nat → Finset Nat →
    Option (List Nat × Finset Nat)
  | 0, _, _, _ => none
  | fuel + 1, id, acc, cache =>
    if id ≤ upper then
      if id ∈ cache then none
      else freeLoop upper fuel ((id + 1) % U64) (acc ++ [id]) (insert id cache)
    else some (acc, cache)

/-- `freelist.free(Nat, p)`: runs the free loop from `p.id` with bound
`p.id + p.overflow` computed in `uint64` (so the bound can equal
`2^64 - 1`, where the loop condition holds for every id and the loop
wraps until it panics, or wrap below `p.id`, where the loop body never
runs), then stores the grown list into `pending[Nat]`; `none` models the
two panics (freeing page 0 or 1, and double free). -/
def freelist.free (f : freelist) (t : Nat) (p : page) : Option freelist :=
  if p.id ≤ 1 then none
  else
    match freeLoop ((p.id + p.overflow) % U64) (U64 + 1) p.id
        (pget f.pending t) f.cache with
    | none => none
    | some r =>
      some { f with pending := pset f.pending t r.1, cache := r.2 }

/-- `freelist.release(Nat)`: moves every `pending[tid]` with `tid ≤ Nat`
into `ids` (sorted merge), keeping `cache`. `none` models divergence of
the merge on a corrupted (unsorted) freelist. -/
def freelist.release (f : freelist) (t : Nat) : Option freelist :=
  let m := sortPgids ((f.pending.filter (fun e => decide (e.1 ≤ t))).flatMap
    (fun e => e.2))
  let rest := f.pending.filter (fun e => !decide (e.1 ≤ t))
  (pgidsMerge f.ids m).map (fun merged => { f with ids := merged, pending := rest })

/-- `freelist.rollback(Nat)`: removes `pending[Nat]` from `cache` and
drops the entry. -/
def freelist.rollback (f : freelist) (t : Nat) : freelist :=
  { f with
    cache := (pget f.pending t).foldl (fun c id => c.erase id) f.cache,
    pending := pdel f.pending t }

/-- `freelist.freed(Nat)`. -/
def freelist.freed (f : freelist) (id : Nat) : Bool := id ∈ f.cache

/-- `freelist.reindex()`: rebuilds `cache` from `ids` and `pending`. -/
def freelist.reindex (f : freelist) : freelist :=
  { f with cache :=
      (f.pending.foldl
        (fun c e => e.2.foldl (fun c id => insert id c) c)
        (f.ids.foldl (fun c id => insert id c) (∅ : Finset Nat))) }

/-- `freelist.read(p)`: initializes `ids` from a freelist page (with the
0xFFFF overflow escape) and reindexes. Note the source slices
`[idx:count]`, not `[idx : idx+count]`. -/
def freelist.read (f : freelist) (p : page) : freelist :=
  let idxCount : Nat × Nat :=
    if p.count = 0xFFFF then (1, p.freelistIds.getD 0 0) else (0, p.count)
  let idx := idxCount.1
  let count := idxCount.2
  let f :=
    if count = 0 then { f with ids := [] }
    else { f with ids := sortPgids ((p.freelistIds.drop idx).take (count - idx)) }
  f.reindex

/-- `freelist.write(p)`: serializes free and pending ids onto `p`
(slicing the body after the stored true count when `count() ≥ 0xFFFF`).
The Go function's `error` result is the second component; `none` in the
outer `Option` models non-termination of the merge on a corrupted
freelist (the body buffer of a real page always has enough room: its
length is `size()`). -/
def freelist.write (f : freelist) (p : page) : Option (page × Option String) :=
  let p := { p with flags := p.flags ||| freelistPageFlag }
  let lenids := f.count
  if lenids = 0 then
    some ({ p with count := lenids }, none)
  else if lenids < 0xFFFF then
    (f.copyall p.freelistIds).map
      (fun body => ({ p with count := lenids, freelistIds := body }, none))
  else
    (f.copyall (p.freelistIds.drop 1)).map
      (fun body =>
        ({ p with count := 0xFFFF, freelistIds := (lenids % U64) :: body }, none))

/-- `freelist.reload(p)`: reads the page, then drops from `ids` every id
still pending, and reindexes. -/
def freelist.reload (f : freelist) (p : page) : freelist :=
  let f := f.read p
  let pcache : Finset Nat :=
    f.pending.foldl (fun c e => e.2.foldl (fun c id => insert id c) c) ∅
  let f := { f with ids := f.ids.filter (fun id => !decide (id ∈ pcache)) }
  f.reindex

/-! ### Cursor (`cursor.go`) -/

/-- `bytes.Compare`: lexicographic comparison of byte strings, returning
-1, 0 or 1. -/
def bytesCompare : List Nat → List Nat → Int
  | [], [] => 0
  | [], _ :: _ => -1
  | _ :: _, [] => 1
  | a :: as, b :: bs => if a < b then -1 else if b < a then 1 else bytesCompare as bs

/-- Go `sort.Search` specialised to the cursor's comparison closures: the
binary search additionally records (in the Go original: through a
captured `exact` variable mutated by the predicate) whether any probed
index compared equal. -/
def sortSearchCmpGo (cmp : Nat → Int) (i j : Nat) (exact : Bool) : Nat × Bool :=
  if h : i < j then
    let m := (i + j) / 2
    let ex := if cmp m = 0 then true else exact
    if cmp m ≠ -1 then sortSearchCmpGo cmp i m ex else sortSearchCmpGo cmp (m + 1) j ex
  else (i, exact)
termination_by j - i
decreasing_by
  all_goals simp_wf
  all_goals omega

/-- The `sort.Search(count, func ...)` call of `searchNode`/`searchPage`:
index of convergence plus the `exact` flag. -/
def sortSearchCmp (n : Nat) (cmp : Nat → Int) : Nat × Bool :=
  sortSearchCmpGo cmp 0 n false

/-- The `Bucket` collaborator as consumed by the cursor: the root page id
and the `pageNode` resolver (returns the cached mutable node, or the
mapped page; at least one is non-nil for a valid id). -/
structure Bucket where
  root : Nat
  pageNode : Nat → Option page × Option node

/-- `elemRef`: one cursor stack frame. Exactly as in the source, either
`page` or `node` is authoritative (`node` takes precedence). -/
structure elemRef where
  page : Option page := none
  node : Option node := none
  index : Nat := 0
deriving DecidableEq, Inhabited

/-- `elemRef.isLeaf()`; `none` models the nil-pointer dereference when
both `page` and `node` are absent. -/
def elemRef.isLeaf (r : elemRef) : Option Bool :=
  match r.node with
  | some n => some n.isLeaf
  | none =>
    match r.page with
    | some p => some (decide (p.flags &&& leafPageFlag ≠ 0))
    | none => none

/-- `elemRef.count()`; `none` models the nil-pointer dereference. -/
def elemRef.count (r : elemRef) : Option Nat :=
  match r.node with
  | some n => some n.inodes.length
  | none =>
    match r.page with
    | some p => some p.count
    | none => none

/-- Cursor stacks: the Go slice grows at the end; here the head of the
list is the top (deepest) frame, the last element is the root frame. -/
abbrev CStack := List elemRef

/-- `Cursor.nsearch(key)`: on the top (leaf) frame, binary-search the
leftmost element with key ≥ `key` and record it in `index`. -/
def nsearch (key : List Nat) : CStack → Option CStack
  | [] => none
  | r :: rest =>
    match r.node with
    | some n =>
      let index := sortSearch n.inodes.length
        (fun i => decide (bytesCompare (n.inodes.getD i default).key key ≠ -1))
      some ({ r with index := index } :: rest)
    | none =>
      match r.page with
      | none => none
      | some p =>
        let index := sortSearch p.count
          (fun i => decide (bytesCompare (p.leafElems.getD i default).key key ≠ -1))
        some ({ r with index := index } :: rest)

mutual

/-- `Cursor.search(key, Nat)`: recursive descent; pushes a frame for
`Nat` and continues by `nsearch` on a leaf, else `searchNode` (node
cached) or `searchPage`. `none` models the invalid-page-type panic, nil
dereferences, out-of-range indexing and fuel exhaustion (the source
recursion is bounded by the tree height). -/
def search (b : Bucket) (key : List Nat) : Nat → Nat → CStack → Option CStack
  | 0, _, _ => none
  | fuel + 1, pg, stack =>
    let pn := b.pageNode pg
    if (match pn.1 with
        | some p => decide (p.flags &&& (branchPageFlag ||| leafPageFlag) = 0)
        | none => false) then none
    else
      let e : elemRef := { page := pn.1, node := pn.2, index := 0 }
      let stack := e :: stack
      match e.isLeaf with
      | none => none
      | some true => nsearch key stack
      | some false =>
        match pn.2 with
        | some n => searchNode b key fuel n stack
        | none =>
          match pn.1 with
          | some p => searchPage b key fuel p stack
          | none => none

/-- `Cursor.searchNode(key, n)`: binary search (with `exact` flag) for
the leftmost inode with key ≥ `key`; if not exact and positive, step one
back; store the index in the top frame and recurse into the child. -/
def searchNode (b : Bucket) (key : List Nat) : Nat → node → CStack → Option CStack
  | fuel, n, stack =>
    let r := sortSearchCmp n.inodes.length
      (fun i => bytesCompare (n.inodes.getD i default).key key)
    let index := if r.2 = false ∧ r.1 > 0 then r.1 - 1 else r.1
    match stack with
    | [] => none
    | top :: rest =>
      match n.inodes.get? index with
      | none => none
      | some e => search b key fuel e.pgid ({ top with index := index } :: rest)

/-- `Cursor.searchPage(key, p)`: as `searchNode` but over the branch page
elements, `p.count` of them. -/
def searchPage (b : Bucket) (key : List Nat) : Nat → page → CStack → Option CStack
  | fuel, p, stack =>
    let r := sortSearchCmp p.count
      (fun i => bytesCompare (p.branchElems.getD i default).key key)
    let index := if r.2 = false ∧ r.1 > 0 then r.1 - 1 else r.1
    match stack with
    | [] => none
    | top :: rest =>
      match p.branchElems.get? index with
      | none => none
      | some e => search b key fuel e.pgid ({ top with index := index } :: rest)

end

/-- `Cursor.keyValue()`: key, value and flags of the current leaf
element. `some none` is the `(nil, nil, 0)` result; `none` models
panics/garbage reads on a malformed stack. -/
def keyValue : CStack → Option (Option (List Nat × List Nat × Nat))
  | [] => none
  | r :: _ =>
    match r.count with
    | none => none
    | some cnt =>
      if cnt = 0 ∨ r.index ≥ cnt then some none
      else
        match r.node with
        | some n => (n.inodes.get? r.index).map (fun i => some (i.key, i.value, i.flags))
        | none =>
          match r.page with
          | none => none
          | some p =>
            (p.leafElems.get? r.index).map (fun e => some (e.key, e.value, e.flags))

/-- `Cursor.first()`: descend from the top frame to the leftmost leaf,
pushing index-0 frames. -/
def cfirst (b : Bucket) : Nat → CStack → Option CStack
  | 0, _ => none
  | _ + 1, [] => none
  | fuel + 1, r :: rest =>
    match r.isLeaf with
    | none => none
    | some true => some (r :: rest)
    | some false =>
      let pg? : Option Nat :=
        match r.node with
        | some n => (n.inodes.get? r.index).map (fun i => i.pgid)
        | none =>
          match r.page with
          | none => none
          | some p => (p.branchElems.get? r.index).map (fun e => e.pgid)
      match pg? with
      | none => none
      | some pg =>
        let pn := b.pageNode pg
        cfirst b fuel ({ page := pn.1, node := pn.2, index := 0 } :: r :: rest)

/-- The stack walk opening `Cursor.next()`: from the top, pop frames
whose index cannot advance; advance the first frame that can (the Go
original leaves lower frames in place and truncates the slice above the
advanced frame, which is exactly dropping the walked-over heads here).
`some none` is the `i == -1` outcome (stack exhausted, left unchanged by
the caller). -/
def walkUp : CStack → Option (Option CStack)
  | [] => some none
  | r :: rest =>
    match r.count with
    | none => none
    | some cnt =>
      if r.index < cnt - 1 then some (some ({ r with index := r.index + 1 } :: rest))
      else walkUp rest

/-- `Cursor.next()`: move to the next leaf element; `some none` together
with the unchanged stack models the `(nil, nil, 0)` return at the end
(the cursor stays on the last element). Empty pages are skipped by the
outer loop. -/
def cnext (b : Bucket) : Nat → CStack → Option (Option (List Nat × List Nat × Nat) × CStack)
  | 0, _ => none
  | fuel + 1, stack =>
    match walkUp stack with
    | none => none
    | some none => some (none, stack)
    | some (some st) =>
      match cfirst b (fuel + 1) st with
      | none => none
      | some st2 =>
        match st2.head? with
        | none => none
        | some top =>
          match top.count with
          | none => none
          | some cnt =>
            if cnt = 0 then cnext b fuel st2
            else (keyValue st2).map (fun kv => (kv, st2))

/-- The shared postlude of `First`, `Next`, `Prev` and `Seek`: a nil key
becomes `(nil, nil)`; a sub-bucket element (bucketLeafFlag set) has its
value hidden. -/
def pubOut : Option (List Nat × List Nat × Nat) → Option (List Nat) × Option (List Nat)
  | none => (none, none)
  | some (k, v, fl) =>
    if fl &&& bucketLeafFlag ≠ 0 then (some k, none) else (some k, some v)

/-- `Cursor.Next()`. -/
def CursorNext (b : Bucket) (fuel : Nat) (stack : CStack) :
    Option ((Option (List Nat) × Option (List Nat)) × CStack) :=
  (cnext b fuel stack).map (fun r => (pubOut r.1, r.2))

/-- `Cursor.First()`: reset the stack to the root, descend leftmost,
advance once if the landing page is empty, and read the element. -/
def CursorFirst (b : Bucket) (fuel : Nat) :
    Option ((Option (List Nat) × Option (List Nat)) × CStack) :=
  let pn := b.pageNode b.root
  match cfirst b fuel [{ page := pn.1, node := pn.2, index := 0 }] with
  | none => none
  | some st =>
    let stAfter? : Option CStack :=
      match st.head? with
      | none => none
      | some top =>
        match top.count with
        | none => none
        | some cnt => if cnt = 0 then (cnext b fuel st).map (fun r => r.2) else some st
    match stAfter? with
    | none => none
    | some st2 => (keyValue st2).map (fun kv => (pubOut kv, st2))

/-- `Cursor.seek(key)`: full descent from the root; a landing index past
the end of the leaf gives the `(nil, nil, 0)` sentinel that `Seek` must
repair. -/
def seekInternal (b : Bucket) (key : List Nat) (fuel : Nat) :
    Option (Option (List Nat × List Nat × Nat) × CStack) :=
  match search b key fuel b.root [] with
  | none => none
  | some stack =>
    match stack.head? with
    | none => none
    | some ref =>
      match ref.count with
      | none => none
      | some cnt =>
        if ref.index ≥ cnt then some (none, stack)
        else (keyValue stack).map (fun kv => (kv, stack))

/-- `Cursor.Seek(seek)`: `seek`, then `next` when the landing frame is
past the end of its page, then the nil/sub-bucket postlude. -/
def CursorSeek (b : Bucket) (fuel : Nat) (key : List Nat) :
    Option ((Option (List Nat) × Option (List Nat)) × CStack) :=
  match seekInternal b key fuel with
  | none => none
  | some (kvf, stack) =>
    let step2 : Option (Option (List Nat × List Nat × Nat) × CStack) :=
      match stack.head? with
      | none => none
      | some ref =>
        match ref.count with
        | none => none
        | some cnt => if ref.index ≥ cnt then cnext b fuel stack else some (kvf, stack)
    step2.map (fun r => (pubOut r.1, r.2))

/-- Iterated cursor: `cursorSteps b fuel k` is the result (output and
stack) after `First()` followed by `k` calls of `Next()`. -/
def cursorSteps (b : Bucket) (fuel : Nat) :
    Nat → Option ((Option (List Nat) × Option (List Nat)) × CStack)
  | 0 => CursorFirst b fuel
  | k + 1 => (cursorSteps b fuel k).bind (fun r => CursorNext b fuel r.2)

/-! ### Specification-side vocabulary

Abstract B+trees, the relation tying them to a `Bucket`'s pages/nodes,
cursor-position validity, and the freelist invariants, used to state the
claims. -/

/-- An abstract B+tree: leaves carry the leaf elements, a branch carries
(separator key, subtree) pairs. -/
inductive btree where
  | leaf (elems : List leafPageElement)
  | branch (children : List (List Nat × btree))
deriving Inhabited

mutual

/-- All leaf elements of a tree, left to right. -/
def btree.leaves : btree → List leafPageElement
  | .leaf es => es
  | .branch cs => leavesList cs

/-- All leaf elements under a list of children, left to right. -/
def leavesList : List (List Nat × btree) → List leafPageElement
  | [] => []
  | c :: cs => c.2.leaves ++ leavesList cs

end

mutual

/-- Height of a tree (a single leaf has depth 1). -/
def btree.depth : btree → Nat
  | .leaf _ => 1
  | .branch cs => depthList cs + 1

/-- Maximum depth over a list of children. -/
def depthList : List (List Nat × btree) → Nat
  | [] => 0
  | c :: cs => max c.2.depth (depthList cs)

end

/-- The first leaf key under a tree (`[]` for an empty tree). -/
def headKey (t : btree) : List Nat :=
  match t.leaves with
  | [] => []
  | e :: _ => e.key

mutual

/-- Structural well-formedness of a (nonempty) B+tree as maintained by
bolt: every leaf is nonempty, every branch is nonempty, and each branch
separator key is the first leaf key of its subtree. -/
def btree.wf : btree → Prop
  | .leaf es => es ≠ []
  | .branch cs => cs ≠ [] ∧ wfList cs

/-- `btree.wf` for each child, plus the separator-key condition. -/
def wfList : List (List Nat × btree) → Prop
  | [] => True
  | c :: cs => c.2.wf ∧ c.1 = headKey c.2 ∧ wfList cs

end

/-- A resolved page/node viewed as its element list. -/
inductive rview where
  | leafV (es : List leafPageElement)
  | branchV (es : List branchPageElement)

/-- `ViewOf pn v`: the `(page, node)` pair returned by `pageNode`
resolves, through the accessors the cursor uses (`isLeaf`, `count`,
element reads, with `node` taking precedence), to exactly the element
list `v`. Exactly one of the two is present, as `Bucket.pageNode`
guarantees. -/
def ViewOf : Option page × Option node → rview → Prop
  | (none, some n), .leafV es =>
    n.isLeaf = true ∧ es = n.inodes.map (fun i => ⟨i.flags, i.key, i.value⟩)
  | (none, some n), .branchV es =>
    n.isLeaf = false ∧ es = n.inodes.map (fun i => ⟨i.key, i.pgid⟩)
  | (some p, none), .leafV es =>
    p.flags = leafPageFlag ∧ p.count = es.length ∧ p.leafElems = es
  | (some p, none), .branchV es =>
    p.flags = branchPageFlag ∧ p.count = es.length ∧ p.branchElems = es
  | _, _ => False

/-- `Represents b pg t`: resolving `pg` through `b` yields the abstract
tree `t`. -/
inductive Represents (b : Bucket) : Nat → btree → Prop
  | leaf {pg : Nat} {es : List leafPageElement} :
      ViewOf (b.pageNode pg) (.leafV es) →
      Represents b pg (.leaf es)
  | branch {pg : Nat} {cs : List (List Nat × btree)} (es : List branchPageElement) :
      ViewOf (b.pageNode pg) (.branchV es) →
      es.length = cs.length →
      (∀ k, k < cs.length → (es.getD k default).key = (cs.getD k default).1) →
      (∀ k, k < cs.length → Represents b (es.getD k default).pgid (cs.getD k default).2) →
      Represents b pg (.branch cs)

/-- Number of leaf elements in the children before child `j`. -/
def offsetAt (cs : List (List Nat × btree)) (j : Nat) : Nat :=
  (leavesList (cs.take j)).length

/-- `CursorAt b t s i`: the stack `s` is a valid root-to-leaf path of the
tree `t` (resolved through `b`), positioned on the `i`-th leaf element of
`t` in flattened order; in the top (leaf) frame `i` may be the leaf's
length, the past-the-end position that `seek` can produce. -/
inductive CursorAt (b : Bucket) : btree → CStack → Nat → Prop
  | leaf {es : List leafPageElement} {r : elemRef} {i : Nat} :
      ViewOf (r.page, r.node) (.leafV es) →
      r.index = i → i ≤ es.length →
      CursorAt b (.leaf es) [r] i
  | branch {cs : List (List Nat × btree)} {r : elemRef} {s : CStack}
      (es : List branchPageElement) {j i : Nat} :
      ViewOf (r.page, r.node) (.branchV es) →
      es.length = cs.length →
      (∀ k, k < cs.length → (es.getD k default).key = (cs.getD k default).1) →
      (∀ k, k < cs.length → Represents b (es.getD k default).pgid (cs.getD k default).2) →
      r.index = j → j < cs.length →
      CursorAt b (cs.getD j default).2 s i →
      CursorAt b (.branch cs) (s ++ [r]) (offsetAt cs j + i)

/-- The top frame of the stack can still advance within its own
page/node: its index is strictly below its element count. -/
def topSlack (s : CStack) : Prop :=
  match s with
  | [] => False
  | r :: _ =>
    match r.count with
    | some c => r.index < c
    | none => False

/-- There are `n` consecutive free ids starting at `s`. -/
def HasRun (l : List Nat) (s : Nat) (n : Nat) : Prop := ∀ k, k < n → s + k ∈ l

/-- The set of all ids in all pending lists. -/
def pendingUnion (ps : List (Nat × List Nat)) : Finset Nat :=
  ps.foldr (fun e acc => e.2.toFinset ∪ acc) ∅

/-- Freelist invariant 1: the cache is exactly the ids plus all pending
ids. -/
def goodCache (f : freelist) : Prop :=
  f.cache = f.ids.toFinset ∪ pendingUnion f.pending

/-- Freelist invariant 2/3 for an id list: strictly ascending, all ids
greater than 1 (and representable as `uint64`). -/
def goodIds (l : List Nat) : Prop :=
  l.Chain' (· < ·) ∧ ∀ id ∈ l, 1 < id ∧ id < U64

/-! ### Basic lemmas -/

theorem U64_eq : U64 = 18446744073709551616 := by norm_num [U64]

theorem sub64_eq {a b : Nat} (hba : b ≤ a) (ha : a - b < U64) :
    sub64 a b = a - b := by
  rw [U64_eq] at ha
  simp only [sub64, U64_eq]
  omega

theorem foldl_insert_eq (l : List Nat) (c : Finset Nat) :
    l.foldl (fun c id => insert id c) c = c ∪ l.toFinset := by
  induction l generalizing c with
  | nil => simp
  | cons a l ih =>
    simp only [List.foldl_cons, ih, List.toFinset_cons]
    ext x
    simp
    try tauto

theorem foldl_erase_eq (l : List Nat) (c : Finset Nat) :
    l.foldl (fun c id => c.erase id) c = c \ l.toFinset := by
  induction l generalizing c with
  | nil => simp
  | cons a l ih =>
    simp only [List.foldl_cons, ih, List.toFinset_cons]
    ext x
    simp
    tauto

theorem find?_pdel_none (ps : List (Nat × List Nat)) (t : Nat) :
    (pdel ps t).find? (fun e => e.1 == t) = none := by
  rw [List.find?_eq_none]
  intro e he
  have := List.of_mem_filter he
  simpa using this

theorem find?_pdel_ne (ps : List (Nat × List Nat)) (t t' : Nat) (h : t' ≠ t) :
    (pdel ps t).find? (fun e => e.1 == t') = ps.find? (fun e => e.1 == t') := by
  induction ps with
  | nil => rfl
  | cons e ps ih =>
    by_cases he : e.1 = t
    · have hb : (e.1 != t) = false := by simp [he]
      have hb' : (e.1 == t') = false := by simp [he, Ne.symm h]
      simp [pdel, hb, hb', List.find?_cons] at ih ⊢
      exact ih
    · have hb : (e.1 != t) = true := by simp [he]
      by_cases he' : e.1 = t'
      · have hb' : (e.1 == t') = true := by simpa using he'
        simp [pdel, hb, hb', List.find?_cons]
      · have hb' : (e.1 == t') = false := by simpa using he'
        simp [pdel, hb, hb', List.find?_cons] at ih ⊢
        exact ih

theorem pget_pset_self (ps : List (Nat × List Nat)) (t : Nat) (v : List Nat) :
    pget (pset ps t v) t = v := by
  simp [pget, pset, List.find?_append, find?_pdel_none, List.find?_cons]

theorem pget_pset_ne (ps : List (Nat × List Nat)) (t t' : Nat) (v : List Nat)
    (h : t' ≠ t) : pget (pset ps t v) t' = pget ps t' := by
  have hb1 : (t == t') = false := by simpa using (Ne.symm h)
  simp [pget, pset, List.find?_append, find?_pdel_ne ps t t' h, List.find?_cons, hb1]

theorem pdel_pdel (ps : List (Nat × List Nat)) (t : Nat) :
    pdel (pdel ps t) t = pdel ps t := by
  simp [pdel, List.filter_filter]

theorem pdel_pset (ps : List (Nat × List Nat)) (t : Nat) (v : List Nat) :
    pdel (pset ps t v) t = pdel ps t := by
  simp [pset, pdel, List.filter_append, List.filter_filter]

theorem pdel_of_none (ps : List (Nat × List Nat)) (t : Nat)
    (h : ps.find? (fun e => e.1 == t) = none) : pdel ps t = ps := by
  rw [List.find?_eq_none] at h
  simp only [pdel]
  rw [List.filter_eq_self]
  intro e he
  simpa using h e he

theorem pget_eq_nil_of_find?_none (ps : List (Nat × List Nat)) (t : Nat)
    (h : ps.find? (fun e => e.1 == t) = none) : pget ps t = [] := by
  simp [pget, h]

theorem chain'_lt_range' (s n : Nat) : List.Chain' (· < ·) (List.range' s n) := by
  induction n generalizing s with
  | zero => simp
  | succ n ih =>
    rw [List.range'_succ]
    rw [List.chain'_cons']
    refine ⟨?_, ih (s + 1)⟩
    intro h hh
    cases n with
    | zero => simp at hh
    | succ m =>
      rw [List.range'_succ] at hh
      simp at hh
      omega

/-! ### C10: `freelist.write` never returns an error -/

/-- C10: `freelist.write` returns a nil error for every input page and
every freelist state on which it terminates: despite its `error` return
type, serialization has no failure path. -/
theorem c10_write_never_errors (f : freelist) (p p' : page) (e : Option String)
    (h : f.write p = some (p', e)) : e = none := by
  simp only [freelist.write] at h
  split at h
  · rw [Option.some.injEq, Prod.mk.injEq] at h
    exact h.2.symm
  · split at h
    · rw [Option.map_eq_some'] at h
      obtain ⟨body, -, hEq⟩ := h
      rw [Prod.mk.injEq] at hEq
      exact hEq.2.symm
    · rw [Option.map_eq_some'] at h
      obtain ⟨body, -, hEq⟩ := h
      rw [Prod.mk.injEq] at hEq
      exact hEq.2.symm

/-- C10 witness: a concrete successful write with a nil error. -/
theorem c10_write_never_errors_witness :
    ∃ p' e, newFreelist.write {} = some (p', e) ∧ e = none := by
  refine ⟨{ flags := freelistPageFlag }, none, ?_, ?_⟩
  · rfl
  · exact c10_write_never_errors newFreelist {} { flags := freelistPageFlag } none rfl

/-- The free loop with bound `2^64 - 1` never returns: no `uint64` id
exceeds the bound, so it can only panic or run out of fuel. -/
theorem freeLoop_max_none : ∀ (fuel id : Nat) (acc : List Nat)
    (cache : Finset Nat), id < U64 →
    freeLoop (U64 - 1) fuel id acc cache = none := by
  intro fuel
  induction fuel with
  | zero =>
    intro id acc cache h
    rfl
  | succ f ih =>
    intro id acc cache h
    rw [freeLoop]
    rw [if_pos (by omega)]
    by_cases hc : id ∈ cache
    · rw [if_pos hc]
    · rw [if_neg hc]
      exact ih _ _ _ (Nat.mod_lt _ (by rw [U64_eq]; omega))

/-- Below the `uint64` boundary the free loop is a plain pass over the
range `[id, upper]`: it panics iff some id of the range is cached, and
otherwise appends the range and caches it. -/
theorem freeLoop_range {upper : Nat} (hu : upper < U64 - 1) :
    ∀ (cnt fuel id : Nat) (acc : List Nat) (cache : Finset Nat),
      id + cnt = upper + 1 → cnt < fuel →
      freeLoop upper fuel id acc cache =
        (if (List.range' id cnt).any (fun i => decide (i ∈ cache)) then none
         else some (acc ++ List.range' id cnt,
           (List.range' id cnt).foldl (fun c i => insert i c) cache)) := by
  intro cnt
  induction cnt with
  | zero =>
    intro fuel id acc cache hsum hf
    cases fuel with
    | zero => omega
    | succ f =>
      rw [freeLoop]
      rw [if_neg (by omega)]
      simp
  | succ c ih =>
    intro fuel id acc cache hsum hf
    cases fuel with
    | zero => omega
    | succ f =>
      rw [freeLoop]
      rw [if_pos (by omega)]
      rw [show List.range' id (c + 1) = id :: List.range' (id + 1) c from rfl]
      by_cases hc : id ∈ cache
      · rw [if_pos hc]
        rw [if_pos (by simp [hc])]
      · rw [if_neg hc]
        rw [show (id + 1) % U64 = id + 1 from Nat.mod_eq_of_lt (by omega)]
        rw [ih f (id + 1) (acc ++ [id]) (insert id cache) (by omega) (by omega)]
        have hdec : (decide (id ∈ cache)) = false := by simp [hc]
        have hmem : ∀ i ∈ List.range' (id + 1) c,
            (decide (i ∈ insert id cache)) = (decide (i ∈ cache)) := by
          intro i hi
          rw [List.mem_range'_1] at hi
          simp only [Finset.mem_insert, decide_eq_decide]
          constructor
          · rintro (h | h)
            · omega
            · exact h
          · exact Or.inr
        have hany : ((List.range' (id + 1) c).any
              fun i => decide (i ∈ insert id cache)) =
            ((List.range' (id + 1) c).any fun i => decide (i ∈ cache)) := by
          cases hb2 : ((List.range' (id + 1) c).any fun i => decide (i ∈ cache)) with
          | false =>
            rw [List.any_eq_false] at hb2 ⊢
            intro i hi
            rw [hmem i hi]
            exact hb2 i hi
          | true =>
            rw [List.any_eq_true] at hb2 ⊢
            obtain ⟨i, hi, hp⟩ := hb2
            refine ⟨i, hi, ?_⟩
            rw [hmem i hi]
            exact hp
        rw [hany]
        rw [List.any_cons, hdec, Bool.false_or, List.foldl_cons]
        simp

/-- Away from the `2^64 - 1` boundary, `free` behaves as the plain range
update: panic below id 2 or on a cached id of `[p.id, upper]`, success
appends the range to `pending[t]` and caches it. -/
theorem free_eq_classic (f : freelist) (t : Nat) (p : page)
    (hb : ¬ (p.id ≤ (p.id + p.overflow) % U64 ∧
      (p.id + p.overflow) % U64 = U64 - 1)) :
    f.free t p =
      if p.id ≤ 1 then none
      else if (List.range' p.id ((p.id + p.overflow) % U64 + 1 - p.id)).any
          (fun id => decide (id ∈ f.cache)) then none
      else some { f with
        pending := pset f.pending t (pget f.pending t ++
          List.range' p.id ((p.id + p.overflow) % U64 + 1 - p.id)),
        cache := (List.range' p.id ((p.id + p.overflow) % U64 + 1 - p.id)).foldl
          (fun c id => insert id c) f.cache } := by
  rw [freelist.free]
  by_cases h1 : p.id ≤ 1
  · rw [if_pos h1, if_pos h1]
  · rw [if_neg h1, if_neg h1]
    by_cases h2 : p.id ≤ (p.id + p.overflow) % U64
    · have hm : (p.id + p.overflow) % U64 < U64 :=
        Nat.mod_lt _ (by rw [U64_eq]; omega)
      have hu : (p.id + p.overflow) % U64 < U64 - 1 := by
        rcases Nat.lt_or_ge ((p.id + p.overflow) % U64) (U64 - 1) with h | h
        · exact h
        · exact absurd ⟨h2, by omega⟩ hb
      rw [freeLoop_range hu ((p.id + p.overflow) % U64 + 1 - p.id) (U64 + 1)
        p.id _ _ (by omega) (by omega)]
      by_cases h3 : (List.range' p.id ((p.id + p.overflow) % U64 + 1 - p.id)).any
          (fun id => decide (id ∈ f.cache))
      · rw [if_pos h3, if_pos h3]
      · rw [if_neg h3, if_neg h3]
    · rw [freeLoop]
      rw [if_neg h2]
      rw [show (p.id + p.overflow) % U64 + 1 - p.id = 0 from by omega]
      rw [show List.range' p.id 0 = [] from rfl]
      simp

/-- At the boundary `(p.id + p.overflow) % 2^64 = 2^64 - 1` (and a start
id above 1 and not past the bound), `free` always panics. -/
theorem free_boundary_none (f : freelist) (t : Nat) (p : page)
    (hid : 1 < p.id) (hle : p.id ≤ (p.id + p.overflow) % U64)
    (hb : (p.id + p.overflow) % U64 = U64 - 1) :
    f.free t p = none := by
  rw [freelist.free, if_neg (by omega)]
  rw [hb]
  rw [freeLoop_max_none (U64 + 1) p.id _ _ (by omega)]

/-! ### C8: `free` then `rollback` -/

/-- C8 as stated is false: if transaction `t` already has pending pages,
`rollback t` drops them all, not only the ones the intervening `free`
added. Here `pending[10] = [5]` before `free`, and the state after
`free(10, {20})`; `rollback(10)` has empty pending and cache. -/
theorem c8_counterexample :
    ∃ g, freelist.free
        { ids := [], pending := [(10, [5])], cache := {5} } 10 { id := 20 } = some g ∧
      g.rollback 10 ≠ { ids := [], pending := [(10, [5])], cache := ({5} : Finset Nat) } := by
  refine ⟨_, rfl, ?_⟩
  decide

theorem freelist.ext_eq {a b : freelist} (h1 : a.ids = b.ids)
    (h2 : a.pending = b.pending) (h3 : a.cache = b.cache) : a = b := by
  cases a
  cases b
  simp_all

/-- C8 amended: for every freelist state in which transaction `t` has no
pending entry, and every page `p` for which `free` does not panic,
`free(t, p)` followed by `rollback(t)` restores the freelist exactly. -/
theorem c8_free_rollback (f : freelist) (t : Nat) (p : page) (g : freelist)
    (ht : f.pending.find? (fun e => e.1 == t) = none)
    (h : f.free t p = some g) : g.rollback t = f := by
  by_cases hbd : p.id ≤ (p.id + p.overflow) % U64 ∧
      (p.id + p.overflow) % U64 = U64 - 1
  · by_cases h1 : p.id ≤ 1
    · rw [freelist.free, if_pos h1] at h
      exact absurd h (by simp)
    · rw [free_boundary_none f t p (by omega) hbd.1 hbd.2] at h
      exact absurd h (by simp)
  rw [free_eq_classic f t p hbd] at h
  split at h
  · exact absurd h (by simp)
  · split at h
    · exact absurd h (by simp)
    · rename_i hid hmem
      rw [Option.some.injEq] at h
      subst h
      have hpg : pget f.pending t = [] := pget_eq_nil_of_find?_none _ _ ht
      apply freelist.ext_eq
      · rfl
      · show pdel (pset f.pending t (pget f.pending t ++
            List.range' p.id ((p.id + p.overflow) % U64 + 1 - p.id))) t = f.pending
        rw [pdel_pset, pdel_of_none _ _ ht]
      · show (pget (pset f.pending t (pget f.pending t ++
            List.range' p.id ((p.id + p.overflow) % U64 + 1 - p.id))) t).foldl
            (fun c id => c.erase id)
            ((List.range' p.id ((p.id + p.overflow) % U64 + 1 - p.id)).foldl
              (fun c id => insert id c) f.cache) = f.cache
        rw [pget_pset_self, hpg, List.nil_append, foldl_erase_eq, foldl_insert_eq]
        ext x
        simp only [Finset.mem_sdiff, Finset.mem_union, List.mem_toFinset]
        constructor
        · rintro ⟨hx | hx, hnx⟩
          · exact hx
          · exact absurd hx hnx
        · intro hx
          refine ⟨Or.inl hx, ?_⟩
          intro hmem'
          apply hmem
          rw [List.any_eq_true]
          exact ⟨x, hmem', by simpa using hx⟩

/-- C8 witness: a concrete `free` followed by `rollback` restoring the
state, through `c8_free_rollback`. -/
theorem c8_free_rollback_witness :
    (({ ids := [3], cache := {3} } : freelist).pending.find?
        (fun e => e.1 == 10) = none) ∧
    ∃ g, freelist.free { ids := [3], cache := {3} } 10 { id := 20 } = some g ∧
      g.rollback 10 = { ids := [3], cache := {3} } := by
  refine ⟨rfl, _, rfl, ?_⟩
  exact c8_free_rollback { ids := [3], cache := {3} } 10 { id := 20 } _ rfl rfl

/-! ### C9: `free` panic condition and effect -/

/-- The original C9 fails at the `uint64` boundary: for
`p.id + p.overflow = 2^64 - 1` the Go loop condition
`id <= p.id+pgid(p.overflow)` holds for every `uint64`, so the loop
wraps past `2^64 - 1` and inevitably hits the double-free panic on an id
it cached itself — here `p.id = 2^64 - 1 > 1` and no id of the range
`p.id … p.id+p.overflow` is cached (the cache is empty), yet `free`
panics. -/
theorem c9_counterexample :
    ¬ ((U64 - 1 : Nat) ≤ 1) ∧
    (¬ ∃ id, U64 - 1 ≤ id ∧ id ≤ (U64 - 1) + 0 ∧ id ∈ newFreelist.cache) ∧
    freelist.free newFreelist 10 { id := U64 - 1, overflow := 0 } = none := by
  refine ⟨by rw [U64_eq]; omega, ?_, ?_⟩
  · rintro ⟨id, -, -, hmem⟩
    exact absurd hmem (Finset.not_mem_empty id)
  · refine free_boundary_none newFreelist 10 { id := U64 - 1, overflow := 0 }
      ?_ ?_ ?_
    · show 1 < U64 - 1
      rw [U64_eq]
      omega
    · show U64 - 1 ≤ (U64 - 1 + 0) % U64
      rw [U64_eq]
    · show (U64 - 1 + 0) % U64 = U64 - 1
      rw [U64_eq]

/-- C9 amended: for every page whose id range stays below the maximal
`uint64` (`p.id + p.overflow < 2^64 - 1`), `free(t, p)` panics exactly
when `p.id ≤ 1` or some id in `p.id … p.id+p.overflow` is already in the
cache; when it does not panic it appends exactly the ids
`p.id … p.id+p.overflow`, in ascending order, to `pending[t]` (other
transactions unchanged), adds them to the cache, and leaves `ids`
unchanged. At `p.id + p.overflow = 2^64 - 1` the loop instead wraps and
always panics (see the counterexample). -/
theorem c9_free_spec (f : freelist) (t : Nat) (p : page)
    (hw : p.id + p.overflow < U64 - 1) :
    (f.free t p = none ↔ p.id ≤ 1 ∨
      ∃ id, p.id ≤ id ∧ id ≤ p.id + p.overflow ∧ id ∈ f.cache) ∧
    (∀ g, f.free t p = some g →
      pget g.pending t = pget f.pending t ++ List.range' p.id (p.overflow + 1) ∧
      (∀ t', t' ≠ t → pget g.pending t' = pget f.pending t') ∧
      g.cache = f.cache ∪ (List.range' p.id (p.overflow + 1)).toFinset ∧
      g.ids = f.ids ∧
      (List.range' p.id (p.overflow + 1)).Chain' (· < ·)) := by
  have hmod : (p.id + p.overflow) % U64 = p.id + p.overflow :=
    Nat.mod_eq_of_lt (by have := U64_eq; omega)
  have hlen : (p.id + p.overflow) % U64 + 1 - p.id = p.overflow + 1 := by
    rw [hmod]; omega
  have hb : ¬ (p.id ≤ (p.id + p.overflow) % U64 ∧
      (p.id + p.overflow) % U64 = U64 - 1) := by
    rw [hmod]
    have := U64_eq
    omega
  constructor
  · constructor
    · intro h
      rw [free_eq_classic f t p hb] at h
      split at h
      · left; assumption
      · split at h
        · rename_i hgt hany
          right
          rw [List.any_eq_true] at hany
          obtain ⟨id, hmem, hc⟩ := hany
          rw [hlen, List.mem_range'_1] at hmem
          exact ⟨id, by omega, by omega, by simpa using hc⟩
        · simp at h
    · intro h
      rw [free_eq_classic f t p hb]
      split
      · rfl
      · rename_i hgt
        rw [if_pos]
        rw [List.any_eq_true]
        rcases h with h1 | ⟨id, h1, h2, h3⟩
        · omega
        · exact ⟨id, by rw [hlen, List.mem_range'_1]; omega, by simpa using h3⟩
  · intro g hg
    rw [free_eq_classic f t p hb] at hg
    split at hg
    · simp at hg
    · split at hg
      · simp at hg
      · rw [Option.some.injEq] at hg
        subst hg
        rw [hlen]
        refine ⟨pget_pset_self _ _ _, fun t' h => pget_pset_ne _ _ _ _ h, ?_, rfl,
          chain'_lt_range' _ _⟩
        rw [foldl_insert_eq]

/-! ### Binary search (`sort.Search`) characterization -/

theorem sortSearchGo_spec (f : Nat → Bool) (n : Nat)
    (hmono : ∀ k l, k ≤ l → l < n → f k = true → f l = true) :
    ∀ d i j, j - i ≤ d → i ≤ j → j ≤ n →
      (∀ k, k < i → f k = false) →
      (∀ k, j ≤ k → k < n → f k = true) →
      (i ≤ sortSearchGo f i j ∧ sortSearchGo f i j ≤ j) ∧
      (∀ k, k < sortSearchGo f i j → f k = false) ∧
      (sortSearchGo f i j < n → f (sortSearchGo f i j) = true) := by
  intro d
  induction d with
  | zero =>
    intro i j hd hij hjn hlow hhigh
    have hji : i = j := by omega
    subst hji
    rw [sortSearchGo]
    simp only [lt_irrefl, dite_false]
    exact ⟨⟨le_refl _, le_refl _⟩, hlow, fun h => hhigh i (le_refl _) h⟩
  | succ d ih =>
    intro i j hd hij hjn hlow hhigh
    rw [sortSearchGo]
    by_cases hlt : i < j
    · simp only [dif_pos hlt]
      have hdiv : i ≤ (i + j) / 2 ∧ (i + j) / 2 < j := by omega
      split
      · rename_i hf
        have h := ih i ((i + j) / 2) (by omega) (by omega) (by omega) hlow
          (fun k hk1 hk2 => hmono _ k hk1 hk2 hf)
        exact ⟨⟨h.1.1, le_trans h.1.2 (by omega)⟩, h.2.1, h.2.2⟩
      · rename_i hf
        have h := ih ((i + j) / 2 + 1) j (by omega) (by omega) hjn
          (by
            intro k hk
            by_cases hki : k < i
            · exact hlow k hki
            · rcases Bool.eq_false_or_eq_true (f k) with h | h
              · exact absurd (hmono k ((i + j) / 2) (by omega) (by omega) h) hf
              · exact h)
          hhigh
        exact ⟨⟨le_trans (by omega) h.1.1, h.1.2⟩, h.2.1, h.2.2⟩
    · simp only [dif_neg hlt]
      have hji : i = j := by omega
      exact ⟨⟨le_refl _, by omega⟩, hlow, fun h => hhigh i (by omega) h⟩

/-- The three facts pinning down `sort.Search(n, f)` for a predicate
monotone on `[0, n)`: it is at most `n`, everything before it is false,
and it is true when within range. -/
theorem sortSearch_spec (n : Nat) (f : Nat → Bool)
    (hmono : ∀ k l, k ≤ l → l < n → f k = true → f l = true) :
    sortSearch n f ≤ n ∧
    (∀ k, k < sortSearch n f → f k = false) ∧
    (sortSearch n f < n → f (sortSearch n f) = true) := by
  have h := sortSearchGo_spec f n hmono n 0 n (by omega) (by omega) (le_refl _)
    (by omega) (by intro k h1 h2; omega)
  exact ⟨h.1.2, h.2.1, h.2.2⟩

/-! ### `mergepgids` (C6) -/

theorem mergeLoop_perm :
    ∀ (fuel : Nat) (merged lead follow r : List Nat),
      mergeLoop fuel merged lead follow = some r →
      r.Perm (merged ++ (lead ++ follow)) := by
  intro fuel
  induction fuel with
  | zero => intro merged lead follow r h; exact absurd h (by simp [mergeLoop])
  | succ fuel ih =>
    intro merged lead follow r h
    rw [mergeLoop.eq_def] at h
    simp only at h
    by_cases hl : lead.length > 0
    · rw [if_pos hl] at h
      match hfol : follow with
      | [] => exact absurd h (by simp)
      | f0 :: fs =>
        simp only at h
        set m := sortSearch lead.length (fun i => decide (lead.getD i 0 > f0)) with hm
        by_cases hge : m ≥ lead.length
        · rw [if_pos hge] at h
          rw [Option.some.injEq] at h
          subst h
          rw [List.take_of_length_le (by omega)]
          simp [List.append_assoc]
        · rw [if_neg hge] at h
          have hp := ih _ _ _ _ h
          refine hp.trans ?_
          have hld : lead = lead.take m ++ lead.drop m := (List.take_append_drop m lead).symm
          conv_rhs => rw [hld]
          simp only [List.append_assoc]
          refine (List.Perm.append_left merged ?_)
          refine (List.Perm.append_left (lead.take m) ?_)
          exact List.perm_append_comm
    · rw [if_neg hl] at h
      rw [Option.some.injEq] at h
      subst h
      have : lead = [] := by
        rw [← List.length_eq_zero]
        omega
      subst this
      simp

theorem mergeLoop_total_sorted :
    ∀ (fuel : Nat) (merged lead follow : List Nat),
      lead.length + follow.length < fuel →
      lead.Sorted (· ≤ ·) → follow.Sorted (· ≤ ·) → merged.Sorted (· ≤ ·) →
      (∀ x ∈ merged, ∀ y ∈ lead, x ≤ y) →
      (∀ x ∈ merged, ∀ y ∈ follow, x ≤ y) →
      (∀ lh ∈ lead.head?, ∀ fh ∈ follow.head?, lh ≤ fh) →
      (follow = [] → lead = []) →
      ∃ r, mergeLoop fuel merged lead follow = some r ∧ r.Sorted (· ≤ ·) := by
  intro fuel
  induction fuel with
  | zero => intro merged lead follow h; exact absurd h (by omega)
  | succ fuel ih =>
    intro merged lead follow hf hsl hsf hsm hml hmf hlf hfe
    by_cases hl : lead.length > 0
    · match hfol : follow with
      | [] =>
        exfalso
        have := hfe rfl
        subst this
        simp at hl
      | f0 :: fs =>
        subst hfol
        rw [mergeLoop.eq_def]
        try simp only
        rw [if_pos hl]
        try simp only
        set m := sortSearch lead.length (fun i => decide (lead.getD i 0 > f0)) with hm
        have hmono : ∀ k l, k ≤ l → l < lead.length →
            (decide (lead.getD k 0 > f0) = true) → (decide (lead.getD l 0 > f0) = true) := by
          intro k l hkl hln hk
          rw [decide_eq_true_iff] at hk ⊢
          have hkn : k < lead.length := by omega
          rw [List.getD_eq_getElem _ _ hln]
          rw [List.getD_eq_getElem _ _ hkn] at hk
          rcases Nat.eq_or_lt_of_le hkl with h | h
          · subst h; exact hk
          · have := (List.pairwise_iff_getElem.mp hsl) k l hkn hln h
            omega
        have hspec := sortSearch_spec lead.length _ hmono
        rw [← hm] at hspec
        obtain ⟨hle, hfalse, htrue⟩ := hspec
        -- elements of the taken prefix are ≤ f0
        have htake : ∀ x ∈ lead.take m, x ≤ f0 := by
          intro x hx
          rw [List.mem_iff_getElem] at hx
          obtain ⟨i, hi, hx⟩ := hx
          have hi' : i < lead.length := by
            have := List.length_take_le m lead
            have h2 : i < min m lead.length := by
              simpa [List.length_take] using hi
            omega
          have him : i < m := by
            have h2 : i < min m lead.length := by
              simpa [List.length_take] using hi
            omega
          have := hfalse i him
          rw [decide_eq_false_iff_not] at this
          rw [List.getD_eq_getElem _ _ hi'] at this
          rw [List.getElem_take] at hx
          omega
        -- head of lead ≤ f0
        have hl0 : lead.getD 0 0 ≤ f0 := by
          match hld : lead with
          | [] => simp at hl
          | x :: xs =>
            have := hlf x (by simp [hld]) f0 (by simp)
            simpa using this
        have hmpos : 0 < m := by
          rcases Nat.eq_zero_or_pos m with h0 | h0
          · exfalso
            have := htrue (by omega)
            rw [h0, decide_eq_true_iff] at this
            omega
          · exact h0
        by_cases hge : m ≥ lead.length
        · rw [if_pos hge]
          refine ⟨_, rfl, ?_⟩
          rw [List.take_of_length_le (by omega)]
          rw [List.append_assoc, List.Sorted, List.pairwise_append]
          refine ⟨hsm, ?_, ?_⟩
          · rw [List.pairwise_append]
            refine ⟨hsl, hsf, ?_⟩
            intro x hx y hy
            have hx' : x ≤ f0 := htake x (by rw [List.take_of_length_le (by omega)]; exact hx)
            have : f0 ≤ y ∨ f0 = y := by
              rcases List.mem_cons.mp hy with h | h
              · right; omega
              · left
                exact List.rel_of_sorted_cons hsf y h
            omega
          · intro x hx y hy
            rcases List.mem_append.mp hy with h | h
            · exact hml x hx y h
            · exact hmf x hx y h
        · rw [if_neg hge]
          have hmlt : m < lead.length := by omega
          have hgt : f0 < lead[m] := by
            have := htrue hmlt
            rw [decide_eq_true_iff] at this
            rwa [List.getD_eq_getElem _ _ hmlt] at this
          -- every element of the dropped suffix is at least lead[m]
          have hdropGe : ∀ y ∈ lead.drop m, lead[m] ≤ y := by
            intro y hy
            rw [List.mem_iff_getElem] at hy
            obtain ⟨j, hj, hy⟩ := hy
            have hj2 : j < lead.length - m := by
              rw [List.length_drop] at hj
              exact hj
            have hj' : m + j < lead.length := by omega
            rw [List.getElem_drop] at hy
            subst hy
            rcases Nat.eq_zero_or_pos j with h0 | h0
            · simp [h0]
            · have := (List.pairwise_iff_getElem.mp hsl) m (m + j) hmlt hj' (by omega)
              exact this
          apply ih
          · have hm1 : 0 < m := hmpos
            simp only [List.length_cons, List.length_drop]
            simp only [List.length_cons] at hf
            omega
          · exact hsf
          · exact List.Pairwise.sublist (List.drop_sublist m lead) hsl
          · rw [List.Sorted, List.pairwise_append]
            refine ⟨hsm, List.Pairwise.sublist (List.take_sublist m lead) hsl, ?_⟩
            intro x hx y hy
            exact hml x hx y ((List.take_sublist m lead).subset hy)
          · intro x hx y hy
            rcases List.mem_append.mp hx with h | h
            · exact hmf x h y hy
            · have hx' : x ≤ f0 := htake x h
              have : f0 ≤ y ∨ f0 = y := by
                rcases List.mem_cons.mp hy with hc | hc
                · right; omega
                · left; exact List.rel_of_sorted_cons hsf y hc
              omega
          · intro x hx y hy
            rcases List.mem_append.mp hx with h | h
            · exact hml x h y ((List.drop_sublist m lead).subset hy)
            · have hx' : x ≤ f0 := htake x h
              have hy' : lead[m] ≤ y := hdropGe y hy
              omega
          · intro lh hlh fh hfh
            simp only [List.head?_cons, Option.mem_def, Option.some.injEq] at hlh
            subst hlh
            rw [List.head?_drop] at hfh
            have hsome : lead[m]? = some lead[m] := List.getElem?_eq_getElem hmlt
            rw [hsome] at hfh
            simp only [Option.mem_def, Option.some.injEq] at hfh
            subst hfh
            exact Nat.le_of_lt hgt
          · intro hcontra
            exfalso
            have : lead.length ≤ m := by
              rw [← List.drop_eq_nil_iff]
              exact hcontra
            omega
    · have hleq : lead = [] := by rw [← List.length_eq_zero]; omega
      subst hleq
      rw [mergeLoop.eq_def]
      try simp only
      rw [if_neg hl]
      refine ⟨_, rfl, ?_⟩
      rw [List.Sorted, List.pairwise_append]
      exact ⟨hsm, hsf, hmf⟩

/-- C9 witness: freeing page 20 with overflow 2 in transaction 10 yields
pending\[10\] = \[20, 21, 22\], via `c9_free_spec`. -/
theorem c9_free_spec_witness :
    ∃ g, freelist.free {} 10 { id := 20, overflow := 2 } = some g ∧
      pget g.pending 10 = [20, 21, 22] ∧ g.ids = [] := by
  have h := (c9_free_spec {} 10 { id := 20, overflow := 2 } (by decide)).2
  refine ⟨_, rfl, ?_, ?_⟩
  · rw [(h _ rfl).1]
    rfl
  · exact (h _ rfl).2.2.2.1

/-! ### C6: `mergepgids` -/

/-- C6: for ascending inputs `a`, `b` and a destination of length at
least `len a + len b`, `mergepgids` fills the first `len a + len b` slots
of `dst` with the ascending multiset union of `a` and `b` (equal to the
other input when one is empty) and leaves the rest of `dst` unchanged;
for a destination shorter than `len a + len b` it panics. -/
theorem c6_mergepgids :
    (∀ dst a b : List Nat, a.Sorted (· ≤ ·) → b.Sorted (· ≤ ·) →
      a.length + b.length ≤ dst.length →
      ∃ r, mergepgids dst a b = some r ∧
        (r.take (a.length + b.length)).Perm (a ++ b) ∧
        (r.take (a.length + b.length)).Sorted (· ≤ ·) ∧
        r.drop (a.length + b.length) = dst.drop (a.length + b.length) ∧
        (a = [] → r.take (a.length + b.length) = b) ∧
        (b = [] → r.take (a.length + b.length) = a)) ∧
    (∀ dst a b : List Nat, dst.length < a.length + b.length →
      mergepgids dst a b = none) := by
  constructor
  · intro dst a b hsa hsb hlen
    rw [mergepgids]
    rw [if_neg (by omega)]
    by_cases ha : a.length = 0
    · rw [if_pos ha]
      have ha' : a = [] := List.length_eq_zero.mp ha
      subst ha'
      refine ⟨_, rfl, ?_⟩
      simp only [goCopy, List.length_nil, Nat.zero_add, List.drop_zero]
      rw [show b.take dst.length = b from List.take_of_length_le (by simpa using hlen)]
      have ht : (b ++ dst.drop b.length).take b.length = b := by
        have := List.take_left b (dst.drop b.length)
        simpa using this
      have hd : (b ++ dst.drop b.length).drop b.length = dst.drop b.length := by
        have := List.drop_left b (dst.drop b.length)
        simpa using this
      rw [ht, hd]
      exact ⟨List.Perm.refl _, hsb, rfl, fun _ => rfl, fun hb => by simp [hb]⟩
    · rw [if_neg ha]
      by_cases hb : b.length = 0
      · rw [if_pos hb]
        have hb' : b = [] := List.length_eq_zero.mp hb
        subst hb'
        refine ⟨_, rfl, ?_⟩
        simp only [goCopy, List.length_nil, Nat.add_zero, List.drop_zero]
        rw [show a.take dst.length = a from List.take_of_length_le (by simpa using hlen)]
        have ht : (a ++ dst.drop a.length).take a.length = a := by
          have := List.take_left a (dst.drop a.length)
          simpa using this
        have hd : (a ++ dst.drop a.length).drop a.length = dst.drop a.length := by
          have := List.drop_left a (dst.drop a.length)
          simpa using this
        rw [ht, hd]
        exact ⟨by simpa using List.Perm.refl a, hsa, rfl,
          fun hh => absurd hh (by intro hh; rw [hh] at ha; simp at ha), fun _ => rfl⟩
      · rw [if_neg hb]
        simp only
        obtain ⟨a0, as, rfl⟩ : ∃ a0 as, a = a0 :: as := by
          cases a with
          | nil => simp at ha
          | cons x xs => exact ⟨x, xs, rfl⟩
        obtain ⟨b0, bs, rfl⟩ : ∃ b0 bs, b = b0 :: bs := by
          cases b with
          | nil => simp at hb
          | cons x xs => exact ⟨x, xs, rfl⟩
        set a := a0 :: as with hadef
        set b := b0 :: bs with hbdef
        have hmain : ∀ lead follow : List Nat,
            lead.Sorted (· ≤ ·) → follow.Sorted (· ≤ ·) →
            lead ≠ [] → follow ≠ [] →
            lead.length + follow.length = a.length + b.length →
            (∀ lh ∈ lead.head?, ∀ fh ∈ follow.head?, lh ≤ fh) →
            (lead ++ follow).Perm (a ++ b) →
            ∃ r, (mergeLoop (a.length + b.length + 1) [] lead follow).map
                (fun m => m ++ dst.drop (a.length + b.length)) = some r ∧
              (r.take (a.length + b.length)).Perm (a ++ b) ∧
              (r.take (a.length + b.length)).Sorted (· ≤ ·) ∧
              r.drop (a.length + b.length) = dst.drop (a.length + b.length) ∧
              (a = [] → r.take (a.length + b.length) = b) ∧
              (b = [] → r.take (a.length + b.length) = a) := by
          intro lead follow hsl hsf hlne hfne hsum hheads hperm
          obtain ⟨r0, hr0, hr0s⟩ := mergeLoop_total_sorted
            (a.length + b.length + 1) [] lead follow (by omega) hsl hsf
            (by simp) (by simp) (by simp) hheads (fun h => absurd h hfne)
          have hr0p : r0.Perm (lead ++ follow) := by
            have := mergeLoop_perm _ _ _ _ _ hr0
            simpa using this
          have hr0len : r0.length = a.length + b.length := by
            rw [hr0p.length_eq, List.length_append]
            omega
          refine ⟨r0 ++ dst.drop (a.length + b.length), by rw [hr0]; rfl, ?_, ?_, ?_, ?_, ?_⟩
          · rw [List.take_left' hr0len]
            exact hr0p.trans hperm
          · rw [List.take_left' hr0len]
            exact hr0s
          · rw [List.drop_left' hr0len]
          · intro h
            rw [h] at ha
            simp at ha
          · intro h
            rw [h] at hb
            simp at hb
        by_cases hcmp : b.getD 0 0 < a.getD 0 0
        · rw [if_pos hcmp]
          apply hmain b a hsb hsa (by simp [hbdef]) (by simp [hadef])
            (by omega)
            (by
              intro lh hlh fh hfh
              simp only [hbdef, hadef, List.head?_cons, Option.mem_def,
                Option.some.injEq] at hlh hfh
              subst hlh
              subst hfh
              simpa [hadef, hbdef] using Nat.le_of_lt hcmp)
            List.perm_append_comm
        · rw [if_neg hcmp]
          apply hmain a b hsa hsb (by simp [hadef]) (by simp [hbdef])
            (by omega)
            (by
              intro lh hlh fh hfh
              simp only [hbdef, hadef, List.head?_cons, Option.mem_def,
                Option.some.injEq] at hlh hfh
              subst hlh
              subst hfh
              simpa [hadef, hbdef] using Nat.le_of_not_lt hcmp)
            (List.Perm.refl _)
  · intro dst a b h
    rw [mergepgids, if_pos h]

/-- C6 witness: merging `[3, 9]` and `[4, 5]` into a 5-slot destination,
via `c6_mergepgids`. -/
theorem c6_mergepgids_witness :
    ∃ r, mergepgids [0, 0, 0, 0, 7] [3, 9] [4, 5] = some r ∧
      r.take 4 = [3, 4, 5, 9] ∧ r.drop 4 = [7] := by
  obtain ⟨r, hr, hperm, hsort, hdrop, -, -⟩ :=
    (c6_mergepgids).1 [0, 0, 0, 0, 7] [3, 9] [4, 5]
      (by decide) (by decide) (by decide)
  refine ⟨r, hr, ?_, by simpa using hdrop⟩
  have ht : r.take 4 = [3, 4, 5, 9] :=
    List.eq_of_perm_of_sorted (hperm.trans (by decide)) hsort (by decide)
  simpa using ht

/-! ### C1: write/read round-trip (overflow escape) -/

theorem sorted_le_range' (s n : Nat) : (List.range' s n).Sorted (· ≤ ·) := by
  have h := chain'_lt_range' s n
  rw [List.chain'_iff_pairwise] at h
  exact h.imp (fun h => Nat.le_of_lt h)

theorem write_overflow (f : freelist) (p : page) (body : List Nat)
    (hc : 0xFFFF ≤ f.count)
    (hcopy : f.copyall (p.freelistIds.drop 1) = some body) :
    f.write p = some ({ p with
      flags := p.flags ||| freelistPageFlag,
      count := 0xFFFF,
      freelistIds := (f.count % U64) :: body }, none) := by
  simp only [freelist.write]
  rw [if_neg (by omega), if_neg (by omega)]
  rw [hcopy, Option.map_some']

theorem read_ids_overflow (g : freelist) (p : page) (c : Nat) (body : List Nat)
    (hc : p.count = 0xFFFF) (hb : p.freelistIds = c :: body) (hcz : c ≠ 0) :
    (g.read p).ids = sortPgids (body.take (c - 1)) := by
  simp only [freelist.read]
  rw [hc, hb]
  rw [if_pos rfl]
  rw [show ((c : Nat) :: body).getD 0 0 = c from rfl]
  simp only
  rw [if_neg hcz]
  rw [show ((c : Nat) :: body).drop 1 = body from rfl]
  simp only [freelist.reindex]

/-- C1 fails on the code in the 0xFFFF overflow escape: with 65535 free
ids `2 … 65536` (and empty pending), `write` correctly stores
`count = 0xFFFF`, the true count 65535 in body slot 0 and the sorted ids
in slots 1 … 65535, but `read` slices `[idx:count] = [1:65535]` instead
of `[idx : idx+count]`, so the reconstructed freelist holds only the
first 65534 ids — the largest id, 65536, is lost, and the round-trip is
not the identity on `ids ∪ ⋃ pending.values()`. -/
theorem c1_write_read_overflow_bug :
    ∃ p', freelist.write { ids := List.range' 2 65535 }
        { freelistIds := List.replicate 65536 0 } = some (p', none) ∧
      p'.count = 0xFFFF ∧
      p'.freelistIds = 65535 :: List.range' 2 65535 ∧
      (newFreelist.read p').ids = List.range' 2 65534 ∧
      (newFreelist.read p').ids ≠ List.range' 2 65535 := by
  have hcount : ({ ids := List.range' 2 65535 } : freelist).count = 65535 := by
    rw [freelist.count, freelist.free_count, freelist.pending_count]
    rw [show ({ ids := List.range' 2 65535 } : freelist).ids = List.range' 2 65535 from rfl]
    rw [show ({ ids := List.range' 2 65535 } : freelist).pending =
      ([] : List (Nat × List Nat)) from rfl]
    rw [List.length_range', List.map_nil, List.sum_nil, Nat.add_zero]
  have hdrop : (({ freelistIds := List.replicate 65536 0 } : page).freelistIds.drop 1) =
      List.replicate 65535 0 := by
    rw [show ({ freelistIds := List.replicate 65536 0 } : page).freelistIds =
      List.replicate 65536 (0 : Nat) from rfl]
    rw [show (65536 : Nat) = 65535 + 1 by omega]
    rw [List.replicate_succ]
    rfl
  have hbody : freelist.copyall { ids := List.range' 2 65535 }
      (List.replicate 65535 (0 : Nat)) = some (List.range' 2 65535) := by
    simp only [freelist.copyall]
    have hm : sortPgids (([] : List (Nat × List Nat)).flatMap (fun e => e.2)) = [] := rfl
    rw [hm]
    rw [mergepgids]
    rw [if_neg (by
      rw [List.length_replicate, List.length_range', List.length_nil]
      omega)]
    rw [if_neg (by rw [List.length_range']; omega)]
    rw [if_pos (show ([] : List Nat).length = 0 from rfl)]
    rw [goCopy]
    rw [List.take_of_length_le (by
      rw [List.length_replicate, List.length_range'])]
    rw [show (List.replicate 65535 (0 : Nat)).drop (List.range' 2 65535).length = []
      by rw [List.length_range', List.drop_replicate, Nat.sub_self, List.replicate_zero]]
    rw [List.append_nil]
  have hw := write_overflow { ids := List.range' 2 65535 }
    { freelistIds := List.replicate 65536 0 } (List.range' 2 65535)
    (by rw [hcount]) (by rw [hdrop]; exact hbody)
  rw [hcount] at hw
  rw [show (65535 : Nat) % U64 = 65535 from Nat.mod_eq_of_lt (by rw [U64_eq]; omega)] at hw
  have htake : sortPgids ((List.range' 2 65535).take 65534) = List.range' 2 65534 := by
    have hsplit : List.range' 2 65535 = List.range' 2 65534 ++ List.range' 65536 1 := by
      have h := List.range'_append 2 65534 1 1
      norm_num at h
      exact h.symm
    rw [hsplit]
    rw [List.take_left' (by rw [List.length_range'])]
    exact (sorted_le_range' 2 65534).insertionSort_eq
  refine ⟨_, hw, rfl, rfl, ?_, ?_⟩
  · rw [read_ids_overflow newFreelist _ 65535 (List.range' 2 65535) rfl rfl (by omega)]
    rw [show (65535 : Nat) - 1 = 65534 by omega]
    exact htake
  · rw [read_ids_overflow newFreelist _ 65535 (List.range' 2 65535) rfl rfl (by omega)]
    rw [show (65535 : Nat) - 1 = 65534 by omega]
    rw [htake]
    intro h
    have h2 := congrArg List.length h
    rw [List.length_range', List.length_range'] at h2
    omega

/-! ### C2: `allocate` -/

theorem chain'_lt_append_cross {xs ys : List Nat}
    (h : (xs ++ ys).Chain' (· < ·)) :
    ∀ x ∈ xs, ∀ y ∈ ys, x < y := by
  rw [List.chain'_iff_pairwise, List.pairwise_append] at h
  exact h.2.2

theorem chain'_lt_left {xs ys : List Nat} (h : (xs ++ ys).Chain' (· < ·)) :
    xs.Chain' (· < ·) := by
  rw [List.chain'_iff_pairwise, List.pairwise_append] at h
  rw [List.chain'_iff_pairwise]
  exact h.1

theorem chain'_lt_right {xs ys : List Nat} (h : (xs ++ ys).Chain' (· < ·)) :
    ys.Chain' (· < ·) := by
  rw [List.chain'_iff_pairwise, List.pairwise_append] at h
  rw [List.chain'_iff_pairwise]
  exact h.2.1

theorem mem_left_of_lt {pre rest : List Nat} {id v : Nat}
    (h : (pre ++ id :: rest).Chain' (· < ·))
    (hv : v ∈ pre ++ id :: rest) (hlt : v < id) : v ∈ pre := by
  rcases List.mem_append.mp hv with h1 | h1
  · exact h1
  · exfalso
    rcases List.mem_cons.mp h1 with h2 | h2
    · omega
    · have := @chain'_lt_append_cross (pre ++ [id]) rest
        (by simpa using h) id (by simp) v h2
      omega

theorem take_append_len {l1 l2 : List Nat} : (l1 ++ l2).take l1.length = l1 := by
  induction l1 with
  | nil => simp
  | cons a t ih => simpa using ih

theorem drop_append_len {l1 l2 : List Nat} : (l1 ++ l2).drop l1.length = l2 := by
  induction l1 with
  | nil => simp
  | cons a t ih => simpa using ih

theorem drop_append_len_cons {l1 l2 : List Nat} {a : Nat} :
    (l1 ++ a :: l2).drop (l1.length + 1) = l2 := by
  have h1 : l1 ++ a :: l2 = (l1 ++ [a]) ++ l2 := by simp
  have h2 : l1.length + 1 = (l1 ++ [a]).length := by simp
  rw [h1, h2, drop_append_len]

/-- The spliced-out list `take ++ drop` of a removed run equals a filter:
everything below the run start plus everything at or above its end. -/
theorem splice_filter {pre mid rest : List Nat} {s n : Nat}
    (hmid : mid = List.range' s n)
    (hpre : ∀ v ∈ pre, v < s)
    (hrest : ∀ v ∈ rest, s + n ≤ v) :
    pre ++ rest = (pre ++ (mid ++ rest)).filter
      (fun x => decide (x < s) || decide (s + n ≤ x)) := by
  rw [List.filter_append, List.filter_append]
  rw [List.filter_eq_self.mpr (fun v hv => by
    simp only [Bool.or_eq_true, decide_eq_true_eq]
    exact Or.inl (hpre v hv))]
  rw [List.filter_eq_nil_iff.mpr (fun v hv => by
    rw [hmid, List.mem_range'_1] at hv
    simp only [Bool.or_eq_true, decide_eq_true_eq, not_or, not_lt]
    omega)]
  rw [List.filter_eq_self.mpr (fun v hv => by
    simp only [Bool.or_eq_true, decide_eq_true_eq]
    exact Or.inr (hrest v hv))]
  simp

/-- Characterization of the `allocate` scan loop. With `L = pre ++ rest`
the scanned prefix `pre` holds no end of an `n`-run, and the tracked
`(initial, previd)` describe the maximal contiguous run ending `pre`
(or are both `0` at the start). Then: if `L` has no `n`-run the loop
returns `some none` (scan exhausted), and if `s` starts the earliest
`n`-run the loop returns `some (some (s, i))` with `take (i+1-n) ++
drop (i+1)` splicing exactly `s, ..., s+n-1` out of `L`. -/
theorem allocLoop_spec (n : Nat) (hn1 : 1 ≤ n) (hn2 : n < 2 ^ 63) (L : List Nat)
    (hL : L.Chain' (· < ·)) (hb : ∀ id ∈ L, 1 < id ∧ id < U64) :
    ∀ (rest pre : List Nat) (initial previd : Nat),
      L = pre ++ rest →
      (∀ s, HasRun L s n → s + n - 1 ∉ pre) →
      ((pre = [] ∧ initial = 0 ∧ previd = 0) ∨
       (∃ preLow len, pre = preLow ++ List.range' initial len ∧ 1 ≤ len ∧ len < n ∧
          previd = initial + len - 1 ∧ (∀ v ∈ preLow, v < initial) ∧
          initial - 1 ∉ preLow)) →
      ((∀ s, ¬ HasRun L s n) →
        allocLoop n rest pre.length initial previd = some none) ∧
      (∀ s, HasRun L s n → (∀ s2, s2 < s → ¬ HasRun L s2 n) →
        ∃ i, allocLoop n rest pre.length initial previd = some (some (s, i)) ∧
          L.take (i + 1 - n) ++ L.drop (i + 1) =
            L.filter (fun x => decide (x < s) || decide (s + n ≤ x))) := by
  have hU := U64_eq
  have h63 : (2:Nat) ^ 63 = 9223372036854775808 := by norm_num
  intro rest
  induction rest with
  | nil =>
    intro pre initial previd hLpre hnor _hinv
    refine ⟨fun _ => by rw [allocLoop], fun s hs _hmin => ?_⟩
    exfalso
    have hend : s + n - 1 ∈ L := by
      have h1 := hs (n - 1) (by omega)
      have h2 : s + (n - 1) = s + n - 1 := by omega
      rwa [h2] at h1
    rw [hLpre, List.append_nil] at hend
    exact hnor s hs hend
  | cons id rest ih =>
    intro pre initial previd hLpre hnor hinv
    have hid : id ∈ L := by
      rw [hLpre]
      exact List.mem_append.mpr (Or.inr (List.mem_cons_self _ _))
    obtain ⟨hid1, hidU⟩ := hb id hid
    have hpre_lt : ∀ v ∈ pre, v < id := fun v hv =>
      chain'_lt_append_cross (hLpre ▸ hL) v hv id (List.mem_cons_self _ _)
    have hrest_gt : ∀ v ∈ rest, id < v := by
      intro v hv
      have h2 : ((pre ++ [id]) ++ rest).Chain' (· < ·) := by
        rw [List.append_assoc]
        simpa using (hLpre ▸ hL)
      exact chain'_lt_append_cross h2 id (by simp) v hv
    have hmemlt : ∀ v, v ∈ L → v < id → v ∈ pre := fun v hv hlt =>
      mem_left_of_lt (hLpre ▸ hL) (hLpre ▸ hv) hlt
    have hLpre2 : L = (pre ++ [id]) ++ rest := by
      rw [List.append_assoc]
      exact hLpre
    by_cases hreset : previd = 0 ∨ sub64 id previd ≠ 1
    · -- the run restarts at `id`
      have hstepA : allocLoop n (id :: rest) pre.length initial previd =
          (if (sub64 id id + 1) % U64 = n % U64 then some (some (id, pre.length))
           else allocLoop n rest (pre.length + 1) id id) := by
        rw [allocLoop.eq_def]
        simp only
        rw [if_neg (show ¬ id ≤ 1 by omega), if_pos hreset]
      have hidm1 : id - 1 ∉ pre := by
        intro hm
        rcases hinv with ⟨hpe, -, -⟩ | ⟨preLow, len, hdec, hlen1, hlenn, hpv, hlow, hmaxp⟩
        · rw [hpe] at hm
          simp at hm
        · have hprevmax : ∀ v ∈ pre, v ≤ previd := by
            intro v hv
            rw [hdec] at hv
            rcases List.mem_append.mp hv with h1 | h1
            · have := hlow v h1
              omega
            · rw [List.mem_range'_1] at h1
              omega
          have h1 : id - 1 ≤ previd := hprevmax _ hm
          have hprev_mem : previd ∈ pre := by
            rw [hdec]
            refine List.mem_append.mpr (Or.inr ?_)
            rw [List.mem_range'_1]
            omega
          have h2 : previd < id := hpre_lt _ hprev_mem
          have h3 : previd = id - 1 := by omega
          rcases hreset with h4 | h4
          · omega
          · apply h4
            rw [sub64_eq (by omega) (by omega)]
            omega
      have h0 : sub64 id id = 0 := by
        have h1 := sub64_eq (le_refl id) (show id - id < U64 by omega)
        omega
      have hcondA : ((sub64 id id + 1) % U64 = n % U64) ↔ n = 1 := by
        rw [h0]
        constructor
        · intro h
          rw [Nat.mod_eq_of_lt (by omega), Nat.mod_eq_of_lt (by omega)] at h
          omega
        · intro h
          rw [h]
      by_cases hfoundA : n = 1
      · -- run of length 1 found at `id`
        have hrun_id : HasRun L id n := by
          intro k hk
          have hk0 : k = 0 := by omega
          subst hk0
          simpa using hid
        constructor
        · intro hno
          exact absurd hrun_id (hno id)
        · intro s hs hmin
          have hsid : s = id := by
            rcases Nat.lt_trichotomy s id with h1 | h1 | h1
            · exfalso
              have hend : s + n - 1 ∈ L := by
                have h2 := hs (n - 1) (by omega)
                have h3 : s + (n - 1) = s + n - 1 := by omega
                rwa [h3] at h2
              exact hnor s hs (hmemlt _ hend (by omega))
            · exact h1
            · exact absurd hrun_id (hmin id h1)
          subst hsid
          refine ⟨pre.length, by rw [hstepA, if_pos (hcondA.mpr hfoundA)], ?_⟩
          subst hfoundA
          have e1 : pre.length + 1 - 1 = pre.length := by omega
          rw [e1, hLpre, take_append_len, drop_append_len_cons]
          exact splice_filter (by rw [List.range'_one]) hpre_lt
            (fun v hv => hrest_gt v hv)
      · -- no run ends here; recurse with the singleton run `[id]`
        have hstep2 : allocLoop n (id :: rest) pre.length initial previd =
            allocLoop n rest (pre.length + 1) id id := by
          rw [hstepA, if_neg (fun h => hfoundA (hcondA.mp h))]
        have hn2' : 2 ≤ n := by omega
        have hnor' : ∀ s, HasRun L s n → s + n - 1 ∉ pre ++ [id] := by
          intro s hs hmem
          rcases List.mem_append.mp hmem with h1 | h1
          · exact hnor s hs h1
          · have h1' : s + n - 1 = id := by simpa using h1
            have h3 := hs (n - 2) (by omega)
            have h4 : s + (n - 2) = id - 1 := by omega
            rw [h4] at h3
            exact hidm1 (hmemlt _ h3 (by omega))
        have hdec' : pre ++ [id] = pre ++ List.range' id 1 := by
          rw [List.range'_one]
        have hres := ih (pre ++ [id]) id id hLpre2 hnor'
          (Or.inr ⟨pre, 1, hdec', le_refl 1, by omega, by omega, hpre_lt, hidm1⟩)
        rw [List.length_append, List.length_singleton] at hres
        rw [hstep2]
        exact hres
    · -- `id` extends the current run
      have hprev0 : previd ≠ 0 := fun h => hreset (Or.inl h)
      have hsub1 : sub64 id previd = 1 := by
        by_contra h
        exact hreset (Or.inr h)
      rcases hinv with ⟨-, -, hpve⟩ | ⟨preLow, len, hdec, hlen1, hlenn, hpv, hlow, hmaxp⟩
      · exact absurd hpve hprev0
      have hinit_mem : initial ∈ pre := by
        rw [hdec]
        refine List.mem_append.mpr (Or.inr ?_)
        rw [List.mem_range'_1]
        omega
      have hinit_memL : initial ∈ L := by
        rw [hLpre]
        exact List.mem_append.mpr (Or.inl hinit_mem)
      have hinit1 : 1 < initial := (hb initial hinit_memL).1
      have hprev_mem : previd ∈ pre := by
        rw [hdec]
        refine List.mem_append.mpr (Or.inr ?_)
        rw [List.mem_range'_1]
        omega
      have hprev_lt : previd < id := hpre_lt _ hprev_mem
      have hid_eq : id = initial + len := by
        rw [sub64_eq (by omega) (by omega)] at hsub1
        omega
      have hstepB : allocLoop n (id :: rest) pre.length initial previd =
          (if (sub64 id initial + 1) % U64 = n % U64 then some (some (initial, pre.length))
           else allocLoop n rest (pre.length + 1) initial id) := by
        rw [allocLoop.eq_def]
        simp only
        rw [if_neg (show ¬ id ≤ 1 by omega), if_neg hreset]
      have hsubinit : sub64 id initial = len := by
        rw [hid_eq, sub64_eq (by omega) (by omega)]
        omega
      have hcondB : ((sub64 id initial + 1) % U64 = n % U64) ↔ len + 1 = n := by
        rw [hsubinit]
        constructor
        · intro h
          rw [Nat.mod_eq_of_lt (by omega), Nat.mod_eq_of_lt (by omega)] at h
          exact h
        · intro h
          rw [h]
      by_cases hfoundB : len + 1 = n
      · -- the run `initial, ..., id` has length `n`
        have hrun_init : HasRun L initial n := by
          intro k hk
          by_cases hkl : k < len
          · rw [hLpre, hdec]
            refine List.mem_append.mpr (Or.inl (List.mem_append.mpr (Or.inr ?_)))
            rw [List.mem_range'_1]
            omega
          · have hk_eq : initial + k = id := by omega
            rw [hk_eq]
            exact hid
        constructor
        · intro hno
          exact absurd hrun_init (hno initial)
        · intro s hs hmin
          have hsinit : s = initial := by
            rcases Nat.lt_trichotomy s initial with h1 | h1 | h1
            · exfalso
              have hend : s + n - 1 ∈ L := by
                have h2 := hs (n - 1) (by omega)
                have h3 : s + (n - 1) = s + n - 1 := by omega
                rwa [h3] at h2
              exact hnor s hs (hmemlt _ hend (by omega))
            · exact h1
            · exact absurd hrun_init (hmin initial h1)
          subst hsinit
          refine ⟨pre.length, by rw [hstepB, if_pos (hcondB.mpr hfoundB)], ?_⟩
          have hconcat : List.range' s n ++ rest = List.range' s len ++ id :: rest := by
            rw [← hfoundB, List.range'_concat]
            have h5 : s + 1 * len = id := by omega
            rw [h5, List.append_assoc]
            rfl
          have hLdec : L = preLow ++ (List.range' s n ++ rest) := by
            rw [hconcat, hLpre, hdec, List.append_assoc]
          have e1 : pre.length + 1 - n = preLow.length := by
            rw [hdec, List.length_append, List.length_range']
            omega
          have e2 : pre.length + 1 = preLow.length + n := by
            rw [hdec, List.length_append, List.length_range']
            omega
          have htake : L.take preLow.length = preLow := by
            rw [hLdec, take_append_len]
          have hdrop : L.drop (preLow.length + n) = rest := by
            rw [hLdec, ← List.append_assoc,
              show preLow.length + n = (preLow ++ List.range' s n).length from by
                rw [List.length_append, List.length_range'],
              drop_append_len]
          rw [e1, e2, htake, hdrop]
          rw [hLdec]
          exact splice_filter rfl hlow (fun v hv => by
            have := hrest_gt v hv
            omega)
      · -- the run is still shorter than `n`; recurse with it extended by `id`
        have hlt : len + 1 < n := by omega
        have hstep2 : allocLoop n (id :: rest) pre.length initial previd =
            allocLoop n rest (pre.length + 1) initial id := by
          rw [hstepB, if_neg (fun h => hfoundB (hcondB.mp h))]
        have hnor' : ∀ s, HasRun L s n → s + n - 1 ∉ pre ++ [id] := by
          intro s hs hmem
          rcases List.mem_append.mp hmem with h1 | h1
          · exact hnor s hs h1
          · have h1' : s + n - 1 = id := by simpa using h1
            have hk := hs (initial - 1 - s) (by omega)
            have hk2 : s + (initial - 1 - s) = initial - 1 := by omega
            rw [hk2] at hk
            have h3 : initial - 1 ∈ pre := hmemlt _ hk (by omega)
            rw [hdec] at h3
            rcases List.mem_append.mp h3 with h4 | h4
            · exact hmaxp h4
            · rw [List.mem_range'_1] at h4
              omega
        have hdec' : pre ++ [id] = preLow ++ List.range' initial (len + 1) := by
          rw [hdec, List.append_assoc, List.range'_concat]
          have h5 : initial + 1 * len = id := by omega
          rw [h5]
        have hres := ih (pre ++ [id]) initial id hLpre2 hnor'
          (Or.inr ⟨preLow, len + 1, hdec', by omega, hlt, by omega, hlow, hmaxp⟩)
        rw [List.length_append, List.length_singleton] at hres
        rw [hstep2]
        exact hres

theorem foldl_erase_range (s n : Nat) (c : Finset Nat) :
    (List.range n).foldl (fun c k => c.erase (s + k)) c =
      c \ (List.range' s n).toFinset := by
  induction n with
  | zero => simp
  | succ n ih =>
    rw [List.range_succ, List.foldl_append, ih, List.foldl_cons, List.foldl_nil,
      List.range'_concat, one_mul]
    ext x
    simp
    tauto

/-- The behaviour of `allocate` on a well-formed `ids` list (shared by
the allocate claim and the cache-invariant claim). -/
theorem allocate_spec (f : freelist) (n : Nat) (hn1 : 1 ≤ n)
    (hn2 : n < 2 ^ 63) (hg : goodIds f.ids) :
    ((∀ s, ¬ HasRun f.ids s n) → f.allocate n = some (0, f)) ∧
    (∀ s, HasRun f.ids s n → (∀ s2, s2 < s → ¬ HasRun f.ids s2 n) →
      ∃ f2, f.allocate n = some (s, f2) ∧
        f2.ids = f.ids.filter (fun x => decide (x < s) || decide (s + n ≤ x)) ∧
        f2.ids.Chain' (· < ·) ∧
        f2.cache = f.cache \ (List.range' s n).toFinset ∧
        f2.pending = f.pending) := by
  obtain ⟨hch, hb⟩ := hg
  by_cases hnil : f.ids = []
  · constructor
    · intro _
      rw [freelist.allocate, hnil]
      simp
    · intro s hs _hmin
      exfalso
      have h1 := hs 0 (by omega)
      rw [hnil] at h1
      simp at h1
  · have hlen : ¬ f.ids.length = 0 := fun h => hnil (List.length_eq_zero.mp h)
    have hspec := allocLoop_spec n hn1 hn2 f.ids hch hb f.ids [] 0 0 (by simp)
      (fun s _ => List.not_mem_nil _) (Or.inl ⟨rfl, rfl, rfl⟩)
    simp only [List.length_nil] at hspec
    constructor
    · intro hno
      rw [freelist.allocate, if_neg hlen, hspec.1 hno]
    · intro s hs hmin
      obtain ⟨i, hloop, hsplice⟩ := hspec.2 s hs hmin
      have halloc : f.allocate n = some (s,
          { f with
              ids := f.ids.take (i + 1 - n) ++ f.ids.drop (i + 1)
              cache := (List.range n).foldl
                (fun c k => c.erase ((s + k) % U64)) f.cache }) := by
        rw [freelist.allocate, if_neg hlen, hloop]
        simp only
        by_cases hin : i + 1 = n
        · rw [if_pos hin, show i + 1 - n = 0 from by omega, List.take_zero, List.nil_append]
        · rw [if_neg hin]
      refine ⟨_, halloc, ?_, ?_, ?_, rfl⟩
      · exact hsplice
      · show (f.ids.take (i + 1 - n) ++ f.ids.drop (i + 1)).Chain' (· < ·)
        rw [hsplice]
        exact hch.sublist (List.filter_sublist _)
      · show (List.range n).foldl (fun c k => c.erase ((s + k) % U64)) f.cache =
          f.cache \ (List.range' s n).toFinset
        have hend : s + (n - 1) ∈ f.ids := hs (n - 1) (by omega)
        have hendU : s + (n - 1) < U64 := (hb _ hend).2
        have hfold : ∀ c : Finset Nat, ∀ k ∈ List.range n,
            c.erase ((s + k) % U64) = c.erase (s + k) := by
          intro c k hk
          rw [List.mem_range] at hk
          rw [Nat.mod_eq_of_lt (by omega)]
        rw [List.foldl_ext _ _ _ hfold]
        exact foldl_erase_range s n f.cache

/-- C2: `allocate(n)` (for `1 ≤ n < 2^63`, i.e. any Go `int` count): a
leading id `≤ 1` panics; on a well-formed freelist (strictly ascending
ids all `> 1`), if no `n` consecutive ids exist the result is `0` with
the state unchanged, and otherwise the start `s` of the earliest run of
`n` consecutive ids is returned, with exactly `s, ..., s+n-1` removed
from `ids` (which stays sorted) and from `cache`, `pending` untouched. -/
theorem c2_allocate_first_fit (f : freelist) (n : Nat) (hn1 : 1 ≤ n)
    (hn2 : n < 2 ^ 63) :
    (∀ hd tl, f.ids = hd :: tl → hd ≤ 1 → f.allocate n = none) ∧
    (goodIds f.ids →
      ((∀ s, ¬ HasRun f.ids s n) → f.allocate n = some (0, f)) ∧
      (∀ s, HasRun f.ids s n → (∀ s2, s2 < s → ¬ HasRun f.ids s2 n) →
        ∃ f2, f.allocate n = some (s, f2) ∧
          f2.ids = f.ids.filter (fun x => decide (x < s) || decide (s + n ≤ x)) ∧
          f2.ids.Chain' (· < ·) ∧
          f2.cache = f.cache \ (List.range' s n).toFinset ∧
          f2.pending = f.pending)) := by
  constructor
  · intro hd tl hids hhd
    rw [freelist.allocate, hids]
    rw [if_neg (by simp)]
    have hstep : allocLoop n (hd :: tl) 0 0 0 = none := by
      rw [allocLoop.eq_def]
      simp only
      rw [if_pos hhd]
    rw [hstep]
  · exact allocate_spec f n hn1 hn2

theorem c2_allocate_first_fit_witness :
    ∃ f2, freelist.allocate
        { ids := [3, 4, 5, 6, 7, 9, 12, 13], pending := [],
          cache := {3, 4, 5, 6, 7, 9, 12, 13} } 3 = some (3, f2) ∧
      f2.ids = [6, 7, 9, 12, 13] := by
  obtain ⟨f2, h1, h2, -, -, -⟩ :=
    ((c2_allocate_first_fit
        { ids := [3, 4, 5, 6, 7, 9, 12, 13], pending := [],
          cache := {3, 4, 5, 6, 7, 9, 12, 13} } 3 (by decide) (by decide)).2
      ⟨by norm_num [List.chain'_cons, List.chain'_singleton], by decide⟩).2 3
      (by unfold HasRun; decide)
      (by unfold HasRun; decide)
  exact ⟨f2, h1, h2.trans (by decide)⟩

/-! ### C7: the cache invariant -/

theorem pendingUnion_cons (e : Nat × List Nat) (ps : List (Nat × List Nat)) :
    pendingUnion (e :: ps) = e.2.toFinset ∪ pendingUnion ps := rfl

theorem pendingUnion_append (ps qs : List (Nat × List Nat)) :
    pendingUnion (ps ++ qs) = pendingUnion ps ∪ pendingUnion qs := by
  induction ps with
  | nil => simp [pendingUnion]
  | cons e ps ih =>
    rw [List.cons_append, pendingUnion_cons, ih, pendingUnion_cons,
      Finset.union_assoc]

theorem mem_pendingUnion {ps : List (Nat × List Nat)} {x : Nat} :
    x ∈ pendingUnion ps ↔ ∃ e ∈ ps, x ∈ e.2 := by
  induction ps with
  | nil => simp [pendingUnion]
  | cons e ps ih =>
    rw [pendingUnion_cons]
    simp only [Finset.mem_union, List.mem_toFinset, ih, List.mem_cons]
    constructor
    · rintro (hx | ⟨e1, he1, hx⟩)
      · exact ⟨e, Or.inl rfl, hx⟩
      · exact ⟨e1, Or.inr he1, hx⟩
    · rintro ⟨e1, he1 | he1, hx⟩
      · subst he1
        exact Or.inl hx
      · exact Or.inr ⟨e1, he1, hx⟩

theorem pendingUnion_flatMap (ps : List (Nat × List Nat)) :
    (ps.flatMap (fun e => e.2)).toFinset = pendingUnion ps := by
  induction ps with
  | nil => simp [pendingUnion]
  | cons e ps ih =>
    rw [List.flatMap_cons, List.toFinset_append, ih, pendingUnion_cons]

theorem pendingUnion_filter_split (p : Nat × List Nat → Bool)
    (ps : List (Nat × List Nat)) :
    pendingUnion (ps.filter p) ∪ pendingUnion (ps.filter (fun e => !p e)) =
      pendingUnion ps := by
  induction ps with
  | nil => simp [pendingUnion]
  | cons e ps ih =>
    by_cases hp : p e
    · rw [List.filter_cons_of_pos hp, List.filter_cons_of_neg (by simp [hp]),
        pendingUnion_cons, pendingUnion_cons, Finset.union_assoc, ih]
    · rw [List.filter_cons_of_neg hp, List.filter_cons_of_pos (by simp [hp]),
        pendingUnion_cons, pendingUnion_cons, Finset.union_left_comm, ih]

theorem pendingUnion_pdel_pget (ps : List (Nat × List Nat)) (t : Nat)
    (hnd : (ps.map Prod.fst).Nodup) :
    pendingUnion (pdel ps t) ∪ (pget ps t).toFinset = pendingUnion ps := by
  induction ps with
  | nil => simp [pendingUnion, pdel, pget]
  | cons a ps ih =>
    have hnd2 : (ps.map Prod.fst).Nodup := (List.nodup_cons.mp (by simpa using hnd)).2
    have hnot : a.1 ∉ ps.map Prod.fst := (List.nodup_cons.mp (by simpa using hnd)).1
    by_cases hat : a.1 == t
    · have hat' : a.1 = t := by simpa using hat
      have hdel : pdel (a :: ps) t = ps := by
        show List.filter _ (a :: ps) = ps
        rw [List.filter_cons_of_neg (by simp [hat'])]
        refine List.filter_eq_self.mpr ?_
        intro e he
        simp only [bne_iff_ne, ne_eq, decide_eq_true_eq]
        intro hEq
        exact hnot (by
          rw [hat', ← hEq]
          exact List.mem_map.mpr ⟨e, he, rfl⟩)
      have hget : pget (a :: ps) t = a.2 := by
        rw [pget, List.find?_cons_of_pos _ (by simpa using hat)]
      rw [hdel, hget, pendingUnion_cons]
      exact Finset.union_comm _ _
    · have hat' : ¬ a.1 = t := by simpa using hat
      have hdel : pdel (a :: ps) t = a :: pdel ps t := by
        show List.filter _ (a :: ps) = _
        rw [List.filter_cons_of_pos (by simp [hat'])]
        rfl
      have hget : pget (a :: ps) t = pget ps t := by
        rw [pget, List.find?_cons_of_neg _ (by simpa using hat), pget]
      rw [hdel, hget, pendingUnion_cons, pendingUnion_cons, Finset.union_assoc,
        ih hnd2]

theorem pget_subset_pendingUnion (ps : List (Nat × List Nat)) (t : Nat) :
    ∀ x ∈ pget ps t, x ∈ pendingUnion ps := by
  intro x hx
  rw [pget] at hx
  cases hf : ps.find? (fun e => e.1 == t) with
  | none =>
    rw [hf] at hx
    simp at hx
  | some e =>
    rw [hf] at hx
    exact mem_pendingUnion.mpr ⟨e, List.mem_of_find?_eq_some hf, hx⟩

theorem foldl_insert_pending (ps : List (Nat × List Nat)) (c : Finset Nat) :
    ps.foldl (fun c e => e.2.foldl (fun c id => insert id c) c) c =
      c ∪ pendingUnion ps := by
  induction ps generalizing c with
  | nil => simp [pendingUnion]
  | cons e ps ih =>
    rw [List.foldl_cons, ih, foldl_insert_eq, pendingUnion_cons,
      Finset.union_assoc]

theorem reindex_goodCache (f : freelist) : goodCache f.reindex := by
  unfold goodCache freelist.reindex
  simp only
  rw [foldl_insert_pending, foldl_insert_eq, Finset.empty_union]

theorem pgidsMerge_perm {a b r : List Nat} (h : pgidsMerge a b = some r) :
    r.Perm (a ++ b) := by
  rw [pgidsMerge] at h
  by_cases ha : a.length = 0
  · rw [if_pos ha] at h
    have ha' : a = [] := List.length_eq_zero.mp ha
    subst ha'
    rw [Option.some.injEq] at h
    subst h
    simp
  · rw [if_neg ha] at h
    by_cases hb : b.length = 0
    · rw [if_pos hb] at h
      have hb' : b = [] := List.length_eq_zero.mp hb
      subst hb'
      rw [Option.some.injEq] at h
      subst h
      simp
    · rw [if_neg hb] at h
      rw [mergepgids] at h
      rw [if_neg (by rw [List.length_replicate]; omega)] at h
      rw [if_neg ha, if_neg hb] at h
      simp only at h
      have hdrop : (List.replicate (a.length + b.length) (0 : Nat)).drop
          (a.length + b.length) = [] := by
        rw [List.drop_replicate]
        simp
      by_cases hc : b.getD 0 0 < a.getD 0 0
      · rw [if_pos hc] at h
        simp only at h
        cases hm : mergeLoop (a.length + b.length + 1) [] b a with
        | none =>
          rw [hm] at h
          simp at h
        | some m0 =>
          rw [hm] at h
          simp only [Option.map_some', Option.some.injEq] at h
          rw [hdrop, List.append_nil] at h
          subst h
          have hp := mergeLoop_perm _ _ _ _ _ hm
          rw [List.nil_append] at hp
          exact hp.trans List.perm_append_comm
      · rw [if_neg hc] at h
        simp only at h
        cases hm : mergeLoop (a.length + b.length + 1) [] a b with
        | none =>
          rw [hm] at h
          simp at h
        | some m0 =>
          rw [hm] at h
          simp only [Option.map_some', Option.some.injEq] at h
          rw [hdrop, List.append_nil] at h
          subst h
          have hp := mergeLoop_perm _ _ _ _ _ hm
          rw [List.nil_append] at hp
          exact hp

/-- C7: the cache invariant `cache = {ids} ∪ ⋃ pending.values()` holds
after every non-panicking freelist mutation, given the freelist
invariants of the state it runs on: invariant 1 itself (`goodCache`),
and — where the mutation consults them — sorted ids greater than 1
(`goodIds`, for `allocate`), unique pending keys (the Go-map key
uniqueness of the association-list embedding, for `free`, `allocate`
and `rollback`) and the id-disjointness invariant 4 (for `allocate`
and `rollback`). `read` and `reload` rebuild the cache from scratch
via `reindex` and need nothing. -/
theorem c7_cache_invariant (f : freelist) (hgc : goodCache f) :
    (∀ n s f2, 1 ≤ n → n < 2 ^ 63 → goodIds f.ids →
      Disjoint f.ids.toFinset (pendingUnion f.pending) →
      f.allocate n = some (s, f2) → goodCache f2) ∧
    (∀ t p f2, (f.pending.map Prod.fst).Nodup →
      f.free t p = some f2 → goodCache f2) ∧
    (∀ t f2, f.release t = some f2 → goodCache f2) ∧
    (∀ t, (f.pending.map Prod.fst).Nodup →
      Disjoint f.ids.toFinset (pendingUnion f.pending) →
      (∀ e1 ∈ f.pending, ∀ e2 ∈ f.pending, e1.1 ≠ e2.1 →
        ∀ x ∈ e1.2, x ∉ e2.2) →
      goodCache (f.rollback t)) ∧
    (∀ p, goodCache (f.read p)) ∧
    (∀ p, goodCache (f.reload p)) := by
  refine ⟨?_, ?_, ?_, ?_, fun p => reindex_goodCache _, fun p => reindex_goodCache _⟩
  · -- allocate
    intro n s f2 hn1 hn2 hgi hdisj halloc
    by_cases hrun : ∃ s0, HasRun f.ids s0 n
    · classical
      have hsp := Nat.find_spec hrun
      have hmn : ∀ s2, s2 < Nat.find hrun → ¬ HasRun f.ids s2 n :=
        fun s2 h2 => Nat.find_min hrun h2
      obtain ⟨f2', ha, hids, hch2, hcache, hpend⟩ :=
        (allocate_spec f n hn1 hn2 hgi).2 _ hsp hmn
      rw [halloc, Option.some.injEq, Prod.mk.injEq] at ha
      obtain ⟨hs_eq, hf2_eq⟩ := ha
      subst hf2_eq
      rw [← hs_eq] at hids hcache hsp
      unfold goodCache
      rw [hids, hcache, hpend, hgc]
      have hRids : ∀ x ∈ List.range' s n, x ∈ f.ids := by
        intro x hx
        rw [List.mem_range'_1] at hx
        have h1 := hsp (x - s) (by omega)
        have h2 : s + (x - s) = x := by omega
        rwa [h2] at h1
      ext x
      simp only [Finset.mem_sdiff, Finset.mem_union, List.mem_toFinset,
        List.mem_filter, Bool.or_eq_true, decide_eq_true_eq]
      constructor
      · rintro ⟨hx | hx, hnx⟩
        · refine Or.inl ⟨hx, ?_⟩
          rw [List.mem_range'_1] at hnx
          omega
        · exact Or.inr hx
      · rintro (⟨hx, hor⟩ | hx)
        · refine ⟨Or.inl hx, ?_⟩
          rw [List.mem_range'_1]
          omega
        · refine ⟨Or.inr hx, ?_⟩
          intro hR
          exact (Finset.disjoint_left.mp hdisj
            (List.mem_toFinset.mpr (hRids x hR))) hx
    · push_neg at hrun
      have ha := (allocate_spec f n hn1 hn2 hgi).1 hrun
      rw [halloc, Option.some.injEq, Prod.mk.injEq] at ha
      rw [ha.2]
      exact hgc
  · -- free
    intro t p f2 hnd hfree
    by_cases hbd : p.id ≤ (p.id + p.overflow) % U64 ∧
        (p.id + p.overflow) % U64 = U64 - 1
    · by_cases h1 : p.id ≤ 1
      · rw [freelist.free, if_pos h1] at hfree
        simp at hfree
      · rw [free_boundary_none f t p (by omega) hbd.1 hbd.2] at hfree
        simp at hfree
    rw [free_eq_classic f t p hbd] at hfree
    by_cases h1 : p.id ≤ 1
    · rw [if_pos h1] at hfree
      simp at hfree
    rw [if_neg h1] at hfree
    by_cases h2 : (List.range' p.id ((p.id + p.overflow) % U64 + 1 - p.id)).any
        (fun id => decide (id ∈ f.cache))
    · rw [if_pos h2] at hfree
      simp at hfree
    rw [if_neg h2, Option.some.injEq] at hfree
    subst hfree
    unfold goodCache
    rw [foldl_insert_eq, hgc, pset, pendingUnion_append, pendingUnion_cons]
    rw [show pendingUnion ([] : List (Nat × List Nat)) = ∅ from rfl,
      Finset.union_empty, List.toFinset_append]
    rw [show pendingUnion (pdel f.pending t) ∪
          ((pget f.pending t).toFinset ∪
            (List.range' p.id ((p.id + p.overflow) % U64 + 1 - p.id)).toFinset) =
        (pendingUnion (pdel f.pending t) ∪ (pget f.pending t).toFinset) ∪
          (List.range' p.id ((p.id + p.overflow) % U64 + 1 - p.id)).toFinset from
      (Finset.union_assoc _ _ _).symm]
    rw [pendingUnion_pdel_pget _ _ hnd, Finset.union_assoc]
  · -- release
    intro t f2 hrel
    rw [freelist.release] at hrel
    cases hm : pgidsMerge f.ids
        (sortPgids ((f.pending.filter fun e => decide (e.1 ≤ t)).flatMap
          fun e => e.2)) with
    | none =>
      rw [hm] at hrel
      simp at hrel
    | some merged =>
      rw [hm] at hrel
      simp only [Option.map_some', Option.some.injEq] at hrel
      subst hrel
      have hperm := pgidsMerge_perm hm
      unfold goodCache
      simp only
      rw [hgc]
      have hmt : merged.toFinset = f.ids.toFinset ∪
          pendingUnion (f.pending.filter fun e => decide (e.1 ≤ t)) := by
        ext x
        rw [List.mem_toFinset, hperm.mem_iff, List.mem_append]
        rw [Finset.mem_union, List.mem_toFinset]
        refine or_congr Iff.rfl ?_
        rw [show sortPgids ((f.pending.filter fun e => decide (e.1 ≤ t)).flatMap
              fun e => e.2) = List.insertionSort (· ≤ ·)
              ((f.pending.filter fun e => decide (e.1 ≤ t)).flatMap
                fun e => e.2) from rfl]
        rw [(List.perm_insertionSort (· ≤ ·) _).mem_iff]
        rw [← pendingUnion_flatMap, List.mem_toFinset]
      rw [hmt, Finset.union_assoc,
        pendingUnion_filter_split (fun e => decide (e.1 ≤ t))]
  · -- rollback
    intro t hnd hdisj hpair
    unfold goodCache freelist.rollback
    simp only
    rw [foldl_erase_eq, hgc,
      ← pendingUnion_pdel_pget f.pending t hnd]
    ext x
    simp only [Finset.mem_sdiff, Finset.mem_union, List.mem_toFinset]
    constructor
    · rintro ⟨hx | hx | hx, hnx⟩
      · exact Or.inl hx
      · exact Or.inr hx
      · exact absurd hx hnx
    · rintro (hx | hx)
      · refine ⟨Or.inl hx, ?_⟩
        intro hpx
        exact (Finset.disjoint_left.mp hdisj (List.mem_toFinset.mpr hx))
          ((pendingUnion_pdel_pget f.pending t hnd) ▸
            (Finset.mem_union_right _ (List.mem_toFinset.mpr hpx)))
      · refine ⟨Or.inr (Or.inl hx), ?_⟩
        intro hpx
        obtain ⟨e1, he1, hx1⟩ := mem_pendingUnion.mp hx
        rw [pget] at hpx
        cases hf : f.pending.find? (fun e => e.1 == t) with
        | none =>
          rw [hf] at hpx
          simp at hpx
        | some e2 =>
          rw [hf] at hpx
          have he2 : e2 ∈ f.pending := List.mem_of_find?_eq_some hf
          have he2t : e2.1 = t := by simpa using List.find?_some hf
          have he1' : e1 ∈ f.pending := List.mem_of_mem_filter he1
          have hne : e2.1 ≠ e1.1 := by
            have hkey := List.of_mem_filter he1
            simp only [bne_iff_ne, ne_eq] at hkey
            rw [he2t]
            exact fun h => hkey h.symm
          exact hpair e2 he2 e1 he1' hne x hpx hx1

theorem c7_cache_invariant_witness :
    goodCache
      { ids := []
        pending := [(10, [20, 21, 22])]
        cache := insert 22 (insert 21 (insert 20 ∅)) } := by
  obtain ⟨-, hfree, -, -, -, -⟩ :=
    c7_cache_invariant { ids := [], pending := [], cache := ∅ }
      (by unfold goodCache pendingUnion; simp)
  exact hfree 10 { id := 20, overflow := 2 } _ (by decide) (by decide)

/-! ### C5: branch descent -/

theorem bytesCompare_cases (a b : List Nat) :
    bytesCompare a b = -1 ∨ bytesCompare a b = 0 ∨ bytesCompare a b = 1 := by
  induction a generalizing b with
  | nil => cases b <;> simp [bytesCompare]
  | cons a0 as ih =>
    cases b with
    | nil => simp [bytesCompare]
    | cons b0 bs =>
      rw [bytesCompare]
      by_cases h1 : a0 < b0
      · rw [if_pos h1]
        exact Or.inl rfl
      · rw [if_neg h1]
        by_cases h2 : b0 < a0
        · rw [if_pos h2]
          exact Or.inr (Or.inr rfl)
        · rw [if_neg h2]
          exact ih bs

theorem bytesCompare_swap (a b : List Nat) :
    bytesCompare b a = -bytesCompare a b := by
  induction a generalizing b with
  | nil => cases b <;> simp [bytesCompare]
  | cons a0 as ih =>
    cases b with
    | nil => simp [bytesCompare]
    | cons b0 bs =>
      rw [bytesCompare, bytesCompare]
      by_cases h1 : a0 < b0
      · rw [if_pos h1, if_neg (by omega), if_pos h1]
        rfl
      · rw [if_neg h1]
        by_cases h2 : b0 < a0
        · rw [if_pos h2, if_pos h2, if_neg h1]
        · rw [if_neg h2, if_neg h2, if_neg h1]
          exact ih bs

theorem bytesCompare_eq_zero {a b : List Nat} :
    bytesCompare a b = 0 ↔ a = b := by
  induction a generalizing b with
  | nil => cases b <;> simp [bytesCompare]
  | cons a0 as ih =>
    cases b with
    | nil => simp [bytesCompare]
    | cons b0 bs =>
      rw [bytesCompare]
      by_cases h1 : a0 < b0
      · rw [if_pos h1]
        simp only [List.cons.injEq]
        constructor
        · intro h
          exact absurd h (by decide)
        · rintro ⟨h, -⟩
          omega
      · rw [if_neg h1]
        by_cases h2 : b0 < a0
        · rw [if_pos h2]
          simp only [List.cons.injEq]
          constructor
          · intro h
            exact absurd h (by decide)
          · rintro ⟨h, -⟩
            omega
        · rw [if_neg h2, ih]
          simp only [List.cons.injEq]
          constructor
          · intro h
            exact ⟨by omega, h⟩
          · rintro ⟨-, h⟩
            exact h

theorem bytesCompare_trans {a b c : List Nat} (h1 : bytesCompare a b = -1)
    (h2 : bytesCompare b c = -1) : bytesCompare a c = -1 := by
  induction a generalizing b c with
  | nil =>
    cases c with
    | nil =>
      cases b with
      | nil => simp [bytesCompare] at h1
      | cons b0 bs => simp [bytesCompare] at h2
    | cons c0 cs => rfl
  | cons a0 as ih =>
    cases b with
    | nil => simp [bytesCompare] at h1
    | cons b0 bs =>
      cases c with
      | nil => simp [bytesCompare] at h2
      | cons c0 cs =>
        rw [bytesCompare] at h1 h2 ⊢
        by_cases hab : a0 < b0
        · by_cases hbc : b0 < c0
          · rw [if_pos (show a0 < c0 by omega)]
          · rw [if_neg hbc] at h2
            by_cases hcb : c0 < b0
            · rw [if_pos hcb] at h2
              exact absurd h2 (by decide)
            · rw [if_pos (show a0 < c0 by omega)]
        · rw [if_neg hab] at h1
          by_cases hba : b0 < a0
          · rw [if_pos hba] at h1
            exact absurd h1 (by decide)
          · rw [if_neg hba] at h1
            by_cases hbc : b0 < c0
            · rw [if_pos (show a0 < c0 by omega)]
            · rw [if_neg hbc] at h2
              by_cases hcb : c0 < b0
              · rw [if_pos hcb] at h2
                exact absurd h2 (by decide)
              · rw [if_neg hcb] at h2
                rw [if_neg (show ¬ a0 < c0 by omega),
                  if_neg (show ¬ c0 < a0 by omega)]
                exact ih h1 h2

/-- If `a ≥ key` (compare not `-1`) and `a < c`, then `c > key`. -/
theorem bytesCompare_le_lt_trans {a c key : List Nat}
    (h1 : bytesCompare a key ≠ -1) (h2 : bytesCompare a c = -1) :
    bytesCompare c key = 1 := by
  rcases bytesCompare_cases a key with h | h | h
  · exact absurd h h1
  · have ha : a = key := bytesCompare_eq_zero.mp h
    subst ha
    rw [bytesCompare_swap, h2]
    decide
  · have hk : bytesCompare key a = -1 := by
      rw [bytesCompare_swap, h]
    have h3 := bytesCompare_trans hk h2
    rw [bytesCompare_swap, h3]
    decide

theorem sortSearchCmpGo_spec (cmp : Nat → Int) (n : Nat)
    (hmono : ∀ k l, k < l → l < n → cmp k ≠ -1 → cmp l = 1) :
    ∀ d i j ex, j - i ≤ d → i ≤ j → j ≤ n →
      (∀ k, k < i → cmp k = -1) →
      (∀ k, j ≤ k → k < n → cmp k ≠ -1) →
      (i ≤ (sortSearchCmpGo cmp i j ex).1 ∧ (sortSearchCmpGo cmp i j ex).1 ≤ j) ∧
      (∀ k, k < (sortSearchCmpGo cmp i j ex).1 → cmp k = -1) ∧
      ((sortSearchCmpGo cmp i j ex).1 < n →
        cmp (sortSearchCmpGo cmp i j ex).1 ≠ -1) ∧
      ((sortSearchCmpGo cmp i j ex).2 = true ↔
        (ex = true ∨ ((sortSearchCmpGo cmp i j ex).1 < j ∧
          cmp (sortSearchCmpGo cmp i j ex).1 = 0))) := by
  intro d
  induction d with
  | zero =>
    intro i j ex hd hij hjn hlow hhigh
    have hji : i = j := by omega
    subst hji
    rw [sortSearchCmpGo]
    simp only [lt_irrefl, dite_false]
    refine ⟨⟨le_refl _, le_refl _⟩, hlow, fun h => hhigh i (le_refl _) h, ?_⟩
    simp
  | succ d ih =>
    intro i j ex hd hij hjn hlow hhigh
    rw [sortSearchCmpGo]
    by_cases hlt : i < j
    · simp only [dif_pos hlt]
      by_cases hc : cmp ((i + j) / 2) ≠ -1
      · rw [if_pos hc]
        have hhigh2 : ∀ k, (i + j) / 2 ≤ k → k < n → cmp k ≠ -1 := by
          intro k hk1 hk2
          rcases Nat.eq_or_lt_of_le hk1 with h | h
          · rw [← h]
            exact hc
          · rw [hmono _ _ h hk2 hc]
            decide
        by_cases hz : cmp ((i + j) / 2) = 0
        · rw [if_pos hz]
          have h := ih i ((i + j) / 2) true (by omega) (by omega) (by omega)
            hlow hhigh2
          refine ⟨⟨h.1.1, le_trans h.1.2 (by omega)⟩, h.2.1, h.2.2.1, ?_⟩
          rw [h.2.2.2]
          have hm : (sortSearchCmpGo cmp i ((i + j) / 2) true).1 = (i + j) / 2 := by
            rcases Nat.eq_or_lt_of_le h.1.2 with h4 | h4
            · exact h4
            · exfalso
              have h5 := h.2.2.1 (by omega)
              have h6 := hmono _ _ h4 (by omega) h5
              rw [h6] at hz
              exact absurd hz (by decide)
          constructor
          · intro _
            refine Or.inr ⟨?_, ?_⟩
            · rw [hm]
              omega
            · rw [hm]
              exact hz
          · intro _
            exact Or.inl rfl
        · rw [if_neg hz]
          have h := ih i ((i + j) / 2) ex (by omega) (by omega) (by omega)
            hlow hhigh2
          refine ⟨⟨h.1.1, le_trans h.1.2 (by omega)⟩, h.2.1, h.2.2.1, ?_⟩
          rw [h.2.2.2]
          constructor
          · rintro (h4 | ⟨h4, h5⟩)
            · exact Or.inl h4
            · exact Or.inr ⟨by omega, h5⟩
          · rintro (h4 | ⟨h4, h5⟩)
            · exact Or.inl h4
            · refine Or.inr ⟨?_, h5⟩
              rcases Nat.eq_or_lt_of_le h.1.2 with h6 | h6
              · rw [h6] at h5
                exact absurd h5 hz
              · exact h6
      · rw [if_neg hc]
        rw [not_not] at hc
        have hex : (if cmp ((i + j) / 2) = 0 then true else ex) = ex := by
          rw [if_neg (by rw [hc]; decide)]
        rw [hex]
        have hlow2 : ∀ k, k < (i + j) / 2 + 1 → cmp k = -1 := by
          intro k hk
          by_cases hki : k < i
          · exact hlow k hki
          · rcases Nat.eq_or_lt_of_le (show k ≤ (i + j) / 2 by omega) with h | h
            · rw [h]
              exact hc
            · by_contra h2
              have h3 := hmono k ((i + j) / 2) h (by omega) h2
              rw [h3] at hc
              exact absurd hc (by decide)
        have h := ih ((i + j) / 2 + 1) j ex (by omega) (by omega) hjn hlow2 hhigh
        exact ⟨⟨le_trans (by omega) h.1.1, h.1.2⟩, h.2.1, h.2.2.1, h.2.2.2⟩
    · simp only [dif_neg hlt]
      have hji : i = j := by omega
      subst hji
      refine ⟨⟨le_refl _, le_refl _⟩, hlow, fun h => hhigh i (le_refl _) h, ?_⟩
      simp

theorem sortSearchCmp_spec (n : Nat) (cmp : Nat → Int)
    (hmono : ∀ k l, k < l → l < n → cmp k ≠ -1 → cmp l = 1) :
    (sortSearchCmp n cmp).1 ≤ n ∧
    (∀ k, k < (sortSearchCmp n cmp).1 → cmp k = -1) ∧
    ((sortSearchCmp n cmp).1 < n → cmp (sortSearchCmp n cmp).1 ≠ -1) ∧
    ((sortSearchCmp n cmp).2 = true ↔
      ((sortSearchCmp n cmp).1 < n ∧ cmp (sortSearchCmp n cmp).1 = 0)) := by
  have h := sortSearchCmpGo_spec cmp n hmono n 0 n false (by omega) (by omega)
    (le_refl _) (by omega) (by intro k h1 h2; omega)
  refine ⟨h.1.2, h.2.1, h.2.2.1, ?_⟩
  simpa using h.2.2.2

/-- The net effect of the `index` computation shared by `searchNode` and
`searchPage`: binary-search the leftmost `≥` position with the `exact`
flag, then step back once when inexact and positive. The result is the
rightmost position comparing `≤` (`cmp ≠ 1`), or `0` when every position
compares `>`. -/
theorem searchIndex_spec (cmp : Nat → Int) (cnt : Nat) (hcnt : 0 < cnt)
    (hrange : ∀ k, k < cnt → cmp k = -1 ∨ cmp k = 0 ∨ cmp k = 1)
    (hmono : ∀ k l, k < l → l < cnt → cmp k ≠ -1 → cmp l = 1)
    (index : Nat)
    (hidx : index =
      if (sortSearchCmp cnt cmp).2 = false ∧ (sortSearchCmp cnt cmp).1 > 0
      then (sortSearchCmp cnt cmp).1 - 1 else (sortSearchCmp cnt cmp).1) :
    index < cnt ∧
    (∀ l, index < l → l < cnt → cmp l = 1) ∧
    (cmp index ≠ 1 ∨ (index = 0 ∧ ∀ l, l < cnt → cmp l = 1)) := by
  obtain ⟨hle, hlow, hhit, hex⟩ := sortSearchCmp_spec cnt cmp hmono
  by_cases hexv : (sortSearchCmp cnt cmp).2 = true
  · obtain ⟨hlt, hz⟩ := hex.mp hexv
    have hidx2 : index = (sortSearchCmp cnt cmp).1 := by
      rw [hidx, if_neg (by rw [hexv]; simp)]
    refine ⟨by omega, ?_, ?_⟩
    · intro l h1 h2
      refine hmono index l h1 h2 ?_
      rw [hidx2, hz]
      decide
    · rw [hidx2, hz]
      exact Or.inl (by decide)
  · have hexf : (sortSearchCmp cnt cmp).2 = false := by
      rcases Bool.eq_false_or_eq_true (sortSearchCmp cnt cmp).2 with h | h
      · exact absurd h hexv
      · exact h
    have hnz : ¬ ((sortSearchCmp cnt cmp).1 < cnt ∧
        cmp (sortSearchCmp cnt cmp).1 = 0) := fun h => hexv (hex.mpr h)
    by_cases hpos : (sortSearchCmp cnt cmp).1 > 0
    · have hidx2 : index = (sortSearchCmp cnt cmp).1 - 1 := by
        rw [hidx, if_pos ⟨hexf, hpos⟩]
      have hm1 : cmp index = -1 := by
        rw [hidx2]
        exact hlow _ (by omega)
      refine ⟨by omega, ?_, Or.inl (by rw [hm1]; decide)⟩
      intro l h1 h2
      rcases Nat.eq_or_lt_of_le (show (sortSearchCmp cnt cmp).1 ≤ l by omega)
        with h3 | h3
      · rcases hrange l h2 with h4 | h4 | h4
        · exact absurd h4 (by rw [← h3]; exact hhit (by omega))
        · exact absurd ⟨by omega, by rw [h3]; exact h4⟩ hnz
        · exact h4
      · exact hmono _ l h3 h2 (hhit (by omega))
    · have hidx2 : index = 0 := by
        rw [hidx, if_neg (fun h => hpos h.2)]
        omega
      have hall : ∀ l, l < cnt → cmp l = 1 := by
        intro l h2
        have h0 : cmp (sortSearchCmp cnt cmp).1 ≠ -1 := hhit (by omega)
        rcases Nat.eq_or_lt_of_le (show (sortSearchCmp cnt cmp).1 ≤ l by omega)
          with h3 | h3
        · rcases hrange l h2 with h4 | h4 | h4
          · exact absurd h4 (by rw [← h3]; exact h0)
          · exact absurd ⟨by omega, by rw [h3]; exact h4⟩ hnz
          · exact h4
        · exact hmono _ l h3 h2 h0
      exact ⟨by omega, fun l _ h2 => hall l h2, Or.inr ⟨hidx2, hall⟩⟩

/-- `searchNode` on a branch frame with strictly ascending keys: the
stored index is the rightmost element with key `≤` the search key (`0`
when all keys exceed it) and the call recurses into its child. -/
theorem searchNode_spec (b : Bucket) (key : List Nat) (fuel : Nat) :
    ∀ (nd : node) (top : elemRef) (rest : CStack),
      0 < nd.inodes.length →
      (∀ k l, k < l → l < nd.inodes.length →
        bytesCompare (nd.inodes.getD k default).key
          (nd.inodes.getD l default).key = -1) →
      ∃ index e, nd.inodes.get? index = some e ∧
        searchNode b key fuel nd (top :: rest) =
          search b key fuel e.pgid ({ top with index := index } :: rest) ∧
        index < nd.inodes.length ∧
        (∀ l, index < l → l < nd.inodes.length →
          bytesCompare (nd.inodes.getD l default).key key = 1) ∧
        (bytesCompare e.key key ≠ 1 ∨
          (index = 0 ∧ ∀ l, l < nd.inodes.length →
            bytesCompare (nd.inodes.getD l default).key key = 1)) := by
  intro nd top rest hlen hasc
  obtain ⟨hidx, hgt, hcmp⟩ := searchIndex_spec
    (fun i => bytesCompare (nd.inodes.getD i default).key key)
    nd.inodes.length hlen
    (fun k _ => bytesCompare_cases _ _)
    (fun k l hkl hln hk => bytesCompare_le_lt_trans hk (hasc k l hkl hln))
    _ rfl
  refine ⟨_, nd.inodes.get ⟨_, hidx⟩, List.get?_eq_get hidx, ?_, hidx, hgt, ?_⟩
  · rw [searchNode.eq_def]
    simp only
    rw [List.get?_eq_get hidx]
  · rw [List.getD_eq_get? , List.get?_eq_get hidx, Option.getD_some] at hcmp
    exact hcmp

/-- `searchPage`, the page-only twin of `searchNode_spec`. -/
theorem searchPage_spec (b : Bucket) (key : List Nat) (fuel : Nat) :
    ∀ (p : page) (top : elemRef) (rest : CStack),
      0 < p.count → p.count ≤ p.branchElems.length →
      (∀ k l, k < l → l < p.count →
        bytesCompare (p.branchElems.getD k default).key
          (p.branchElems.getD l default).key = -1) →
      ∃ index e, p.branchElems.get? index = some e ∧
        searchPage b key fuel p (top :: rest) =
          search b key fuel e.pgid ({ top with index := index } :: rest) ∧
        index < p.count ∧
        (∀ l, index < l → l < p.count →
          bytesCompare (p.branchElems.getD l default).key key = 1) ∧
        (bytesCompare e.key key ≠ 1 ∨
          (index = 0 ∧ ∀ l, l < p.count →
            bytesCompare (p.branchElems.getD l default).key key = 1)) := by
  intro p top rest hcnt hcnt2 hasc
  obtain ⟨hidx, hgt, hcmp⟩ := searchIndex_spec
    (fun i => bytesCompare (p.branchElems.getD i default).key key)
    p.count hcnt
    (fun k _ => bytesCompare_cases _ _)
    (fun k l hkl hln hk => bytesCompare_le_lt_trans hk (hasc k l hkl hln))
    _ rfl
  have hidx2 := lt_of_lt_of_le hidx hcnt2
  refine ⟨_, p.branchElems.get ⟨_, hidx2⟩, List.get?_eq_get hidx2, ?_, hidx,
    hgt, ?_⟩
  · rw [searchPage.eq_def]
    simp only
    rw [List.get?_eq_get hidx2]
  · rw [List.getD_eq_get? , List.get?_eq_get hidx2, Option.getD_some] at hcmp
    exact hcmp

/-- C5: during descent, on a branch frame whose keys are strictly
ascending, `searchNode` (node cached) and `searchPage` (page only) set
the top frame's index to the rightmost element whose key is `≤` the
search key — the index is `0` when every key exceeds the search key —
and recurse into that element's child page id. -/
theorem c5_search_branch (b : Bucket) (key : List Nat) (fuel : Nat) :
    (∀ (nd : node) (top : elemRef) (rest : CStack),
      0 < nd.inodes.length →
      (∀ k l, k < l → l < nd.inodes.length →
        bytesCompare (nd.inodes.getD k default).key
          (nd.inodes.getD l default).key = -1) →
      ∃ index e, nd.inodes.get? index = some e ∧
        searchNode b key fuel nd (top :: rest) =
          search b key fuel e.pgid ({ top with index := index } :: rest) ∧
        index < nd.inodes.length ∧
        (∀ l, index < l → l < nd.inodes.length →
          bytesCompare (nd.inodes.getD l default).key key = 1) ∧
        (bytesCompare e.key key ≠ 1 ∨
          (index = 0 ∧ ∀ l, l < nd.inodes.length →
            bytesCompare (nd.inodes.getD l default).key key = 1))) ∧
    (∀ (p : page) (top : elemRef) (rest : CStack),
      0 < p.count → p.count ≤ p.branchElems.length →
      (∀ k l, k < l → l < p.count →
        bytesCompare (p.branchElems.getD k default).key
          (p.branchElems.getD l default).key = -1) →
      ∃ index e, p.branchElems.get? index = some e ∧
        searchPage b key fuel p (top :: rest) =
          search b key fuel e.pgid ({ top with index := index } :: rest) ∧
        index < p.count ∧
        (∀ l, index < l → l < p.count →
          bytesCompare (p.branchElems.getD l default).key key = 1) ∧
        (bytesCompare e.key key ≠ 1 ∨
          (index = 0 ∧ ∀ l, l < p.count →
            bytesCompare (p.branchElems.getD l default).key key = 1))) :=
  ⟨searchNode_spec b key fuel, searchPage_spec b key fuel⟩

theorem c5_search_branch_witness :
    ∃ index e,
      (node.mk false [⟨0, 7, [1], []⟩, ⟨0, 8, [3], []⟩,
        ⟨0, 9, [5], []⟩]).inodes.get? index = some e ∧
      searchNode ⟨0, fun _ => (none, none)⟩ [4] 5
          (node.mk false [⟨0, 7, [1], []⟩, ⟨0, 8, [3], []⟩, ⟨0, 9, [5], []⟩])
          [{ index := 0 }] =
        search ⟨0, fun _ => (none, none)⟩ [4] 5 e.pgid
          [{ ({ index := 0 } : elemRef) with index := index }] ∧
      index < 3 ∧
      (∀ l, index < l → l < 3 →
        bytesCompare ((node.mk false [⟨0, 7, [1], []⟩, ⟨0, 8, [3], []⟩,
          ⟨0, 9, [5], []⟩]).inodes.getD l default).key [4] = 1) ∧
      (bytesCompare e.key [4] ≠ 1 ∨
        (index = 0 ∧ ∀ l, l < 3 →
          bytesCompare ((node.mk false [⟨0, 7, [1], []⟩, ⟨0, 8, [3], []⟩,
            ⟨0, 9, [5], []⟩]).inodes.getD l default).key [4] = 1)) := by
  exact (c5_search_branch ⟨0, fun _ => (none, none)⟩ [4] 5).1
    (node.mk false [⟨0, 7, [1], []⟩, ⟨0, 8, [3], []⟩, ⟨0, 9, [5], []⟩])
    { index := 0 } [] (by decide)
    (by
      intro k l hkl hll
      have hll3 : l < 3 := hll
      have hkl3 : k < 3 := by omega
      interval_cases l <;> interval_cases k <;> decide)

/-! ### Cursor infrastructure (C3, C4) -/

theorem topSlack_cons {r : elemRef} {s : CStack} {c : Nat}
    (hc : r.count = some c) : topSlack (r :: s) ↔ r.index < c := by
  show (match r.count with | some c => r.index < c | none => False) ↔ _
  rw [hc]

theorem topSlack_append {s s2 : CStack} (h : s ≠ []) :
    topSlack (s ++ s2) ↔ topSlack s := by
  cases s with
  | nil => exact absurd rfl h
  | cons r s' => exact Iff.rfl

theorem isLeaf_of_viewOf_leaf {r : elemRef} {es : List leafPageElement}
    (h : ViewOf (r.page, r.node) (.leafV es)) : r.isLeaf = some true := by
  rw [elemRef.isLeaf]
  cases hn : r.node with
  | some n =>
    cases hp : r.page with
    | some p =>
      rw [hp, hn] at h
      exact absurd h (by simp [ViewOf])
    | none =>
      rw [hp, hn] at h
      simp only
      rw [h.1]
  | none =>
    cases hp : r.page with
    | some p =>
      rw [hp, hn] at h
      simp only
      rw [h.1]
      norm_num [leafPageFlag]
    | none =>
      rw [hp, hn] at h
      exact absurd h (by simp [ViewOf])

theorem isLeaf_of_viewOf_branch {r : elemRef} {es : List branchPageElement}
    (h : ViewOf (r.page, r.node) (.branchV es)) : r.isLeaf = some false := by
  rw [elemRef.isLeaf]
  cases hn : r.node with
  | some n =>
    cases hp : r.page with
    | some p =>
      rw [hp, hn] at h
      exact absurd h (by simp [ViewOf])
    | none =>
      rw [hp, hn] at h
      simp only
      rw [h.1]
  | none =>
    cases hp : r.page with
    | some p =>
      rw [hp, hn] at h
      simp only
      rw [h.1]
      norm_num [branchPageFlag, leafPageFlag]
    | none =>
      rw [hp, hn] at h
      exact absurd h (by simp [ViewOf])

theorem count_of_viewOf_leaf {r : elemRef} {es : List leafPageElement}
    (h : ViewOf (r.page, r.node) (.leafV es)) : r.count = some es.length := by
  rw [elemRef.count]
  cases hn : r.node with
  | some n =>
    cases hp : r.page with
    | some p =>
      rw [hp, hn] at h
      exact absurd h (by simp [ViewOf])
    | none =>
      rw [hp, hn] at h
      simp only
      rw [h.2, List.length_map]
  | none =>
    cases hp : r.page with
    | some p =>
      rw [hp, hn] at h
      simp only
      rw [h.2.1]
    | none =>
      rw [hp, hn] at h
      exact absurd h (by simp [ViewOf])

theorem count_of_viewOf_branch {r : elemRef} {es : List branchPageElement}
    (h : ViewOf (r.page, r.node) (.branchV es)) : r.count = some es.length := by
  rw [elemRef.count]
  cases hn : r.node with
  | some n =>
    cases hp : r.page with
    | some p =>
      rw [hp, hn] at h
      exact absurd h (by simp [ViewOf])
    | none =>
      rw [hp, hn] at h
      simp only
      rw [h.2, List.length_map]
  | none =>
    cases hp : r.page with
    | some p =>
      rw [hp, hn] at h
      simp only
      rw [h.2.1]
    | none =>
      rw [hp, hn] at h
      exact absurd h (by simp [ViewOf])

theorem CursorAt_ne_nil {b : Bucket} {t : btree} {s : CStack} {i : Nat}
    (h : CursorAt b t s i) : s ≠ [] := by
  cases h with
  | leaf hv hidx hle => simp
  | branch es hv hlen hkeys hreps hidx hj hsub => simp

theorem btree_depth_pos (t : btree) : 0 < t.depth := by
  cases t with
  | leaf es =>
    rw [btree.depth]
    omega
  | branch cs =>
    rw [btree.depth]
    omega

theorem depthList_child_le {cs : List (List Nat × btree)} :
    ∀ c ∈ cs, c.2.depth ≤ depthList cs := by
  induction cs with
  | nil => simp
  | cons c0 cs ih =>
    intro c hc
    rw [depthList]
    rcases List.mem_cons.mp hc with h | h
    · subst h
      exact le_max_left _ _
    · exact le_trans (ih c h) (le_max_right _ _)

theorem depthList_getD_le {cs : List (List Nat × btree)} {k : Nat}
    (hk : k < cs.length) : (cs.getD k default).2.depth ≤ depthList cs := by
  refine depthList_child_le _ ?_
  rw [List.getD_eq_get? , List.get?_eq_get hk, Option.getD_some]
  exact List.get_mem _ _ _

theorem wfList_mem {cs : List (List Nat × btree)} (h : wfList cs) :
    ∀ c ∈ cs, c.2.wf ∧ c.1 = headKey c.2 := by
  induction cs with
  | nil => simp
  | cons c0 cs ih =>
    rw [wfList] at h
    intro c hc
    rcases List.mem_cons.mp hc with h1 | h1
    · subst h1
      exact ⟨h.1, h.2.1⟩
    · exact ih h.2.2 c h1

theorem wfList_getD {cs : List (List Nat × btree)} {k : Nat} (h : wfList cs)
    (hk : k < cs.length) :
    (cs.getD k default).2.wf ∧ (cs.getD k default).1 = headKey (cs.getD k default).2 := by
  refine wfList_mem h _ ?_
  rw [List.getD_eq_get? , List.get?_eq_get hk, Option.getD_some]
  exact List.get_mem _ _ _

theorem leaves_ne_nil : ∀ (d : Nat) (t : btree), t.depth ≤ d → t.wf →
    t.leaves ≠ [] := by
  intro d
  induction d with
  | zero =>
    intro t hd
    have := btree_depth_pos t
    omega
  | succ d ih =>
    intro t hd hwf
    cases t with
    | leaf es =>
      rw [btree.leaves]
      exact hwf
    | branch cs =>
      rw [btree.wf] at hwf
      rw [btree.depth] at hd
      rw [btree.leaves]
      cases cs with
      | nil => exact absurd rfl hwf.1
      | cons c0 cs' =>
        rw [leavesList]
        have h0 : c0.2.leaves ≠ [] := by
          refine ih c0.2 ?_ ((wfList_mem hwf.2 c0 (List.mem_cons_self _ _)).1)
          have := @depthList_child_le (c0 :: cs') c0 (List.mem_cons_self _ _)
          omega
        intro hEq
        exact h0 (List.append_eq_nil.mp hEq).1

theorem leavesList_append (xs ys : List (List Nat × btree)) :
    leavesList (xs ++ ys) = leavesList xs ++ leavesList ys := by
  induction xs with
  | nil => rw [leavesList, List.nil_append, List.nil_append]
  | cons c xs ih =>
    rw [List.cons_append, leavesList, leavesList, ih, List.append_assoc]

theorem offsetAt_zero (cs : List (List Nat × btree)) : offsetAt cs 0 = 0 := rfl

theorem offsetAt_succ {cs : List (List Nat × btree)} {j : Nat}
    (hj : j < cs.length) :
    offsetAt cs (j + 1) = offsetAt cs j + (cs.getD j default).2.leaves.length := by
  rw [offsetAt, offsetAt, List.take_succ, leavesList_append, List.length_append]
  congr 1
  rw [List.getElem?_eq_getElem hj]
  rw [show ((some cs[j]).toList) = [cs[j]] from rfl]
  rw [leavesList, leavesList, List.append_nil]
  rw [show (cs.getD j default) = cs[j] from by
    rw [List.getD_eq_getElem?_getD, List.getElem?_eq_getElem hj, Option.getD_some]]

theorem offsetAt_le {cs : List (List Nat × btree)} {j : Nat} (hj : j ≤ cs.length) :
    offsetAt cs j ≤ (leavesList cs).length := by
  rw [offsetAt]
  conv_rhs => rw [← List.take_append_drop j cs]
  rw [leavesList_append, List.length_append]
  omega

theorem offsetAt_length (cs : List (List Nat × btree)) :
    offsetAt cs cs.length = (leavesList cs).length := by
  rw [offsetAt, List.take_length]

theorem leavesList_split {cs : List (List Nat × btree)} {j : Nat}
    (hj : j < cs.length) :
    leavesList cs = leavesList (cs.take j) ++
      ((cs.getD j default).2.leaves ++ leavesList (cs.drop (j + 1))) := by
  conv_lhs => rw [← List.take_append_drop j cs]
  rw [leavesList_append]
  congr 1
  rw [List.drop_eq_getElem_cons hj, leavesList]
  congr 2
  rw [show (cs.getD j default) = cs[j] from by
    rw [List.getD_eq_getElem?_getD, List.getElem?_eq_getElem hj, Option.getD_some]]

theorem leavesList_get?_offset {cs : List (List Nat × btree)} {j i : Nat}
    (hj : j < cs.length) (hi : i < (cs.getD j default).2.leaves.length) :
    (leavesList cs).get? (offsetAt cs j + i) = (cs.getD j default).2.leaves.get? i := by
  rw [leavesList_split hj]
  rw [List.get?_append_right (by rw [offsetAt]; omega)]
  rw [show offsetAt cs j + i - (leavesList (cs.take j)).length = i from by
    rw [offsetAt]; omega]
  exact List.get?_append hi

theorem CursorAt_bounds {b : Bucket} : ∀ {t : btree} {s : CStack} {i : Nat},
    CursorAt b t s i →
    i ≤ t.leaves.length ∧ (topSlack s → i < t.leaves.length) := by
  intro t s i h
  induction h with
  | leaf hv hidx hle =>
    rename_i es r i
    rw [btree.leaves]
    refine ⟨hle, ?_⟩
    intro hts
    rw [topSlack_cons (count_of_viewOf_leaf hv)] at hts
    omega
  | branch es hv hlen hkeys hreps hidx hj hsub ih =>
    rename_i cs r s j i
    rw [btree.leaves]
    have hoff := offsetAt_succ hj
    have hle2 : offsetAt cs (j + 1) ≤ (leavesList cs).length := offsetAt_le (by omega)
    obtain ⟨ih1, ih2⟩ := ih
    constructor
    · omega
    · intro hts
      rw [topSlack_append (CursorAt_ne_nil hsub)] at hts
      have := ih2 hts
      omega

theorem childPg_of_viewOf_branch {r : elemRef} {es : List branchPageElement}
    (h : ViewOf (r.page, r.node) (.branchV es)) (hk : r.index < es.length) :
    (match r.node with
     | some n => (n.inodes.get? r.index).map (fun i => i.pgid)
     | none =>
       match r.page with
       | none => none
       | some p => (p.branchElems.get? r.index).map (fun e => e.pgid)) =
      some (es.getD r.index default).pgid := by
  cases hn : r.node with
  | some n =>
    cases hp : r.page with
    | some p =>
      rw [hp, hn] at h
      exact absurd h (by simp [ViewOf])
    | none =>
      rw [hp, hn] at h
      simp only
      obtain ⟨-, hes⟩ := h
      have hk2 : r.index < n.inodes.length := by
        rw [hes, List.length_map] at hk
        exact hk
      rw [List.get?_eq_get hk2, Option.map_some']
      rw [show es.getD r.index default = es.get ⟨r.index, hk⟩ from by
        rw [List.getD_eq_get? , List.get?_eq_get hk, Option.getD_some]]
      have hsome : some (es.get ⟨r.index, hk⟩) =
          some (⟨(n.inodes.get ⟨r.index, hk2⟩).key,
            (n.inodes.get ⟨r.index, hk2⟩).pgid⟩ : branchPageElement) := by
        rw [← List.get?_eq_get hk]
        conv_lhs => rw [hes]
        rw [List.get?_map, List.get?_eq_get hk2, Option.map_some']
      rw [Option.some.inj hsome]
  | none =>
    cases hp : r.page with
    | some p =>
      rw [hp, hn] at h
      simp only
      obtain ⟨-, hcnt, hels⟩ := h
      have hk2 : r.index < p.branchElems.length := by
        rw [hels]
        exact hk
      rw [List.get?_eq_get hk2, Option.map_some']
      rw [show es.getD r.index default = es.get ⟨r.index, hk⟩ from by
        rw [List.getD_eq_get? , List.get?_eq_get hk, Option.getD_some]]
      have hsome : some (p.branchElems.get ⟨r.index, hk2⟩) =
          some (es.get ⟨r.index, hk⟩) := by
        rw [← List.get?_eq_get hk2, ← List.get?_eq_get hk, hels]
      rw [Option.some.inj hsome]
    | none =>
      rw [hp, hn] at h
      exact absurd h (by simp [ViewOf])

/-- `Cursor.first()` from a fresh index-0 frame for a represented,
well-formed subtree: descends to the leftmost leaf, building a stack
positioned on leaf element 0. -/
theorem cfirst_descend {b : Bucket} {pg : Nat} {t : btree}
    (hrep : Represents b pg t) : ∀ fuel, t.depth ≤ fuel → t.wf →
    ∀ (r : elemRef),
      r.page = (b.pageNode pg).1 → r.node = (b.pageNode pg).2 → r.index = 0 →
      ∃ s, (∀ rest : CStack, cfirst b fuel (r :: rest) = some (s ++ rest)) ∧
        CursorAt b t s 0 ∧ topSlack s := by
  induction hrep with
  | leaf hv =>
    rename_i pg es
    intro fuel hfuel hwf r hrp hrn hri
    rw [btree.wf] at hwf
    rw [btree.depth] at hfuel
    cases fuel with
    | zero => omega
    | succ f =>
      have hv' : ViewOf (r.page, r.node) (.leafV es) := by
        rw [hrp, hrn]
        exact hv
      have hstep : ∀ rest : CStack, cfirst b (f + 1) (r :: rest) = some (r :: rest) := by
        intro rest
        rw [cfirst.eq_def]
        simp only
        rw [isLeaf_of_viewOf_leaf hv']
      refine ⟨[r], fun rest => by rw [hstep]; rfl, ?_, ?_⟩
      · exact CursorAt.leaf hv' hri (Nat.zero_le _)
      · rw [topSlack_cons (count_of_viewOf_leaf hv'), hri]
        exact List.length_pos.mpr hwf
  | branch es hv hlen hkeys hreps ih =>
    rename_i pg cs
    intro fuel hfuel hwf r hrp hrn hri
    rw [btree.wf] at hwf
    rw [btree.depth] at hfuel
    cases fuel with
    | zero => omega
    | succ f =>
      have hv' : ViewOf (r.page, r.node) (.branchV es) := by
        rw [hrp, hrn]
        exact hv
      have hcs : 0 < cs.length := List.length_pos.mpr hwf.1
      have hi0 : r.index < es.length := by
        rw [hri, hlen]
        exact hcs
      have hpg := childPg_of_viewOf_branch hv' hi0
      have hstep : ∀ rest : CStack, cfirst b (f + 1) (r :: rest) =
          cfirst b f
            ({ page := (b.pageNode (es.getD r.index default).pgid).1,
               node := (b.pageNode (es.getD r.index default).pgid).2,
               index := 0 } :: r :: rest) := by
        intro rest
        rw [cfirst.eq_def]
        simp only
        rw [isLeaf_of_viewOf_branch hv', hpg]
      rw [hri] at hstep
      obtain ⟨s0, hres, hcur, hts⟩ := ih 0 hcs f
        (by
          have := depthList_getD_le hcs
          omega)
        (wfList_getD hwf.2 hcs).1
        { page := (b.pageNode (es.getD 0 default).pgid).1,
          node := (b.pageNode (es.getD 0 default).pgid).2,
          index := 0 } rfl rfl rfl
      refine ⟨s0 ++ [r], ?_, ?_, ?_⟩
      · intro rest
        rw [hstep, hres (r :: rest), List.append_assoc]
        rfl
      · have hc := CursorAt.branch es hv' hlen hkeys hreps hri hcs hcur
        rw [offsetAt_zero] at hc
        exact hc
      · rw [topSlack_append (CursorAt_ne_nil hcur)]
        exact hts

theorem keyValue_append {s s2 : CStack} (h : s ≠ []) :
    keyValue (s ++ s2) = keyValue s := by
  cases s with
  | nil => exact absurd rfl h
  | cons r s' => rfl

/-- `keyValue` on a valid cursor stack whose top frame is within bounds
reads exactly the `i`-th leaf element of the tree. -/
theorem keyValue_at {b : Bucket} : ∀ {t : btree} {s : CStack} {i : Nat},
    CursorAt b t s i → topSlack s →
    keyValue s = some (some ((t.leaves.getD i default).key,
      (t.leaves.getD i default).value, (t.leaves.getD i default).flags)) := by
  intro t s i h
  induction h with
  | leaf hv hidx hle =>
    rename_i es r i
    intro hts
    rw [topSlack_cons (count_of_viewOf_leaf hv)] at hts
    rw [keyValue.eq_def]
    simp only
    rw [count_of_viewOf_leaf hv]
    simp only
    rw [if_neg (by omega)]
    rw [btree.leaves, ← hidx]
    cases hn : r.node with
    | some n =>
      cases hp : r.page with
      | some p =>
        rw [hp, hn] at hv
        exact absurd hv (by simp [ViewOf])
      | none =>
        rw [hp, hn] at hv
        obtain ⟨-, hes⟩ := hv
        simp only
        have hk2 : r.index < n.inodes.length := by
          rw [hes, List.length_map] at hts
          exact hts
        rw [List.get?_eq_get hk2, Option.map_some']
        have hsome : some (es.get ⟨r.index, hts⟩) =
            some (⟨(n.inodes.get ⟨r.index, hk2⟩).flags,
              (n.inodes.get ⟨r.index, hk2⟩).key,
              (n.inodes.get ⟨r.index, hk2⟩).value⟩ : leafPageElement) := by
          rw [← List.get?_eq_get hts]
          conv_lhs => rw [hes]
          rw [List.get?_map, List.get?_eq_get hk2, Option.map_some']
        rw [show es.getD r.index default = es.get ⟨r.index, hts⟩ from by
          rw [List.getD_eq_get? , List.get?_eq_get hts, Option.getD_some]]
        rw [Option.some.inj hsome]
    | none =>
      cases hp : r.page with
      | some p =>
        rw [hp, hn] at hv
        obtain ⟨-, hcnt, hels⟩ := hv
        simp only
        have hk2 : r.index < p.leafElems.length := by
          rw [hels]
          exact hts
        rw [List.get?_eq_get hk2, Option.map_some']
        have hsome : some (p.leafElems.get ⟨r.index, hk2⟩) =
            some (es.get ⟨r.index, hts⟩) := by
          rw [← List.get?_eq_get hk2, ← List.get?_eq_get hts, hels]
        rw [show es.getD r.index default = es.get ⟨r.index, hts⟩ from by
          rw [List.getD_eq_get? , List.get?_eq_get hts, Option.getD_some]]
        rw [Option.some.inj hsome]
      | none =>
        rw [hp, hn] at hv
        exact absurd hv (by simp [ViewOf])
  | branch es hv hlen hkeys hreps hidx hj hsub ih =>
    rename_i cs r s j i
    intro hts
    rw [topSlack_append (CursorAt_ne_nil hsub)] at hts
    rw [keyValue_append (CursorAt_ne_nil hsub)]
    rw [ih hts]
    have hic : i < (cs.getD j default).2.leaves.length := (CursorAt_bounds hsub).2 hts
    rw [btree.leaves]
    have hgd : (leavesList cs).getD (offsetAt cs j + i) default =
        (cs.getD j default).2.leaves.getD i default := by
      rw [List.getD_eq_get? , List.getD_eq_get? , leavesList_get?_offset hj hic]
    rw [hgd]

/-- The heart of `Cursor.next()`: on a valid cursor stack at leaf
position `i`, `walkUp` followed by the leftmost descent advances the
cursor to the next leaf position `np` — `i + 1` when the top frame is
within bounds, `i` itself when the top frame sits at the past-the-end
position `seek` can leave — and when `np` equals the total leaf count
the walk exhausts the stack, leaving it unchanged. -/
theorem cursor_advance {b : Bucket} : ∀ {t : btree} {s : CStack} {i : Nat},
    CursorAt b t s i → t.wf → ∀ fuel, t.depth ≤ fuel →
    ∀ np, ((topSlack s ∧ np = i + 1) ∨ (¬ topSlack s ∧ np = i)) →
    (np < t.leaves.length →
      ∃ st2 s2, (∀ rest, walkUp (s ++ rest) = some (some (st2 ++ rest))) ∧
        (∀ rest, cfirst b fuel (st2 ++ rest) = some (s2 ++ rest)) ∧
        CursorAt b t s2 np ∧ topSlack s2) ∧
    (np = t.leaves.length → ∀ rest, walkUp (s ++ rest) = walkUp rest) := by
  intro t s i h
  induction h with
  | leaf hv hidx hle =>
    rename_i es r i
    intro hwf fuel hfuel np hnp
    rw [btree.wf] at hwf
    rw [btree.depth] at hfuel
    rw [btree.leaves]
    have hcnt := count_of_viewOf_leaf hv
    have htsi := @topSlack_cons r [] es.length hcnt
    cases fuel with
    | zero => omega
    | succ f =>
      constructor
      · intro hlt
        rcases hnp with ⟨hs, hnp1⟩ | ⟨hs, hnp1⟩
        · rw [htsi] at hs
          refine ⟨[{ r with index := r.index + 1 }],
            [{ r with index := r.index + 1 }], ?_, ?_, ?_, ?_⟩
          · intro rest
            simp only [List.singleton_append]
            rw [walkUp.eq_def]
            simp only
            rw [hcnt]
            simp only
            rw [if_pos (by omega)]
          · intro rest
            simp only [List.singleton_append]
            rw [cfirst.eq_def]
            simp only
            have hv3 : ViewOf (({ r with index := r.index + 1 } : elemRef).page,
                ({ r with index := r.index + 1 } : elemRef).node) (.leafV es) := hv
            rw [isLeaf_of_viewOf_leaf hv3]
          · refine CursorAt.leaf hv ?_ (by omega)
            show r.index + 1 = np
            omega
          · rw [@topSlack_cons { r with index := r.index + 1 } [] es.length hcnt]
            show r.index + 1 < es.length
            omega
        · rw [htsi] at hs
          omega
      · intro hEq rest
        rw [List.singleton_append]
        rw [walkUp.eq_def]
        simp only
        rw [hcnt]
        simp only
        rw [if_neg ?_]
        rcases hnp with ⟨hs, hnp1⟩ | ⟨hs, hnp1⟩
        · rw [htsi] at hs
          omega
        · rw [htsi] at hs
          omega
  | branch es hv hlen hkeys hreps hidx hj hsub ih =>
    rename_i cs r s j i
    intro hwf fuel hfuel np hnp
    rw [btree.wf] at hwf
    rw [btree.depth] at hfuel
    rw [btree.leaves]
    have hcwf := (wfList_getD hwf.2 hj).1
    have hcd := depthList_getD_le hj
    have hsne := CursorAt_ne_nil hsub
    have htseq := @topSlack_append s [r] hsne
    have hboundc := CursorAt_bounds hsub
    have hoff1 := offsetAt_succ hj
    have hoffle : offsetAt cs (j + 1) ≤ (leavesList cs).length :=
      offsetAt_le (by omega)
    have hcntr := count_of_viewOf_branch hv
    cases fuel with
    | zero => omega
    | succ f =>
      have hnpc : ((topSlack s ∧ np - offsetAt cs j = i + 1) ∨
          (¬ topSlack s ∧ np - offsetAt cs j = i)) ∧
          np = offsetAt cs j + (np - offsetAt cs j) := by
        rcases hnp with ⟨hs, hnp1⟩ | ⟨hs, hnp1⟩
        · rw [htseq] at hs
          exact ⟨Or.inl ⟨hs, by omega⟩, by omega⟩
        · rw [htseq] at hs
          exact ⟨Or.inr ⟨hs, by omega⟩, by omega⟩
      obtain ⟨hnpc1, hnpeq⟩ := hnpc
      have hih := ih hcwf (f + 1) (by omega) (np - offsetAt cs j) hnpc1
      have hnpcle : np - offsetAt cs j ≤ (cs.getD j default).2.leaves.length := by
        rcases hnpc1 with ⟨hs, h1⟩ | ⟨hs, h1⟩
        · have := hboundc.2 hs
          omega
        · have := hboundc.1
          omega
      constructor
      · intro hlt
        by_cases hcase : np - offsetAt cs j < (cs.getD j default).2.leaves.length
        · -- the child stack itself advances
          obtain ⟨st2c, s2c, hw, hcf, hca, hts2⟩ := hih.1 hcase
          refine ⟨st2c ++ [r], s2c ++ [r], ?_, ?_, ?_, ?_⟩
          · intro rest
            simp only [List.append_assoc, List.singleton_append]
            exact hw (r :: rest)
          · intro rest
            simp only [List.append_assoc, List.singleton_append]
            exact hcf (r :: rest)
          · have hc := CursorAt.branch es hv hlen hkeys hreps hidx hj hca
            rw [← hnpeq] at hc
            exact hc
          · rw [@topSlack_append s2c [r] (CursorAt_ne_nil hca)]
            exact hts2
        · -- the child is exhausted: advance this frame and descend
          have hceq : np - offsetAt cs j = (cs.getD j default).2.leaves.length := by
            omega
          have hnpoff : np = offsetAt cs (j + 1) := by omega
          have hj1 : j + 1 < cs.length := by
            rcases Nat.eq_or_lt_of_le (show j + 1 ≤ cs.length from hj) with h1 | h1
            · exfalso
              rw [h1, offsetAt_length] at hnpoff
              omega
            · exact h1
          have hk : r.index + 1 < cs.length := by omega
          have hcd1 := depthList_getD_le hk
          have hv2 : ViewOf (({ r with index := r.index + 1 } : elemRef).page,
              ({ r with index := r.index + 1 } : elemRef).node) (.branchV es) := hv
          have hlt2 : ({ r with index := r.index + 1 } : elemRef).index < es.length := by
            show r.index + 1 < es.length
            omega
          have hpg := childPg_of_viewOf_branch hv2 hlt2
          obtain ⟨snew, hre, hcan, htsn⟩ :=
            cfirst_descend (hreps (r.index + 1) hk) f
              (by omega) (wfList_getD hwf.2 hk).1
              { page := (b.pageNode ((es.getD (r.index + 1) default).pgid)).1,
                node := (b.pageNode ((es.getD (r.index + 1) default).pgid)).2,
                index := 0 } rfl rfl rfl
          refine ⟨[{ r with index := r.index + 1 }],
            snew ++ [{ r with index := r.index + 1 }], ?_, ?_, ?_, ?_⟩
          · intro rest
            simp only [List.append_assoc, List.singleton_append]
            rw [hih.2 hceq (r :: rest)]
            rw [walkUp.eq_def]
            simp only
            rw [hcntr]
            simp only
            rw [if_pos (by omega)]
          · intro rest
            simp only [List.singleton_append]
            rw [cfirst.eq_def]
            simp only
            rw [isLeaf_of_viewOf_branch hv2, hpg]
            simp only
            rw [hre ({ r with index := r.index + 1 } :: rest)]
            rw [List.append_assoc, List.singleton_append]
          · have hidx2 : ({ r with index := r.index + 1 } : elemRef).index =
                r.index + 1 := rfl
            have hc := CursorAt.branch es hv2 hlen hkeys hreps hidx2 hk hcan
            rw [← hidx] at hnpoff
            rw [Nat.add_zero, ← hnpoff] at hc
            exact hc
          · rw [@topSlack_append snew [{ r with index := r.index + 1 }]
              (CursorAt_ne_nil hcan)]
            exact htsn
      · intro hEq rest
        have hceq : np - offsetAt cs j = (cs.getD j default).2.leaves.length := by
          omega
        have hjlast : ¬ (j + 1 < cs.length) := by
          intro hj1
          have hoff2 := offsetAt_succ hj1
          have hle2 : offsetAt cs (j + 1 + 1) ≤ (leavesList cs).length :=
            offsetAt_le (by omega)
          have hnn := leaves_ne_nil (cs.getD (j + 1) default).2.depth _
            (le_refl _) (wfList_getD hwf.2 hj1).1
          have hpos : 0 < (cs.getD (j + 1) default).2.leaves.length :=
            List.length_pos.mpr hnn
          omega
        simp only [List.append_assoc, List.singleton_append]
        rw [hih.2 hceq (r :: rest)]
        rw [walkUp.eq_def]
        simp only
        rw [hcntr]
        simp only
        rw [if_neg (by omega)]

theorem pubOut_eq (k v : List Nat) (fl : Nat) :
    pubOut (some (k, v, fl)) =
      (some k, if fl &&& bucketLeafFlag ≠ 0 then none else some v) := by
  rw [pubOut]
  split
  · rfl
  · rfl

theorem topSlack_head {s : CStack} (h : topSlack s) :
    ∃ r s' c, s = r :: s' ∧ r.count = some c ∧ r.index < c := by
  cases s with
  | nil => exact absurd h (by simp [topSlack])
  | cons r s' =>
    cases hc : r.count with
    | none =>
      exfalso
      have h2 : (match r.count with | some c => r.index < c | none => False) := h
      rw [hc] at h2
      exact h2
    | some c =>
      have h2 : (match r.count with | some c => r.index < c | none => False) := h
      rw [hc] at h2
      exact ⟨r, s', c, rfl, hc, h2⟩

theorem CursorAt_head_count {b : Bucket} : ∀ {t : btree} {s : CStack} {i : Nat},
    CursorAt b t s i →
    ∃ r s' c, s = r :: s' ∧ r.count = some c := by
  intro t s i h
  induction h with
  | leaf hv hidx hle =>
    rename_i es r i
    exact ⟨r, [], es.length, rfl, count_of_viewOf_leaf hv⟩
  | branch es hv hlen hkeys hreps hidx hj hsub ih =>
    rename_i cs r s j i
    obtain ⟨r0, s0, c0, hs0, hc0⟩ := ih
    exact ⟨r0, s0 ++ [r], c0, by rw [hs0]; rfl, hc0⟩

/-- One `Cursor.next()` on a valid cursor stack: yields the element at
the next position `np` and a valid stack there, or the `(nil, nil)`
sentinel with the unchanged stack when the tree is exhausted. -/
theorem cnext_spec {b : Bucket} {t : btree} {s : CStack} {i : Nat}
    (h : CursorAt b t s i) (hwf : t.wf) (fuel : Nat) (hfuel : t.depth < fuel)
    (np : Nat) (hnp : (topSlack s ∧ np = i + 1) ∨ (¬ topSlack s ∧ np = i)) :
    (np < t.leaves.length →
      ∃ s2, cnext b fuel s = some (some ((t.leaves.getD np default).key,
          (t.leaves.getD np default).value, (t.leaves.getD np default).flags), s2) ∧
        CursorAt b t s2 np ∧ topSlack s2) ∧
    (np = t.leaves.length → cnext b fuel s = some (none, s)) := by
  cases fuel with
  | zero => omega
  | succ f =>
    have hadv := cursor_advance h hwf (f + 1) (by omega) np hnp
    constructor
    · intro hlt
      obtain ⟨st2, s2, hw, hcf, hca, hts⟩ := hadv.1 hlt
      have hw0 := hw []
      have hcf0 := hcf []
      rw [List.append_nil, List.append_nil] at hw0
      rw [List.append_nil, List.append_nil] at hcf0
      obtain ⟨r2, s2', c2, hs2, hc2, hi2⟩ := topSlack_head hts
      refine ⟨s2, ?_, hca, hts⟩
      rw [cnext.eq_def]
      simp only
      rw [hw0]
      simp only
      rw [hcf0]
      simp only
      rw [hs2, List.head?_cons]
      simp only
      rw [hc2]
      simp only
      rw [if_neg (by omega), ← hs2]
      rw [keyValue_at hca hts]
      rfl
    · intro hEq
      have hw0 := hadv.2 hEq []
      rw [List.append_nil] at hw0
      rw [cnext.eq_def]
      simp only
      rw [hw0]
      rw [show walkUp [] = some none from rfl]

/-- `Cursor.First()`: positions the cursor on leaf element `0` and
returns it. -/
theorem cursorFirst_spec {b : Bucket} {t : btree} (hrep : Represents b b.root t)
    (hwf : t.wf) (fuel : Nat) (hfuel : t.depth ≤ fuel) :
    ∃ s, CursorFirst b fuel = some (pubOut (some ((t.leaves.getD 0 default).key,
        (t.leaves.getD 0 default).value, (t.leaves.getD 0 default).flags)), s) ∧
      CursorAt b t s 0 ∧ topSlack s := by
  obtain ⟨s0, hre, hca, hts⟩ := cfirst_descend hrep fuel hfuel hwf
    { page := (b.pageNode b.root).1, node := (b.pageNode b.root).2, index := 0 }
    rfl rfl rfl
  have hre0 := hre []
  rw [List.append_nil] at hre0
  obtain ⟨r0, s0', c0, hs0, hc0, hi0⟩ := topSlack_head hts
  refine ⟨s0, ?_, hca, hts⟩
  rw [CursorFirst]
  simp only
  rw [hre0]
  simp only
  rw [hs0, List.head?_cons]
  simp only
  rw [hc0]
  simp only
  rw [if_neg (by omega)]
  simp only
  rw [← hs0]
  rw [keyValue_at hca hts]
  rfl

/-- C4: from `First()`, the `k`-th `Next()` yields the `k`-th leaf
element of the tree (key, plus value or nil for sub-buckets) while the
elements last, so the keys come out in the leaves' strictly ascending
order; once exhausted every further `Next()` returns `(nil, nil)` and
the stack stays on the last element. -/
theorem c4_next_iteration (b : Bucket) (t : btree) (fuel : Nat)
    (hrep : Represents b b.root t) (hwf : t.wf) (hfuel : t.depth < fuel) :
    (∀ k, k < t.leaves.length →
      ∃ s, cursorSteps b fuel k =
          some ((some (t.leaves.getD k default).key,
            if (t.leaves.getD k default).flags &&& bucketLeafFlag ≠ 0 then none
            else some (t.leaves.getD k default).value), s) ∧
        CursorAt b t s k ∧ topSlack s) ∧
    (∃ s, CursorAt b t s (t.leaves.length - 1) ∧
      ∀ k, t.leaves.length ≤ k →
        cursorSteps b fuel k = some ((none, none), s)) := by
  have hlen0 : t.leaves ≠ [] := leaves_ne_nil t.depth t (le_refl _) hwf
  have hpos : 0 < t.leaves.length := List.length_pos.mpr hlen0
  have hmain : ∀ k, k < t.leaves.length →
      ∃ s, cursorSteps b fuel k =
          some ((some (t.leaves.getD k default).key,
            if (t.leaves.getD k default).flags &&& bucketLeafFlag ≠ 0 then none
            else some (t.leaves.getD k default).value), s) ∧
        CursorAt b t s k ∧ topSlack s := by
    intro k
    induction k with
    | zero =>
      intro hk
      obtain ⟨s, hcf, hca, hts⟩ := cursorFirst_spec hrep hwf fuel (by omega)
      refine ⟨s, ?_, hca, hts⟩
      rw [cursorSteps, hcf, pubOut_eq]
    | succ k ih =>
      intro hk
      obtain ⟨s, hsk, hca, hts⟩ := ih (by omega)
      obtain ⟨s2, hcn, hca2, hts2⟩ :=
        (cnext_spec hca hwf fuel hfuel (k + 1) (Or.inl ⟨hts, rfl⟩)).1 hk
      refine ⟨s2, ?_, hca2, hts2⟩
      rw [cursorSteps, hsk]
      show CursorNext b fuel s = _
      rw [CursorNext, hcn]
      rw [Option.map_some', pubOut_eq]
  obtain ⟨slast, hslast, hcalast, htslast⟩ := hmain (t.leaves.length - 1) (by omega)
  have hnone : CursorNext b fuel slast = some ((none, none), slast) := by
    have h2 := (cnext_spec hcalast hwf fuel hfuel t.leaves.length
      (Or.inl ⟨htslast, by omega⟩)).2 rfl
    rw [CursorNext, h2]
    rfl
  refine ⟨hmain, slast, hcalast, ?_⟩
  have hiter : ∀ m, cursorSteps b fuel (t.leaves.length + m) =
      some ((none, none), slast) := by
    intro m
    induction m with
    | zero =>
      rw [Nat.add_zero]
      rw [show t.leaves.length = (t.leaves.length - 1) + 1 from by omega]
      rw [cursorSteps, hslast]
      exact hnone
    | succ m ih =>
      rw [show t.leaves.length + (m + 1) = (t.leaves.length + m) + 1 from by omega]
      rw [cursorSteps, ih]
      exact hnone
  intro k hk
  have h3 := hiter (k - t.leaves.length)
  rwa [show t.leaves.length + (k - t.leaves.length) = k from by omega] at h3

theorem c4_next_iteration_witness :
    ∃ s, cursorSteps
        { root := 3
          pageNode := fun pg =>
            if pg = 3 then
              (some { id := 3, flags := 2, count := 2, leafElems := [⟨0, [1], [10]⟩, ⟨0, [2], [20]⟩] }, none)
            else (none, none) } 2 1 =
      some ((some [2], some [20]), s) := by
  obtain ⟨s, h1, -, -⟩ :=
    (c4_next_iteration
      { root := 3
        pageNode := fun pg =>
          if pg = 3 then
            (some { id := 3, flags := 2, count := 2, leafElems := [⟨0, [1], [10]⟩, ⟨0, [2], [20]⟩] }, none)
          else (none, none) }
      (btree.leaf [⟨0, [1], [10]⟩, ⟨0, [2], [20]⟩]) 2
      (by
        apply Represents.leaf
        exact ⟨rfl, rfl, rfl⟩)
      (by
        rw [btree.wf]
        decide)
      (by
        rw [btree.depth]
        omega)).1 1
      (by
        rw [btree.leaves]
        decide)
  exact ⟨s, h1⟩

theorem bytesCompare_lt_le_trans {a c key : List Nat}
    (h1 : bytesCompare a c = -1) (h2 : bytesCompare c key ≠ 1) :
    bytesCompare a key = -1 := by
  rcases bytesCompare_cases c key with h | h | h
  · exact bytesCompare_trans h1 h
  · have hck : c = key := bytesCompare_eq_zero.mp h
    rw [← hck]
    exact h1
  · exact absurd h h2

theorem headKey_eq_getD {t : btree} (h : t.leaves ≠ []) :
    headKey t = (t.leaves.getD 0 default).key := by
  rw [headKey]
  cases hl : t.leaves with
  | nil => exact absurd hl h
  | cons e rest =>
    rfl

theorem offsetAt_mono {cs : List (List Nat × btree)} :
    ∀ (d j : Nat), j + d ≤ cs.length →
      offsetAt cs j ≤ offsetAt cs (j + d) := by
  intro d
  induction d with
  | zero =>
    intro j _
    exact le_refl _
  | succ d ih =>
    intro j hd
    have h1 := ih j (by omega)
    have h2 : offsetAt cs (j + d + 1) =
        offsetAt cs (j + d) + (cs.getD (j + d) default).2.leaves.length :=
      offsetAt_succ (by omega)
    rw [show j + (d + 1) = j + d + 1 from rfl]
    omega

theorem child_getD {cs : List (List Nat × btree)} {j i : Nat}
    (hj : j < cs.length) (hi : i < (cs.getD j default).2.leaves.length) :
    (leavesList cs).getD (offsetAt cs j + i) default =
      (cs.getD j default).2.leaves.getD i default := by
  rw [List.getD_eq_get? , List.getD_eq_get? , leavesList_get?_offset hj hi]

theorem getD_mem {cs : List (List Nat × btree)} {j : Nat} (hj : j < cs.length) :
    cs.getD j default ∈ cs := by
  rw [List.getD_eq_get? , List.get?_eq_get hj, Option.getD_some]
  exact List.get_mem _ _ _

theorem inode_branchkey_getD {n : node} {es : List branchPageElement}
    (hes : es = n.inodes.map (fun i => ⟨i.key, i.pgid⟩)) (i : Nat) :
    (n.inodes.getD i default).key = (es.getD i default).key := by
  by_cases hi : i < n.inodes.length
  · have hi2 : i < es.length := by
      rw [hes, List.length_map]
      exact hi
    rw [List.getD_eq_get? , List.get?_eq_get hi, Option.getD_some]
    rw [List.getD_eq_get? , List.get?_eq_get hi2, Option.getD_some]
    have hsome : some (es.get ⟨i, hi2⟩) =
        some (⟨(n.inodes.get ⟨i, hi⟩).key,
          (n.inodes.get ⟨i, hi⟩).pgid⟩ : branchPageElement) := by
      rw [← List.get?_eq_get hi2]
      conv_lhs => rw [hes]
      rw [List.get?_map, List.get?_eq_get hi, Option.map_some']
    rw [Option.some.inj hsome]
  · rw [List.getD_eq_default _ _ (by omega)]
    rw [List.getD_eq_default _ _ (by rw [hes, List.length_map]; omega)]
    rfl

theorem inode_branchpgid_getD {n : node} {es : List branchPageElement}
    (hes : es = n.inodes.map (fun i => ⟨i.key, i.pgid⟩)) (i : Nat) :
    (n.inodes.getD i default).pgid = (es.getD i default).pgid := by
  by_cases hi : i < n.inodes.length
  · have hi2 : i < es.length := by
      rw [hes, List.length_map]
      exact hi
    rw [List.getD_eq_get? , List.get?_eq_get hi, Option.getD_some]
    rw [List.getD_eq_get? , List.get?_eq_get hi2, Option.getD_some]
    have hsome : some (es.get ⟨i, hi2⟩) =
        some (⟨(n.inodes.get ⟨i, hi⟩).key,
          (n.inodes.get ⟨i, hi⟩).pgid⟩ : branchPageElement) := by
      rw [← List.get?_eq_get hi2]
      conv_lhs => rw [hes]
      rw [List.get?_map, List.get?_eq_get hi, Option.map_some']
    rw [Option.some.inj hsome]
  · rw [List.getD_eq_default _ _ (by omega)]
    rw [List.getD_eq_default _ _ (by rw [hes, List.length_map]; omega)]
    rfl

theorem inode_leafkey_getD {n : node} {es : List leafPageElement}
    (hes : es = n.inodes.map (fun i => ⟨i.flags, i.key, i.value⟩)) (i : Nat) :
    (n.inodes.getD i default).key = (es.getD i default).key := by
  by_cases hi : i < n.inodes.length
  · have hi2 : i < es.length := by
      rw [hes, List.length_map]
      exact hi
    rw [List.getD_eq_get? , List.get?_eq_get hi, Option.getD_some]
    rw [List.getD_eq_get? , List.get?_eq_get hi2, Option.getD_some]
    have hsome : some (es.get ⟨i, hi2⟩) =
        some (⟨(n.inodes.get ⟨i, hi⟩).flags, (n.inodes.get ⟨i, hi⟩).key,
          (n.inodes.get ⟨i, hi⟩).value⟩ : leafPageElement) := by
      rw [← List.get?_eq_get hi2]
      conv_lhs => rw [hes]
      rw [List.get?_map, List.get?_eq_get hi, Option.map_some']
    rw [Option.some.inj hsome]
  · rw [List.getD_eq_default _ _ (by omega)]
    rw [List.getD_eq_default _ _ (by rw [hes, List.length_map]; omega)]
    rfl

/-- The positioning argument of the descent: if child `j` is the
rightmost child whose separator key is `≤` the search key (or `j = 0`),
then the leftmost position `istar` with key `≥` the search key lies in
child `j`'s range, and the translated position `istar - offsetAt cs j`
satisfies the same characterization inside child `j`. -/
theorem branch_istar {key : List Nat} {cs : List (List Nat × btree)}
    {j istar : Nat}
    (hwfl : wfList cs)
    (hd : ∀ c ∈ cs, c.2.leaves ≠ [])
    (hasc : ∀ k l, k < l → l < (leavesList cs).length →
      bytesCompare ((leavesList cs).getD k default).key
        ((leavesList cs).getD l default).key = -1)
    (h1 : ∀ l, l < istar →
      bytesCompare ((leavesList cs).getD l default).key key = -1)
    (h2 : istar < (leavesList cs).length →
      bytesCompare ((leavesList cs).getD istar default).key key ≠ -1)
    (h3 : istar ≤ (leavesList cs).length)
    (hj : j < cs.length)
    (hgt : ∀ l, j < l → l < cs.length →
      bytesCompare (headKey (cs.getD l default).2) key = 1)
    (hle : bytesCompare (headKey (cs.getD j default).2) key ≠ 1 ∨ j = 0) :
    offsetAt cs j ≤ istar ∧ istar ≤ offsetAt cs (j + 1) ∧
    (∀ l, l < istar - offsetAt cs j →
      bytesCompare ((cs.getD j default).2.leaves.getD l default).key key = -1) ∧
    (istar - offsetAt cs j < (cs.getD j default).2.leaves.length →
      bytesCompare ((cs.getD j default).2.leaves.getD
        (istar - offsetAt cs j) default).key key ≠ -1) ∧
    istar - offsetAt cs j ≤ (cs.getD j default).2.leaves.length ∧
    (∀ k l, k < l → l < (cs.getD j default).2.leaves.length →
      bytesCompare ((cs.getD j default).2.leaves.getD k default).key
        ((cs.getD j default).2.leaves.getD l default).key = -1) := by
  have hsephead : ∀ l, l < cs.length → headKey (cs.getD l default).2 =
      ((leavesList cs).getD (offsetAt cs l) default).key := by
    intro l hl
    have hne := hd _ (getD_mem hl)
    have h0 : 0 < (cs.getD l default).2.leaves.length := List.length_pos.mpr hne
    rw [headKey_eq_getD hne]
    rw [← child_getD hl h0, Nat.add_zero]
  have hoffj1 : offsetAt cs (j + 1) ≤ (leavesList cs).length :=
    offsetAt_le (by omega)
  have hoffsucc := offsetAt_succ hj
  have hposj : 0 < (cs.getD j default).2.leaves.length :=
    List.length_pos.mpr (hd _ (getD_mem hj))
  have hi1 : offsetAt cs j ≤ istar := by
    rcases hle with hle | hle
    · by_contra hlt
      push_neg at hlt
      have histlen : istar < (leavesList cs).length := by omega
      have hh2 := h2 histlen
      have hcmp : bytesCompare ((leavesList cs).getD istar default).key
          ((leavesList cs).getD (offsetAt cs j) default).key = -1 :=
        hasc istar (offsetAt cs j) (by omega) (by omega)
      exact hh2 (bytesCompare_lt_le_trans hcmp
        (by rw [← hsephead j hj]; exact hle))
    · subst hle
      rw [offsetAt_zero]
      omega
  have hi2 : istar ≤ offsetAt cs (j + 1) := by
    rcases Nat.eq_or_lt_of_le (show j + 1 ≤ cs.length from hj) with hc | hc
    · rw [hc, offsetAt_length]
      exact h3
    · by_contra hlt
      push_neg at hlt
      have hover := h1 (offsetAt cs (j + 1)) hlt
      have hsep := hgt (j + 1) (by omega) hc
      rw [hsephead (j + 1) hc] at hsep
      rw [hover] at hsep
      exact absurd hsep (by decide)
  refine ⟨hi1, hi2, ?_, ?_, by omega, ?_⟩
  · intro l hl
    have hlc : l < (cs.getD j default).2.leaves.length := by omega
    rw [← child_getD hj hlc]
    exact h1 (offsetAt cs j + l) (by omega)
  · intro hlt
    rw [← child_getD hj hlt]
    rw [show offsetAt cs j + (istar - offsetAt cs j) = istar from by omega]
    exact h2 (by omega)
  · intro k l hkl hll
    have hkc : k < (cs.getD j default).2.leaves.length := by omega
    rw [← child_getD hj hkc, ← child_getD hj hll]
    exact hasc (offsetAt cs j + k) (offsetAt cs j + l) (by omega) (by omega)

theorem offsetAt_lt {cs : List (List Nat × btree)}
    (hd : ∀ c ∈ cs, c.2.leaves ≠ []) {k l : Nat} (hkl : k < l)
    (hl : l ≤ cs.length) : offsetAt cs k < offsetAt cs l := by
  have h1 : offsetAt cs (k + 1) =
      offsetAt cs k + (cs.getD k default).2.leaves.length :=
    offsetAt_succ (by omega)
  have h2 : 0 < (cs.getD k default).2.leaves.length :=
    List.length_pos.mpr (hd _ (getD_mem (by omega)))
  have h3 := @offsetAt_mono cs (l - (k + 1)) (k + 1) (by omega)
  rw [show k + 1 + (l - (k + 1)) = l from by omega] at h3
  omega

theorem offsetAt_lt_len {cs : List (List Nat × btree)}
    (hd : ∀ c ∈ cs, c.2.leaves ≠ []) {l : Nat} (hl : l < cs.length) :
    offsetAt cs l < (leavesList cs).length := by
  have h1 : offsetAt cs (l + 1) =
      offsetAt cs l + (cs.getD l default).2.leaves.length := offsetAt_succ hl
  have h2 := offsetAt_le (show l + 1 ≤ cs.length from hl)
  have h3 : 0 < (cs.getD l default).2.leaves.length :=
    List.length_pos.mpr (hd _ (getD_mem hl))
  omega

/-- `Cursor.search(key, pgid)`: the full descent by key. On a
represented, well-formed tree with strictly ascending leaf keys it
pushes a stack positioned at `istar`, the leftmost leaf position whose
key is `≥` the search key (`istar` = leaf count when every key is
smaller; the top frame is then past the end of its leaf). -/
theorem search_spec {b : Bucket} {key : List Nat} : ∀ {pg : Nat} {t : btree},
    Represents b pg t → t.wf →
    (∀ k l, k < l → l < t.leaves.length →
      bytesCompare (t.leaves.getD k default).key
        (t.leaves.getD l default).key = -1) →
    ∀ fuel, t.depth ≤ fuel →
    ∀ istar,
      (∀ l, l < istar → bytesCompare (t.leaves.getD l default).key key = -1) →
      (istar < t.leaves.length →
        bytesCompare (t.leaves.getD istar default).key key ≠ -1) →
      istar ≤ t.leaves.length →
    ∀ stack0, ∃ s, search b key fuel pg stack0 = some (s ++ stack0) ∧
      CursorAt b t s istar := by
  intro pg t hrep
  induction hrep with
  | leaf hv =>
    rename_i pg es
    intro hwf hasc fuel hfuel istar h1 h2 h3 stack0
    rw [btree.wf] at hwf
    rw [btree.depth] at hfuel
    rw [btree.leaves] at hasc h1 h2 h3
    cases fuel with
    | zero => omega
    | succ f =>
      rcases hpn : b.pageNode pg with ⟨pp, nn⟩
      rw [hpn] at hv
      cases nn with
      | some n =>
        cases pp with
        | some p => exact absurd hv (by simp [ViewOf])
        | none =>
          obtain ⟨hleaf, hes⟩ := hv
          have hlen2 : n.inodes.length = es.length := by
            rw [hes, List.length_map]
          have hkeq := inode_leafkey_getD hes
          have hstep : search b key (f + 1) pg stack0 = nsearch key
              ({ page := none, node := some n, index := 0 } :: stack0) := by
            rw [search.eq_def]
            simp only
            rw [hpn]
            simp only
            rw [if_neg (by simp)]
            rw [show elemRef.isLeaf { page := none, node := some n, index := 0 } =
                some true from by
              rw [elemRef.isLeaf]
              simp only
              rw [hleaf]]
          have hmono : ∀ k l, k ≤ l → l < n.inodes.length →
              (fun i => decide (bytesCompare (n.inodes.getD i default).key key ≠ -1)) k
                = true →
              (fun i => decide (bytesCompare (n.inodes.getD i default).key key ≠ -1)) l
                = true := by
            intro k l hkl hll hk
            rcases Nat.eq_or_lt_of_le hkl with he | hlt2
            · rw [← he]
              exact hk
            · simp only [decide_eq_true_eq] at hk ⊢
              rw [hkeq] at hk ⊢
              have h4 := hasc k l hlt2 (by omega)
              rw [bytesCompare_le_lt_trans hk h4]
              decide
          obtain ⟨hle2, hlow, hhit⟩ := sortSearch_spec n.inodes.length _ hmono
          have histar_eq : sortSearch n.inodes.length
              (fun i => decide (bytesCompare (n.inodes.getD i default).key key ≠ -1)) =
              istar := by
            rcases Nat.lt_trichotomy (sortSearch n.inodes.length
              (fun i => decide (bytesCompare (n.inodes.getD i default).key key ≠ -1)))
              istar with h | h | h
            · exfalso
              have h4 := h1 _ h
              have h5 := hhit (by omega)
              simp only [decide_eq_true_eq] at h5
              rw [hkeq] at h5
              exact h5 h4
            · exact h
            · exfalso
              have h4 := hlow istar h
              simp only [decide_eq_false_iff_not, not_not] at h4
              rw [hkeq] at h4
              exact h2 (by omega) h4
          refine ⟨[{ page := none, node := some n, index := sortSearch n.inodes.length (fun i => decide (bytesCompare (n.inodes.getD i default).key key ≠ -1)) }], ?_, ?_⟩
          · rw [hstep]
            rw [nsearch.eq_def]
            simp only
            rfl
          · exact CursorAt.leaf ⟨hleaf, hes⟩ histar_eq h3
      | none =>
        cases pp with
        | none => exact absurd hv (by simp [ViewOf])
        | some p =>
          obtain ⟨hfl, hcnt, hels⟩ := hv
          have hstep : search b key (f + 1) pg stack0 = nsearch key
              ({ page := some p, node := none, index := 0 } :: stack0) := by
            rw [search.eq_def]
            simp only
            rw [hpn]
            simp only
            rw [if_neg (by rw [hfl]; decide)]
            rw [show elemRef.isLeaf { page := some p, node := none, index := 0 } =
                some true from by
              rw [elemRef.isLeaf]
              simp only
              rw [hfl]
              decide]
          have hmono : ∀ k l, k ≤ l → l < p.count →
              (fun i => decide (bytesCompare (p.leafElems.getD i default).key key ≠ -1)) k
                = true →
              (fun i => decide (bytesCompare (p.leafElems.getD i default).key key ≠ -1)) l
                = true := by
            intro k l hkl hll hk
            rcases Nat.eq_or_lt_of_le hkl with he | hlt2
            · rw [← he]
              exact hk
            · simp only [decide_eq_true_eq] at hk ⊢
              rw [hels] at hk ⊢
              have h4 := hasc k l hlt2 (by omega)
              rw [bytesCompare_le_lt_trans hk h4]
              decide
          obtain ⟨hle2, hlow, hhit⟩ := sortSearch_spec p.count _ hmono
          have histar_eq : sortSearch p.count
              (fun i => decide (bytesCompare (p.leafElems.getD i default).key key ≠ -1)) =
              istar := by
            rcases Nat.lt_trichotomy (sortSearch p.count
              (fun i => decide (bytesCompare (p.leafElems.getD i default).key key ≠ -1)))
              istar with h | h | h
            · exfalso
              have h4 := h1 _ h
              have h5 := hhit (by omega)
              simp only [decide_eq_true_eq] at h5
              nth_rewrite 1 [hels] at h5
              exact h5 h4
            · exact h
            · exfalso
              have h4 := hlow istar h
              simp only [decide_eq_false_iff_not, not_not] at h4
              rw [hels] at h4
              exact h2 (by omega) h4
          refine ⟨[{ page := some p, node := none, index := sortSearch p.count (fun i => decide (bytesCompare (p.leafElems.getD i default).key key ≠ -1)) }], ?_, ?_⟩
          · rw [hstep]
            rw [nsearch.eq_def]
            simp only
            rfl
          · exact CursorAt.leaf ⟨hfl, hcnt, hels⟩ histar_eq h3
  | branch es hv hlen hkeys hreps ih =>
    rename_i pg cs
    intro hwf hasc fuel hfuel istar h1 h2 h3 stack0
    rw [btree.wf] at hwf
    rw [btree.depth] at hfuel
    rw [btree.leaves] at hasc h1 h2 h3
    cases fuel with
    | zero => omega
    | succ f =>
      have hcs : 0 < cs.length := List.length_pos.mpr hwf.1
      have hd : ∀ c ∈ cs, c.2.leaves ≠ [] := fun c hc =>
        leaves_ne_nil c.2.depth c.2 (le_refl _) (wfList_mem hwf.2 c hc).1
      have hsepkey : ∀ l, l < cs.length → (cs.getD l default).1 =
          ((leavesList cs).getD (offsetAt cs l) default).key := by
        intro l hl
        rw [(wfList_getD hwf.2 hl).2, headKey_eq_getD (hd _ (getD_mem hl))]
        rw [← child_getD hl (List.length_pos.mpr (hd _ (getD_mem hl))), Nat.add_zero]
      have hsepasc : ∀ k l, k < l → l < cs.length →
          bytesCompare (es.getD k default).key (es.getD l default).key = -1 := by
        intro k l hkl hll
        rw [hkeys k (by omega), hkeys l hll, hsepkey k (by omega), hsepkey l hll]
        exact hasc _ _ (offsetAt_lt hd hkl (by omega)) (offsetAt_lt_len hd hll)
      rcases hpn : b.pageNode pg with ⟨pp, nn⟩
      rw [hpn] at hv
      cases nn with
      | some n =>
        cases pp with
        | some p => exact absurd hv (by simp [ViewOf])
        | none =>
          obtain ⟨hbr, hes⟩ := hv
          have hlen2 : n.inodes.length = es.length := by
            rw [hes, List.length_map]
          have hstep : search b key (f + 1) pg stack0 =
              searchNode b key f n
                ({ page := none, node := some n, index := 0 } :: stack0) := by
            rw [search.eq_def]
            simp only
            rw [hpn]
            simp only
            rw [if_neg (by simp)]
            rw [show elemRef.isLeaf { page := none, node := some n, index := 0 } =
                some false from by
              rw [elemRef.isLeaf]
              simp only
              rw [hbr]]
          obtain ⟨j0, echild, hget, heqn, hjlt, hgt0, hle0⟩ :=
            searchNode_spec b key f n { page := none, node := some n, index := 0 }
              stack0 (by omega)
              (by
                intro k l hkl hll
                rw [inode_branchkey_getD hes, inode_branchkey_getD hes]
                exact hsepasc k l hkl (by omega))
          have hj0cs : j0 < cs.length := by omega
          have hechildkey : echild.key = (n.inodes.getD j0 default).key := by
            have he2 : n.inodes.getD j0 default = echild := by
              rw [List.getD_eq_get? , hget, Option.getD_some]
            rw [he2]
          have hechildpgid : echild.pgid = (es.getD j0 default).pgid := by
            have he2 : n.inodes.getD j0 default = echild := by
              rw [List.getD_eq_get? , hget, Option.getD_some]
            rw [← he2]
            exact inode_branchpgid_getD hes j0
          have hheadkey : ∀ l, l < cs.length →
              (n.inodes.getD l default).key = headKey (cs.getD l default).2 := by
            intro l hl
            rw [inode_branchkey_getD hes, hkeys l hl, (wfList_getD hwf.2 hl).2]
          have hgtsep : ∀ l, j0 < l → l < cs.length →
              bytesCompare (headKey (cs.getD l default).2) key = 1 := by
            intro l h4 h5
            rw [← hheadkey l h5]
            exact hgt0 l h4 (by omega)
          have hlesep : bytesCompare (headKey (cs.getD j0 default).2) key ≠ 1 ∨
              j0 = 0 := by
            rcases hle0 with h4 | h4
            · left
              rw [← hheadkey j0 hj0cs, ← hechildkey]
              exact h4
            · exact Or.inr h4.1
          obtain ⟨hb1, hb2, hc1, hc2, hc3, hc4⟩ :=
            branch_istar hwf.2 hd hasc h1 h2 h3 hj0cs hgtsep hlesep
          obtain ⟨sc, hrsc, hcac⟩ := ih j0 hj0cs (wfList_getD hwf.2 hj0cs).1 hc4
            f (by have := depthList_getD_le hj0cs; omega)
            (istar - offsetAt cs j0) hc1 hc2 hc3
            ({ page := none, node := some n, index := j0 } :: stack0)
          refine ⟨sc ++ [{ page := none, node := some n, index := j0 }], ?_, ?_⟩
          · rw [hstep, heqn, hechildpgid]
            rw [show (sc ++ [{ page := none, node := some n, index := j0 }]) ++ stack0
                = sc ++ ({ page := none, node := some n, index := j0 } :: stack0) from by
              rw [List.append_assoc, List.singleton_append]]
            exact hrsc
          · have hv2 : ViewOf
                (({ page := none, node := some n, index := j0 } : elemRef).page,
                 ({ page := none, node := some n, index := j0 } : elemRef).node)
                (.branchV es) := ⟨hbr, hes⟩
            have hc := CursorAt.branch es hv2 hlen hkeys hreps rfl hj0cs hcac
            rw [show offsetAt cs j0 + (istar - offsetAt cs j0) = istar from by
              omega] at hc
            exact hc
      | none =>
        cases pp with
        | none => exact absurd hv (by simp [ViewOf])
        | some p =>
          obtain ⟨hfl, hcnt, hels⟩ := hv
          have hstep : search b key (f + 1) pg stack0 =
              searchPage b key f p
                ({ page := some p, node := none, index := 0 } :: stack0) := by
            rw [search.eq_def]
            simp only
            rw [hpn]
            simp only
            rw [if_neg (by rw [hfl]; decide)]
            rw [show elemRef.isLeaf { page := some p, node := none, index := 0 } =
                some false from by
              rw [elemRef.isLeaf]
              simp only
              rw [hfl]
              decide]
          obtain ⟨j0, echild, hget, heqn, hjlt, hgt0, hle0⟩ :=
            searchPage_spec b key f p { page := some p, node := none, index := 0 }
              stack0 (by rw [hcnt]; omega) (by rw [hcnt, hels])
              (by
                intro k l hkl hll
                rw [hels]
                refine hsepasc k l hkl ?_
                rw [hcnt] at hll
                omega)
          have hj0cs : j0 < cs.length := by
            rw [hcnt] at hjlt
            omega
          have he2 : p.branchElems.getD j0 default = echild := by
            rw [List.getD_eq_get? , hget, Option.getD_some]
          have hechildpgid : echild.pgid = (es.getD j0 default).pgid := by
            rw [← he2, hels]
          have hheadkey : ∀ l, l < cs.length →
              (p.branchElems.getD l default).key = headKey (cs.getD l default).2 := by
            intro l hl
            rw [hels, hkeys l hl, (wfList_getD hwf.2 hl).2]
          have hgtsep : ∀ l, j0 < l → l < cs.length →
              bytesCompare (headKey (cs.getD l default).2) key = 1 := by
            intro l h4 h5
            rw [← hheadkey l h5]
            refine hgt0 l h4 ?_
            rw [hcnt]
            omega
          have hlesep : bytesCompare (headKey (cs.getD j0 default).2) key ≠ 1 ∨
              j0 = 0 := by
            rcases hle0 with h4 | h4
            · left
              rw [← hheadkey j0 hj0cs, he2]
              exact h4
            · exact Or.inr h4.1
          obtain ⟨hb1, hb2, hc1, hc2, hc3, hc4⟩ :=
            branch_istar hwf.2 hd hasc h1 h2 h3 hj0cs hgtsep hlesep
          obtain ⟨sc, hrsc, hcac⟩ := ih j0 hj0cs (wfList_getD hwf.2 hj0cs).1 hc4
            f (by have := depthList_getD_le hj0cs; omega)
            (istar - offsetAt cs j0) hc1 hc2 hc3
            ({ page := some p, node := none, index := j0 } :: stack0)
          refine ⟨sc ++ [{ page := some p, node := none, index := j0 }], ?_, ?_⟩
          · rw [hstep, heqn, hechildpgid]
            rw [show (sc ++ [{ page := some p, node := none, index := j0 }]) ++ stack0
                = sc ++ ({ page := some p, node := none, index := j0 } :: stack0) from by
              rw [List.append_assoc, List.singleton_append]]
            exact hrsc
          · have hv2 : ViewOf
                (({ page := some p, node := none, index := j0 } : elemRef).page,
                 ({ page := some p, node := none, index := j0 } : elemRef).node)
                (.branchV es) := ⟨hfl, hcnt, hels⟩
            have hc := CursorAt.branch es hv2 hlen hkeys hreps rfl hj0cs hcac
            rw [show offsetAt cs j0 + (istar - offsetAt cs j0) = istar from by
              omega] at hc
            exact hc

theorem bytesCompare_nil_right (a : List Nat) : bytesCompare a [] ≠ -1 := by
  cases a with
  | nil =>
    rw [bytesCompare]
    decide
  | cons x xs =>
    rw [bytesCompare]
    decide

/-- C3: for every represented B+tree whose leaf keys are strictly
ascending and every search key, `Cursor.Seek(key)` returns the leftmost
leaf key `≥ key` together with its value (value nil when the element's
flags mark a sub-bucket) and leaves the cursor there, and returns
`(nil, nil)` when every key in the tree is `< key` (`istar`, the number
of keys `< key`, pins down the leftmost `≥` position); in particular
`Seek` of the empty key returns the first key of the tree. -/
theorem c3_seek_leftmost (b : Bucket) (t : btree) (fuel : Nat)
    (hrep : Represents b b.root t) (hwf : t.wf)
    (hasc : ∀ k l, k < l → l < t.leaves.length →
      bytesCompare (t.leaves.getD k default).key
        (t.leaves.getD l default).key = -1)
    (hfuel : t.depth < fuel) :
    (∀ key istar,
      (∀ l, l < istar → bytesCompare (t.leaves.getD l default).key key = -1) →
      (istar < t.leaves.length →
        bytesCompare (t.leaves.getD istar default).key key ≠ -1) →
      istar ≤ t.leaves.length →
      (istar < t.leaves.length →
        ∃ s, CursorSeek b fuel key =
            some ((some (t.leaves.getD istar default).key,
              if (t.leaves.getD istar default).flags &&& bucketLeafFlag ≠ 0 then none
              else some (t.leaves.getD istar default).value), s) ∧
          CursorAt b t s istar) ∧
      (istar = t.leaves.length →
        ∃ s, CursorSeek b fuel key = some ((none, none), s))) ∧
    (∃ s, CursorSeek b fuel [] =
        some ((some (t.leaves.getD 0 default).key,
          if (t.leaves.getD 0 default).flags &&& bucketLeafFlag ≠ 0 then none
          else some (t.leaves.getD 0 default).value), s) ∧
      CursorAt b t s 0) := by
  have hmain : ∀ key istar,
      (∀ l, l < istar → bytesCompare (t.leaves.getD l default).key key = -1) →
      (istar < t.leaves.length →
        bytesCompare (t.leaves.getD istar default).key key ≠ -1) →
      istar ≤ t.leaves.length →
      (istar < t.leaves.length →
        ∃ s, CursorSeek b fuel key =
            some ((some (t.leaves.getD istar default).key,
              if (t.leaves.getD istar default).flags &&& bucketLeafFlag ≠ 0 then none
              else some (t.leaves.getD istar default).value), s) ∧
          CursorAt b t s istar) ∧
      (istar = t.leaves.length →
        ∃ s, CursorSeek b fuel key = some ((none, none), s)) := by
    intro key istar h1 h2 h3
    obtain ⟨s, hse, hca⟩ :=
      search_spec hrep hwf hasc fuel (by omega) istar h1 h2 h3 []
    rw [List.append_nil] at hse
    obtain ⟨r, s', c, hsrs, hc⟩ := CursorAt_head_count hca
    constructor
    · intro hlt
      by_cases hts : topSlack s
      · have hidx : r.index < c := by
          have h4 := hts
          rw [hsrs, topSlack_cons hc] at h4
          exact h4
        have hkv := keyValue_at hca hts
        have hsi : seekInternal b key fuel =
            some (some ((t.leaves.getD istar default).key,
              (t.leaves.getD istar default).value,
              (t.leaves.getD istar default).flags), s) := by
          rw [seekInternal, hse]
          simp only
          rw [hsrs, List.head?_cons]
          simp only
          rw [hc]
          simp only
          rw [if_neg (by omega)]
          rw [← hsrs, hkv]
          rfl
        refine ⟨s, ?_, hca⟩
        rw [CursorSeek, hsi]
        simp only
        rw [hsrs, List.head?_cons]
        simp only
        rw [hc]
        simp only
        rw [if_neg (by omega)]
        simp only [Option.map_some']
        rw [pubOut_eq, ← hsrs]
      · have hidx : ¬ r.index < c := fun h4 =>
          hts (by rw [hsrs]; exact (topSlack_cons hc).mpr h4)
        have hsi : seekInternal b key fuel = some (none, s) := by
          rw [seekInternal, hse]
          simp only
          rw [hsrs, List.head?_cons]
          simp only
          rw [hc]
          simp only
          rw [if_pos (by omega), ← hsrs]
        obtain ⟨s2, hcne, hca2, hts2⟩ :=
          (cnext_spec hca hwf fuel hfuel istar (Or.inr ⟨hts, rfl⟩)).1 hlt
        refine ⟨s2, ?_, hca2⟩
        rw [CursorSeek, hsi]
        simp only
        rw [hsrs, List.head?_cons]
        simp only
        rw [hc]
        simp only
        rw [if_pos (by omega), ← hsrs, hcne]
        rw [Option.map_some', pubOut_eq]
    · intro hEq
      have hts : ¬ topSlack s := fun h4 => by
        have h5 := (CursorAt_bounds hca).2 h4
        omega
      have hidx : ¬ r.index < c := fun h4 =>
        hts (by rw [hsrs]; exact (topSlack_cons hc).mpr h4)
      have hsi : seekInternal b key fuel = some (none, s) := by
        rw [seekInternal, hse]
        simp only
        rw [hsrs, List.head?_cons]
        simp only
        rw [hc]
        simp only
        rw [if_pos (by omega), ← hsrs]
      have hcne := (cnext_spec hca hwf fuel hfuel istar (Or.inr ⟨hts, rfl⟩)).2 hEq
      refine ⟨s, ?_⟩
      rw [CursorSeek, hsi]
      simp only
      rw [hsrs, List.head?_cons]
      simp only
      rw [hc]
      simp only
      rw [if_pos (by omega), ← hsrs, hcne]
      rfl
  refine ⟨hmain, ?_⟩
  have hpos : 0 < t.leaves.length :=
    List.length_pos.mpr (leaves_ne_nil t.depth t (le_refl _) hwf)
  exact (hmain [] 0 (fun l hl => absurd hl (Nat.not_lt_zero l))
    (fun _ => bytesCompare_nil_right _) (by omega)).1 hpos

theorem c3_seek_leftmost_witness :
    ∃ s, CursorSeek
        { root := 3
          pageNode := fun pg =>
            if pg = 3 then
              (some { id := 3, flags := 2, count := 2, leafElems := [⟨0, [1], [10]⟩, ⟨0, [2], [20]⟩] }, none)
            else (none, none) } 2 [2] =
      some ((some [2], some [20]), s) := by
  obtain ⟨s, h1, -⟩ :=
    ((c3_seek_leftmost
      { root := 3
        pageNode := fun pg =>
          if pg = 3 then
            (some { id := 3, flags := 2, count := 2, leafElems := [⟨0, [1], [10]⟩, ⟨0, [2], [20]⟩] }, none)
          else (none, none) }
      (btree.leaf [⟨0, [1], [10]⟩, ⟨0, [2], [20]⟩]) 2
      (by
        apply Represents.leaf
        exact ⟨rfl, rfl, rfl⟩)
      (by
        rw [btree.wf]
        decide)
      (by
        intro k l hkl hll
        rw [btree.leaves] at hll
        simp only [List.length_cons, List.length_nil] at hll
        interval_cases l
        · omega
        · interval_cases k
          decide)
      (by
        rw [btree.depth]
        omega)).1 [2] 1
      (by
        intro l hl
        interval_cases l
        decide)
      (by
        intro h4
        decide)
      (by
        rw [btree.leaves]
        decide)).1
      (by
        rw [btree.leaves]
        decide)
  exact ⟨s, h1⟩

end Bolt
